import Mathlib

/-!
Importance analysis over a binary decision diagram.

A shallow embedding of `src/src/importance_analysis.cc` (SCRAM): the selection of
the important events from the cut sets, the computation of the marginal
importance factor by a mark/factor-memoized traversal of the diagram, and the
derivation of the importance measures.  The construction of a formula from the
event dialog of the GUI (`src/gui/mainwindow.cpp`) is embedded in a section of
its own.

Conventions of the embedding.
* The formulas of `Analyze` are evaluated in `Double`, the binary64 format of IEEE 754:
  every operation rounds its exact result to the nearest representable number, ties to
  even, with the subnormal range, overflow to an infinity, and the infinities and NaN
  for a zero divisor.  Each operation is rounded on its own (no fused multiply-add).
  The sign of a zero is not represented; every zero that `Analyze` divides by is `+0`
  (a difference `x - x`, or a top-event probability that is zero).
* The traversal of the diagram only adds, subtracts and multiplies; it is carried out in
  the exact field `ℚ`, and its result, like the probabilities of the events and of the
  top event, enters the formulas of `Analyze` as the nearest `double`
  (`Double.finite`).
* `int` is `Int`; indices of a diagram are far from the limits of `int`.
* The decision nodes live in an arena `Fin n → Ite n`; a vertex pointer is either
  the single terminal vertex or the position of a node in the arena, so a pointer
  always denotes a live node, as a `shared_ptr` does.
* A lookup `find(k)->second` of an absent key and a violated `assert` have no
  result: the embedding returns `none`.
* The recursion of `CalculateMif` carries fuel; `none` is also the answer when the
  fuel runs out. The public entry point supplies `n + 1`, which always suffices
  (`CalculateMifRec_total`).
-/

namespace Scram

/-- Vertex pointer of the diagram: the terminal vertex or a decision node. -/
inductive Vertex (n : Nat) where
  | terminal : Vertex n
  | ite (id : Fin n) : Vertex n
deriving DecidableEq

/-- Decision node (`Ite`): its permanent fields and the transient mark and factor. -/
structure Ite (n : Nat) where
  index : Int
  order : Int
  module : Bool
  high : Vertex n
  low : Vertex n
  complement_edge : Bool
  mark : Bool
  factor : ℚ
  prob : ℚ
deriving DecidableEq

/-- Function of the diagram (`Bdd::Function`): a vertex and the complement flag of the edge. -/
structure Bdd.Function (n : Nat) where
  vertex : Vertex n
  complement : Bool
deriving DecidableEq

/-- Diagram: root edge, node arena, module table and variable ordering. -/
structure Bdd (n : Nat) where
  root : Bdd.Function n
  nodes : Fin n → Ite n
  gates : Int → Option (Bdd.Function n)
  index_to_order : Int → Option Int

/-- Assignment `ite->mark(m)` on the node at position `id`. -/
def Bdd.setMark {n : Nat} (b : Bdd n) (id : Fin n) (m : Bool) : Bdd n :=
  { b with nodes := fun j => if j = id then { b.nodes id with mark := m } else b.nodes j }

/-- Assignment `ite->factor(x)` on the node at position `id`. -/
def Bdd.setFactor {n : Nat} (b : Bdd n) (id : Fin n) (x : ℚ) : Bdd n :=
  { b with nodes := fun j => if j = id then { b.nodes id with factor := x } else b.nodes j }

/-- Modelled from the spec: `Bdd::ClearMarks(mark)` is called by `CalculateMif` but not
defined in `importance_analysis.cc`; the spec describes it as the single operation that
resets every node's mark bit to a caller-chosen value. -/
def Bdd.ClearMarks {n : Nat} (b : Bdd n) (mark : Bool) : Bdd n :=
  { b with nodes := fun j => { b.nodes j with mark := mark } }

/-- Cached probability behind a vertex pointer: `1` for the terminal. -/
def RetrieveProbability {n : Nat} (b : Bdd n) : Vertex n → ℚ
  | .terminal => 1
  | .ite id => (b.nodes id).prob

/-- Recursive `CalculateMif(vertex, order, mark)`, with fuel.  The result is the
returned factor and the diagram after the call. -/
def CalculateMifRec {n : Nat} (var_probs : Int → ℚ) (order : Int) (mark : Bool) :
    Nat → Bdd n → Vertex n → Option (ℚ × Bdd n)
  | _, b, .terminal => some (0, b)
  | 0, _, .ite _ => none
  | fuel + 1, b, .ite id =>
    if (b.nodes id).mark = mark then some ((b.nodes id).factor, b)
    else
      let b1 := b.setMark id mark
      if (b1.nodes id).order > order then
        if (b1.nodes id).module = false then
          let b2 := b1.setFactor id 0
          some ((b2.nodes id).factor, b2)
        else
          let high := RetrieveProbability b1 (b1.nodes id).high
          let low0 := RetrieveProbability b1 (b1.nodes id).low
          let low := if (b1.nodes id).complement_edge then 1 - low0 else low0
          match b1.gates (b1.nodes id).index with
          | none => none
          | some res =>
            match CalculateMifRec var_probs order mark fuel b1 res.vertex with
            | none => none
            | some (mif0, b2) =>
              let mif := if res.complement then -mif0 else mif0
              let b3 := b2.setFactor id ((high - low) * mif)
              some ((b3.nodes id).factor, b3)
      else if (b1.nodes id).order = order then
        if (b1.nodes id).module then none
        else
          let high := RetrieveProbability b1 (b1.nodes id).high
          let low0 := RetrieveProbability b1 (b1.nodes id).low
          let low := if (b1.nodes id).complement_edge then 1 - low0 else low0
          let b2 := b1.setFactor id (high - low)
          some ((b2.nodes id).factor, b2)
      else
        let var_prob : Option ℚ :=
          if (b1.nodes id).module then
            match b1.gates (b1.nodes id).index with
            | none => none
            | some res =>
              let q := RetrieveProbability b1 res.vertex
              some (if res.complement then 1 - q else q)
          else some (var_probs (b1.nodes id).index)
        match var_prob with
        | none => none
        | some q =>
          match CalculateMifRec var_probs order mark fuel b1 (b1.nodes id).high with
          | none => none
          | some (high, b2) =>
            match CalculateMifRec var_probs order mark fuel b2 (b2.nodes id).low with
            | none => none
            | some (low0, b3) =>
              let low := if (b3.nodes id).complement_edge then -low0 else low0
              let b4 := b3.setFactor id (q * high + (1 - q) * low)
              some ((b4.nodes id).factor, b4)

/-- Public `CalculateMif(index)`: the factor of the root vertex for the order of the
variable, computed under the inverted mark, followed by `ClearMarks(original_mark)`. -/
def CalculateMif {n : Nat} (var_probs : Int → ℚ) (b : Bdd n) (index : Int) :
    Option (ℚ × Bdd n) :=
  match b.root.vertex with
  | .terminal => some (0, b)
  | .ite r =>
    let original_mark := (b.nodes r).mark
    match b.index_to_order index with
    | none => none
    | some order =>
      match CalculateMifRec var_probs order (!original_mark) (n + 1) b b.root.vertex with
      | none => none
      | some (mif, b1) => some (mif, b1.ClearMarks original_mark)

/-- Basic event of the model: identifier and probability. -/
structure BasicEvent where
  id : String
  p : ℚ
deriving DecidableEq

/-- One pass of the inner loop of `GatherImportantEvents`: the state is the list
built so far and the set `unique_indices`. -/
def gatherStep (graph : Int → BasicEvent)
    (st : List (Int × BasicEvent) × List Int) (index : Int) :
    List (Int × BasicEvent) × List Int :=
  if (Int.natAbs index : Int) ∈ st.2 then st
  else
    let pos_index : Int := Int.natAbs index
    (st.1 ++ [(pos_index, graph pos_index)], pos_index :: st.2)

/-- Static `GatherImportantEvents(graph, cut_sets)`; `graph` stands for
`graph->GetBasicEvent`. -/
def GatherImportantEvents (graph : Int → BasicEvent) (cut_sets : List (List Int)) :
    List (Int × BasicEvent) :=
  (cut_sets.foldl (fun st cut_set => cut_set.foldl (gatherStep graph) st) ([], [])).1

/-- Value of a `double` in the formulas of `Analyze`: a finite number of the binary64
format of IEEE 754, held as the rational it denotes, an infinity with its sign, or NaN.
The sign of a zero is not represented: `num 0` stands for `+0`. -/
inductive Double where
  | num (q : ℚ) : Double
  | infinity (negative : Bool) : Double
  | nan : Double
deriving DecidableEq

/-- Rounding of a rational to the nearest integer, a tie to the even one. -/
def roundEven (x : ℚ) : ℤ :=
  if x - ⌊x⌋ < 1 / 2 then ⌊x⌋
  else if 1 / 2 < x - ⌊x⌋ then ⌊x⌋ + 1
  else if ⌊x⌋ % 2 = 0 then ⌊x⌋ else ⌊x⌋ + 1

/-- Number of binary digits of `n`, by halving; the first argument bounds the number
of halvings. -/
def bitLength : Nat → Nat → Nat
  | 0, _ => 0
  | fuel + 1, n => if n = 0 then 0 else bitLength fuel (n / 2) + 1

/-- Exponent of the binade of a positive rational `a`: the integer `e` with
`2 ^ e ≤ a < 2 ^ (e + 1)`, found from the lengths of numerator and denominator. -/
def Double.binade (a : ℚ) : ℤ :=
  if (2 : ℚ) ^ ((bitLength a.num.natAbs a.num.natAbs : ℤ) - (bitLength a.den a.den : ℤ)) ≤ a then
    (bitLength a.num.natAbs a.num.natAbs : ℤ) - (bitLength a.den a.den : ℤ)
  else (bitLength a.num.natAbs a.num.natAbs : ℤ) - (bitLength a.den a.den : ℤ) - 1

/-- Spacing of the binary64 numbers at `q`: `2 ^ (e - 52)` for
`2 ^ e ≤ |q| < 2 ^ (e + 1)`, and the spacing `2 ^ (-1074)` of the subnormal numbers for
`|q| < 2 ^ (-1022)`. -/
def Double.ulp (q : ℚ) : ℚ :=
  2 ^ (max (Double.binade |q|) (-1022) - 52)

/-- Round to nearest, ties to even, in binary64 with the exponent unbounded above: the
multiple of the spacing at `q` that is nearest to `q`, with an even multiplier in a tie. -/
def Double.rnd (q : ℚ) : ℚ :=
  roundEven (q / Double.ulp q) * Double.ulp q

/-- Largest finite binary64 number, `(2 ^ 53 - 1) * 2 ^ 971`. -/
def Double.maxFinite : ℚ :=
  ((2 ^ 1024 - 2 ^ 971 : ℕ) : ℚ)

/-- Least magnitude that rounds to an infinity, `2 ^ 1024 - 2 ^ 970`: the midpoint
between the largest finite number and `2 ^ 1024`. -/
def Double.overflowThreshold : ℚ :=
  ((2 ^ 1024 - 2 ^ 970 : ℕ) : ℚ)

/-- Result of an arithmetic operation of IEEE 754 whose exact value is `q`, in the
default rounding mode: the nearest binary64 number, an infinity on overflow. -/
def Double.round (q : ℚ) : Double :=
  if Double.overflowThreshold ≤ |q| then .infinity (decide (q < 0)) else .num (Double.rnd q)

/-- Value of the finite binary64 number nearest to the rational `q`. -/
def Double.nearest (q : ℚ) : ℚ :=
  Double.rnd (max (-Double.maxFinite) (min q Double.maxFinite))

/-- The finite `double` nearest to the rational `q`.  This is how a rational of the
embedding enters the formulas of `Analyze`: `1 / 10` stands for the `double` `0.1`. -/
def Double.finite (q : ℚ) : Double :=
  .num (Double.nearest q)

/-- Negation of a `double`. -/
def Double.neg : Double → Double
  | .num a => .num (-a)
  | .infinity s => .infinity (!s)
  | .nan => .nan

/-- Addition of `double`s: the rounded sum of finite values, IEEE 754 on the special
values (`inf - inf` is NaN). -/
def Double.add : Double → Double → Double
  | .num a, .num b => Double.round (a + b)
  | .num _, .infinity s => .infinity s
  | .infinity s, .num _ => .infinity s
  | .infinity s, .infinity t => if s = t then .infinity s else .nan
  | _, _ => .nan

/-- Multiplication of `double`s: the rounded product of finite values, IEEE 754 on the
special values (`0 * inf` is NaN). -/
def Double.mul : Double → Double → Double
  | .num a, .num b => Double.round (a * b)
  | .num a, .infinity s => if a = 0 then .nan else .infinity (xor s (decide (a < 0)))
  | .infinity s, .num a => if a = 0 then .nan else .infinity (xor s (decide (a < 0)))
  | .infinity s, .infinity t => .infinity (xor s t)
  | _, _ => .nan

/-- Division of `double`s: the rounded quotient of finite values with a nonzero divisor;
IEEE 754 otherwise: `0 / 0` is NaN, a nonzero value over zero is the infinity of its sign,
a finite value over an infinity is zero, `inf / inf` is NaN. -/
def Double.div : Double → Double → Double
  | .num a, .num b =>
    if b = 0 then (if a = 0 then .nan else .infinity (decide (a < 0)))
    else Double.round (a / b)
  | .num _, .infinity _ => .num 0
  | .infinity s, .num b => .infinity (xor s (decide (b < 0)))
  | _, _ => .nan

instance : Neg Double := ⟨Double.neg⟩

instance : Add Double := ⟨Double.add⟩

instance : Sub Double := ⟨fun a b => Double.add a (Double.neg b)⟩

instance : Mul Double := ⟨Double.mul⟩

instance : Div Double := ⟨Double.div⟩

instance : Coe ℚ Double := ⟨Double.finite⟩

instance (k : Nat) : OfNat Double k := ⟨Double.finite k⟩

/-- Importance factors of one event. -/
structure ImportanceFactors where
  mif : Double
  cif : Double
  raw : Double
  dif : Double
  rrw : Double
deriving DecidableEq

/-- Analyzer state: the diagram and the tables of the probability analysis it reads,
and the two result containers. -/
structure ImportanceAnalysis (n : Nat) where
  bdd_graph_ : Bdd n
  var_probs : Int → ℚ
  p_total : ℚ
  graph : Int → BasicEvent
  cut_sets : List (List Int)
  importance_ : String → Option ImportanceFactors
  important_events_ : List (BasicEvent × ImportanceFactors)

/-- Insertion `map.emplace(key, value)`: an existing key keeps its value. -/
def emplace (m : String → Option ImportanceFactors) (key : String) (imp : ImportanceFactors) :
    String → Option ImportanceFactors :=
  fun k => if k = key then (match m key with | some old => some old | none => some imp) else m k

/-- Body of the loop of `Analyze` for one target event. -/
def analyzeEvent {n : Nat} (a : ImportanceAnalysis n) (event : Int × BasicEvent) :
    Option (ImportanceAnalysis n) :=
  let p_total : Double := a.p_total
  let p_var : Double := event.2.p
  match CalculateMif a.var_probs a.bdd_graph_ event.1 with
  | none => none
  | some (mif0, b1) =>
    let mif : Double := mif0
    let cif := p_var * mif / p_total
    let raw := 1 + (1 - p_var) * mif / p_total
    let dif := p_var * raw
    let rrw := p_total / (p_total - p_var * mif)
    let imp : ImportanceFactors := { mif := mif, cif := cif, raw := raw, dif := dif, rrw := rrw }
    some { a with
      bdd_graph_ := b1
      importance_ := emplace a.importance_ event.2.id imp
      important_events_ := a.important_events_ ++ [(event.2, imp)] }

/-- Loop of `Analyze` over the target events. -/
def analyzeLoop {n : Nat} : List (Int × BasicEvent) → ImportanceAnalysis n →
    Option (ImportanceAnalysis n)
  | [], a => some a
  | event :: rest, a =>
    match analyzeEvent a event with
    | none => none
    | some a1 => analyzeLoop rest a1

/-- Method `Analyze()`. -/
def Analyze {n : Nat} (a : ImportanceAnalysis n) : Option (ImportanceAnalysis n) :=
  analyzeLoop (GatherImportantEvents a.graph a.cut_sets) a

/-! ## Specification side

The sequence the target-set selector is specified to return, and the probability
evaluator, whose cached results the importance analysis reads and which is not defined
in `importance_analysis.cc`. -/

/-- Spec: a sequence with every occurrence after the first of each value removed. -/
def firstOccurrences : List Int → List Int
  | [] => []
  | x :: xs => x :: (firstOccurrences xs).filter (fun y => decide (y ≠ x))

/-- Probability behind a vertex pointer under a labeling `P` of the nodes: `1` for the
terminal (the counterpart of `RetrieveProbability` for an arbitrary labeling). -/
def edgeProb {n : Nat} (P : Fin n → ℚ) : Vertex n → ℚ
  | .terminal => 1
  | .ite j => P j

/-- Modelled from the spec: the probability evaluator is not defined in
`importance_analysis.cc`.  Probability of node `j` from the labeling of its successors: with `q` the probability
of the tested variable (the complement-adjusted probability of the module root for a
module reference), `q * P(high) + (1 - q) * P(low)`, the low value transformed to
`1 - P(low)` under a complement edge.  No value when the module has no entry in `gates`. -/
def nodeProb {n : Nat} (b : Bdd n) (p : Int → ℚ) (P : Fin n → ℚ) (j : Fin n) : Option ℚ :=
  (if (b.nodes j).module then
      match b.gates (b.nodes j).index with
      | none => none
      | some res =>
        some (if res.complement then 1 - edgeProb P res.vertex else edgeProb P res.vertex)
    else some (p (b.nodes j).index)).map fun q =>
    q * edgeProb P (b.nodes j).high
      + (1 - q) * (if (b.nodes j).complement_edge then 1 - edgeProb P (b.nodes j).low
                   else edgeProb P (b.nodes j).low)

/-- Modelled from the spec: a labeling of the nodes is a valid probability evaluation
for the variable probabilities `p` when every node carries the probability computed
from its successors. -/
def ProbValid {n : Nat} (b : Bdd n) (p : Int → ℚ) (P : Fin n → ℚ) : Prop :=
  ∀ j, nodeProb b p P j = some (P j)

/-- Top-event probability under a labeling: the probability behind the root edge,
transformed by its complement flag. -/
def topProb {n : Nat} (b : Bdd n) (P : Fin n → ℚ) : ℚ :=
  if b.root.complement then 1 - edgeProb P b.root.vertex else edgeProb P b.root.vertex

/-- The cached probabilities of the diagram are valid for `p`. -/
def CachedValid {n : Nat} (b : Bdd n) (p : Int → ℚ) : Prop :=
  ProbValid b p fun j => (b.nodes j).prob

/-- Modelled from the spec: the probability evaluator is not defined in
`importance_analysis.cc`.  Probability of the function behind a vertex for the variable probabilities `p`, by the
decomposition on the tested variable (for a module reference, on the complement-adjusted
probability of the module), with fuel.  No value when a module has no entry in `gates`
or when the fuel runs out. -/
def CalculateProbability {n : Nat} (p : Int → ℚ) : Nat → Bdd n → Vertex n → Option ℚ
  | _, _, .terminal => some 1
  | 0, _, .ite _ => none
  | fuel + 1, b, .ite j =>
    let var_prob : Option ℚ :=
      if (b.nodes j).module then
        match b.gates (b.nodes j).index with
        | none => none
        | some res =>
          (CalculateProbability p fuel b res.vertex).map fun r =>
            if res.complement then 1 - r else r
      else some (p (b.nodes j).index)
    match var_prob, CalculateProbability p fuel b (b.nodes j).high,
        CalculateProbability p fuel b (b.nodes j).low with
    | some q, some high, some low =>
      some (q * high + (1 - q) * (if (b.nodes j).complement_edge then 1 - low else low))
    | _, _, _ => none

/-- Probability of node `j` for the variable probabilities `p`: the evaluator with fuel
`n`, the number of nodes (`0` stands for the missing value). -/
def probabilityOf {n : Nat} (b : Bdd n) (p : Int → ℚ) (j : Fin n) : ℚ :=
  (CalculateProbability p n b (.ite j)).getD 0

/-- Top-event probability of the diagram for the variable probabilities `p`. -/
def topProbability {n : Nat} (b : Bdd n) (p : Int → ℚ) : ℚ :=
  topProb b (probabilityOf b p)

/-! ## Well-formedness of a diagram -/

/-- All decision nodes carry the same mark. -/
def UniformMarks {n : Nat} (b : Bdd n) : Prop :=
  ∀ j k, (b.nodes j).mark = (b.nodes k).mark

/-- Node `w` is the target of the high or of the low edge of node `u`. -/
def Bdd.child {n : Nat} (b : Bdd n) (u w : Fin n) : Prop :=
  (b.nodes u).high = .ite w ∨ (b.nodes u).low = .ite w

/-- Node `u` is a module reference and node `w` is the root vertex of its module in
the `gates` table. -/
def Bdd.moduleRoot {n : Nat} (b : Bdd n) (u w : Fin n) : Prop :=
  (b.nodes u).module = true ∧
    ∃ res, b.gates (b.nodes u).index = some res ∧ res.vertex = .ite w

/-- One step of the diagram of diagrams: along an edge or into a referenced module. -/
def Bdd.step {n : Nat} (b : Bdd n) (u w : Fin n) : Prop :=
  b.child u w ∨ b.moduleRoot u w

/-- Node `w` lies inside the module that node `u` references: it is reached from the
root of the module along edges and through further module references. -/
def Bdd.inside {n : Nat} (b : Bdd n) (u w : Fin n) : Prop :=
  ∃ g, b.moduleRoot u g ∧ Relation.ReflTransGen b.step g w

/-- Orders strictly increase along every edge. -/
def EdgesIncrease {n : Nat} (b : Bdd n) : Prop :=
  ∀ u w, b.child u w → (b.nodes u).order < (b.nodes w).order

/-- No decision node is a module reference. -/
def ModuleFree {n : Nat} (b : Bdd n) : Prop :=
  ∀ j, (b.nodes j).module = false

/-- Every module reference has its entry in the `gates` table. -/
def GatesPresent {n : Nat} (b : Bdd n) : Prop :=
  ∀ j, (b.nodes j).module = true → (b.gates (b.nodes j).index).isSome = true

/-- The decision nodes that carry the order `order` are exactly the plain nodes that
test the variable `index`. -/
def TestsAt {n : Nat} (b : Bdd n) (index order : Int) : Prop :=
  ∀ j, (b.nodes j).order = order ↔ ((b.nodes j).module = false ∧ (b.nodes j).index = index)

/-- The assumption stated in the code of `CalculateMif`: the order of a module
reference is larger than the order of every node inside the module. -/
def ModuleAboveItsNodes {n : Nat} (b : Bdd n) : Prop :=
  ∀ u w, b.inside u w → (b.nodes w).order < (b.nodes u).order

/-- Modules sit below their external references: the nodes inside a module have
orders greater than the order of every node from which the module reference is reached
along edges. -/
def ModuleBelowReferences {n : Nat} (b : Bdd n) : Prop :=
  ∀ u m w, Relation.TransGen b.child u m → b.inside m w →
    (b.nodes u).order < (b.nodes w).order

/-- First record of a list of records that belongs to the identifier `key`. -/
def firstRecord (recs : List (BasicEvent × ImportanceFactors)) (key : String) :
    Option ImportanceFactors :=
  (recs.find? fun r => decide (r.1.id = key)).map Prod.snd

/-- Record that `Analyze` builds from the probabilities and the factor `mif`. -/
def recordOf (p_var mif p_total : ℚ) : ImportanceFactors :=
  { mif := (mif : Double)
    cif := (p_var : Double) * (mif : Double) / (p_total : Double)
    raw := 1 + (1 - (p_var : Double)) * (mif : Double) / (p_total : Double)
    dif := (p_var : Double) * (1 + (1 - (p_var : Double)) * (mif : Double) / (p_total : Double))
    rrw := (p_total : Double) / ((p_total : Double) - (p_var : Double) * (mif : Double)) }

/-- Big-step relation of the recursive `CalculateMif`: `MifRun p order mark b v r b2`
holds when the call on vertex `v` in diagram state `b` returns `r` and leaves the
state `b2`.  One constructor per path through the function body. -/
inductive MifRun {n : Nat} (var_probs : Int → ℚ) (order : Int) (mark : Bool) :
    Bdd n → Vertex n → ℚ → Bdd n → Prop
  | terminal (b : Bdd n) : MifRun var_probs order mark b .terminal 0 b
  | cached (b : Bdd n) (id : Fin n) (hm : (b.nodes id).mark = mark) :
      MifRun var_probs order mark b (.ite id) (b.nodes id).factor b
  | past (b : Bdd n) (id : Fin n) (hm : (b.nodes id).mark ≠ mark)
      (ho : order < (b.nodes id).order) (hmod : (b.nodes id).module = false) :
      MifRun var_probs order mark b (.ite id) 0 ((b.setMark id mark).setFactor id 0)
  | pastModule (b : Bdd n) (id : Fin n) (res : Bdd.Function n) (mif0 : ℚ) (b2 : Bdd n)
      (hm : (b.nodes id).mark ≠ mark)
      (ho : order < (b.nodes id).order) (hmod : (b.nodes id).module = true)
      (hres : b.gates (b.nodes id).index = some res)
      (hrec : MifRun var_probs order mark (b.setMark id mark) res.vertex mif0 b2) :
      MifRun var_probs order mark b (.ite id)
        ((RetrieveProbability b (b.nodes id).high
            - (if (b.nodes id).complement_edge then 1 - RetrieveProbability b (b.nodes id).low
               else RetrieveProbability b (b.nodes id).low))
          * (if res.complement then -mif0 else mif0))
        (b2.setFactor id
          ((RetrieveProbability b (b.nodes id).high
            - (if (b.nodes id).complement_edge then 1 - RetrieveProbability b (b.nodes id).low
               else RetrieveProbability b (b.nodes id).low))
          * (if res.complement then -mif0 else mif0)))
  | target (b : Bdd n) (id : Fin n) (hm : (b.nodes id).mark ≠ mark)
      (ho : (b.nodes id).order = order) (hmod : (b.nodes id).module = false) :
      MifRun var_probs order mark b (.ite id)
        (RetrieveProbability b (b.nodes id).high
            - (if (b.nodes id).complement_edge then 1 - RetrieveProbability b (b.nodes id).low
               else RetrieveProbability b (b.nodes id).low))
        ((b.setMark id mark).setFactor id
          (RetrieveProbability b (b.nodes id).high
            - (if (b.nodes id).complement_edge then 1 - RetrieveProbability b (b.nodes id).low
               else RetrieveProbability b (b.nodes id).low)))
  | descend (b : Bdd n) (id : Fin n) (q high low0 : ℚ) (b2 b3 : Bdd n)
      (hm : (b.nodes id).mark ≠ mark)
      (ho : (b.nodes id).order < order)
      (hq : (if (b.nodes id).module then
              match b.gates (b.nodes id).index with
              | none => none
              | some res =>
                some (if res.complement then 1 - RetrieveProbability b res.vertex
                  else RetrieveProbability b res.vertex)
            else some (var_probs (b.nodes id).index)) = some q)
      (hhigh : MifRun var_probs order mark (b.setMark id mark) (b.nodes id).high high b2)
      (hlow : MifRun var_probs order mark b2 (b2.nodes id).low low0 b3) :
      MifRun var_probs order mark b (.ite id)
        (q * high + (1 - q) * (if (b3.nodes id).complement_edge then -low0 else low0))
        (b3.setFactor id
          (q * high + (1 - q) * (if (b3.nodes id).complement_edge then -low0 else low0)))

/-- Permanent part of a node: the node with its transient mark and factor blanked. -/
def Ite.shape {n : Nat} (x : Ite n) : Ite n :=
  { x with mark := false, factor := 0 }

/-- Effect of a pass with target mark `mark` on one node: the permanent fields are kept,
a node already carrying the target mark is untouched, and a node that was changed
ends with the target mark. -/
def NodeFrame {n : Nat} (mark : Bool) (x y : Ite n) : Prop :=
  y.shape = x.shape ∧ (x.mark = mark → y = x) ∧ (y.mark = mark ∨ y = x)

/-- Effect of a pass on a diagram: tables and root are kept, and every node is framed. -/
def Frame {n : Nat} (mark : Bool) (b b2 : Bdd n) : Prop :=
  b2.root = b.root ∧ b2.gates = b.gates ∧ b2.index_to_order = b.index_to_order ∧
    ∀ j, NodeFrame mark (b.nodes j) (b2.nodes j)

/-- Two diagram states with the same permanent content: root, tables and the shape
of every node. -/
def SameShape {n : Nat} (b b2 : Bdd n) : Prop :=
  b2.root = b.root ∧ b2.gates = b.gates ∧ b2.index_to_order = b.index_to_order ∧
    ∀ j, (b2.nodes j).shape = (b.nodes j).shape

/-- Setting of the correctness proof of `CalculateMif` for the variable `index` with
order `order`: a well-formed diagram `b` with valid cached probabilities for `p`,
together with valid labelings `Px` and `Py` for the variable probabilities with the
probability of `index` replaced by `x` and by `y`. -/
structure MifSetting {n : Nat} (b : Bdd n) (p : Int → ℚ) (index order : Int)
    (x y : ℚ) (Px Py : Fin n → ℚ) : Prop where
  edges : EdgesIncrease b
  above : ModuleAboveItsNodes b
  below : ModuleBelowReferences b
  tests : TestsAt b index order
  cached : CachedValid b p
  validx : ProbValid b (Function.update p index x) Px
  validy : ProbValid b (Function.update p index y) Py

/-! ## Sample diagrams -/

/-- Diagram of `x1` behind a root edge with complement flag `c` (the top event is
`¬x1` for `c = true`), with the cached probability for `p1`. -/
def varBdd (c : Bool) (p1 : ℚ) : Bdd 1 :=
  { root := { vertex := .ite 0, complement := c }
    nodes := fun _ =>
      { index := 1, order := 1, module := false, high := .terminal, low := .terminal,
        complement_edge := true, mark := false, factor := 0, prob := p1 }
    gates := fun _ => none
    index_to_order := fun i => if i = 1 then some 1 else none }

/-- Diagram of `x1 ∧ x2` with cached probabilities for `p1`, `p2`: node `0` tests
variable 1 and leads to node `1`, which tests variable 2. -/
def andBdd (p1 p2 : ℚ) : Bdd 2 :=
  { root := { vertex := .ite 0, complement := false }
    nodes := fun j =>
      if j = 0 then
        { index := 1, order := 1, module := false, high := .ite 1, low := .terminal,
          complement_edge := true, mark := false, factor := 0, prob := p1 * p2 }
      else
        { index := 2, order := 2, module := false, high := .terminal, low := .terminal,
          complement_edge := true, mark := false, factor := 0, prob := p2 }
    gates := fun _ => none
    index_to_order := fun i => if i = 1 then some 1 else if i = 2 then some 2 else none }

/-- The diagram of `x1 ∧ x2` in a state where node `1` carries a mark that differs from
the mark of the root. -/
def staleAndBdd : Bdd 2 :=
  (andBdd (1 / 10) (1 / 5)).setMark 1 true

/-- Analyzer over `andBdd` with `p1 = 1/10`, `p2 = 1/5`, the cut set `{1, 2}` and empty
result containers. -/
def andAnalysis : ImportanceAnalysis 2 :=
  { bdd_graph_ := andBdd (1 / 10) (1 / 5)
    var_probs := fun i => if i = 1 then 1 / 10 else 1 / 5
    p_total := 1 / 50
    graph := fun i => if i = 1 then { id := "e1", p := 1 / 10 } else { id := "e2", p := 1 / 5 }
    cut_sets := [[1, 2]]
    importance_ := fun _ => none
    important_events_ := [] }

/-- Diagram whose top event is the module `M` (gate index `10`) with `M = x1`: node `0`
is the module reference, with order `ordM`, and node `1`, the root of the module, tests
variable `1`, with order `ordX`; the cached probabilities are those for `P(x1) = px`. -/
def moduleBdd (ordM ordX : Int) (px : ℚ) : Bdd 2 :=
  { root := { vertex := .ite 0, complement := false }
    nodes := fun j =>
      if j = 0 then
        { index := 10, order := ordM, module := true, high := .terminal, low := .terminal,
          complement_edge := true, mark := false, factor := 0, prob := px }
      else
        { index := 1, order := ordX, module := false, high := .terminal, low := .terminal,
          complement_edge := true, mark := false, factor := 0, prob := px }
    gates := fun i => if i = 10 then some { vertex := .ite 1, complement := false } else none
    index_to_order := fun i => if i = 1 then some ordX else none }

/-- Diagram of `x1 ∧ M` with the module `M = x2` (gate index `10`): node `0` tests
variable 1 (order `1`) and leads to node `1`, the module reference (order `3`); node
`2`, the root of the module, tests variable 2 (order `2`). -/
def outerModuleBdd (p1 p2 : ℚ) : Bdd 3 :=
  { root := { vertex := .ite 0, complement := false }
    nodes := fun j =>
      if j = 0 then
        { index := 1, order := 1, module := false, high := .ite 1, low := .terminal,
          complement_edge := true, mark := false, factor := 0, prob := p1 * p2 }
      else if j = 1 then
        { index := 10, order := 3, module := true, high := .terminal, low := .terminal,
          complement_edge := true, mark := false, factor := 0, prob := p2 }
      else
        { index := 2, order := 2, module := false, high := .terminal, low := .terminal,
          complement_edge := true, mark := false, factor := 0, prob := p2 }
    gates := fun i => if i = 10 then some { vertex := .ite 2, complement := false } else none
    index_to_order := fun i => if i = 1 then some 1 else if i = 2 then some 2 else none }

/-- Constant diagram: the root edge points to the terminal vertex; the top event is
constant true for `c = false` and constant false for the complemented edge, `c = true`. -/
def constBdd (c : Bool) : Bdd 0 :=
  { root := { vertex := .terminal, complement := c }
    nodes := fun j => j.elim0
    gates := fun _ => none
    index_to_order := fun _ => none }

/-- Analyzer over a constant diagram, with the top-event probability of the constant
(`1` for true, `0` for false), the cut set `{1}`, events of probability `pv` and empty
result containers. -/
def constAnalysis (c : Bool) (pv : ℚ) : ImportanceAnalysis 0 :=
  { bdd_graph_ := constBdd c
    var_probs := fun _ => pv
    p_total := if c then 0 else 1
    graph := fun _ => { id := "e", p := pv }
    cut_sets := [[1]]
    importance_ := fun _ => none
    important_events_ := [] }

/-- Diagram of `x1 ∨ x2` with cached probabilities for `p1`, `p2`: node `0` tests
variable 1, its high edge leads to the terminal and its uncomplemented low edge to node
`1`, which tests variable 2. -/
def orBdd (p1 p2 : ℚ) : Bdd 2 :=
  { root := { vertex := .ite 0, complement := false }
    nodes := fun j =>
      if j = 0 then
        { index := 1, order := 1, module := false, high := .terminal, low := .ite 1,
          complement_edge := false, mark := false, factor := 0,
          prob := p1 + (1 - p1) * p2 }
      else
        { index := 2, order := 2, module := false, high := .terminal, low := .terminal,
          complement_edge := true, mark := false, factor := 0, prob := p2 }
    gates := fun _ => none
    index_to_order := fun i => if i = 1 then some 1 else if i = 2 then some 2 else none }

/-- Analyzer over `orBdd` with `p1 = 1/10`, `p2 = 1/5`, top-event probability `7/25`, the
cut sets `{1}` and `{2}` and empty result containers. -/
def orAnalysis : ImportanceAnalysis 2 :=
  { bdd_graph_ := orBdd (1 / 10) (1 / 5)
    var_probs := fun i => if i = 1 then 1 / 10 else 1 / 5
    p_total := 7 / 25
    graph := fun i => if i = 1 then { id := "e1", p := 1 / 10 } else { id := "e2", p := 1 / 5 }
    cut_sets := [[1], [2]]
    importance_ := fun _ => none
    important_events_ := [] }

/-! ## The recursion without the cache -/

/-- The recursion of `CalculateMif(vertex, order, mark)` evaluated without the cache:
every node is recomputed on every path, no mark is read and nothing is written.  With
fuel, like `CalculateMifRec`. -/
def CalculateMifPure {n : Nat} (var_probs : Int → ℚ) (order : Int) :
    Nat → Bdd n → Vertex n → Option ℚ
  | _, _, .terminal => some 0
  | 0, _, .ite _ => none
  | fuel + 1, b, .ite id =>
    if (b.nodes id).order > order then
      if (b.nodes id).module = false then some 0
      else
        let high := RetrieveProbability b (b.nodes id).high
        let low0 := RetrieveProbability b (b.nodes id).low
        let low := if (b.nodes id).complement_edge then 1 - low0 else low0
        match b.gates (b.nodes id).index with
        | none => none
        | some res =>
          match CalculateMifPure var_probs order fuel b res.vertex with
          | none => none
          | some mif0 => some ((high - low) * (if res.complement then -mif0 else mif0))
    else if (b.nodes id).order = order then
      if (b.nodes id).module then none
      else
        let high := RetrieveProbability b (b.nodes id).high
        let low0 := RetrieveProbability b (b.nodes id).low
        let low := if (b.nodes id).complement_edge then 1 - low0 else low0
        some (high - low)
    else
      let var_prob : Option ℚ :=
        if (b.nodes id).module then
          match b.gates (b.nodes id).index with
          | none => none
          | some res =>
            let q := RetrieveProbability b res.vertex
            some (if res.complement then 1 - q else q)
        else some (var_probs (b.nodes id).index)
      match var_prob with
      | none => none
      | some q =>
        match CalculateMifPure var_probs order fuel b (b.nodes id).high with
        | none => none
        | some high =>
          match CalculateMifPure var_probs order fuel b (b.nodes id).low with
          | none => none
          | some low0 =>
            some (q * high + (1 - q) * (if (b.nodes id).complement_edge then -low0 else low0))

/-- Factor behind a vertex pointer under a labeling `F` of the nodes: `0` for the
terminal. -/
def vertexFactor {n : Nat} (F : Fin n → ℚ) : Vertex n → ℚ
  | .terminal => 0
  | .ite j => F j

/-- Factor of node `j` for the target order `order`, computed without the cache: the
uncached recursion with fuel `n`, the number of nodes (`0` stands for the missing value). -/
def pureFactor {n : Nat} (b : Bdd n) (var_probs : Int → ℚ) (order : Int) (j : Fin n) : ℚ :=
  (CalculateMifPure var_probs order n b (.ite j)).getD 0

/-- The diagram of diagrams has no cycle: no node is reached from itself along edges
and module references. -/
def Acyclic {n : Nat} (b : Bdd n) : Prop :=
  ∀ u, ¬ Relation.TransGen b.step u u

/-- No module reference carries the order `order` (the assertion of `CalculateMif` at
the target order). -/
def NoModuleAt {n : Nat} (b : Bdd n) (order : Int) : Prop :=
  ∀ j, (b.nodes j).module = true → (b.nodes j).order ≠ order

/-- Setting of the memoization proof: on the acyclic diagram `b`, the labeling `F`
satisfies at every node the equation by which `CalculateMif` computes the factor of the
node from the factors behind its successors. -/
structure MemoSetting {n : Nat} (b : Bdd n) (p : Int → ℚ) (order : Int) (F : Fin n → ℚ) :
    Prop where
  acyclic : Acyclic b
  past : ∀ u, order < (b.nodes u).order → (b.nodes u).module = false → F u = 0
  pastModule : ∀ u res, order < (b.nodes u).order → (b.nodes u).module = true →
    b.gates (b.nodes u).index = some res →
    F u = (RetrieveProbability b (b.nodes u).high
            - (if (b.nodes u).complement_edge then 1 - RetrieveProbability b (b.nodes u).low
               else RetrieveProbability b (b.nodes u).low))
          * (if res.complement then -vertexFactor F res.vertex else vertexFactor F res.vertex)
  target : ∀ u, (b.nodes u).order = order → (b.nodes u).module = false →
    F u = RetrieveProbability b (b.nodes u).high
            - (if (b.nodes u).complement_edge then 1 - RetrieveProbability b (b.nodes u).low
               else RetrieveProbability b (b.nodes u).low)
  descend : ∀ u q, (b.nodes u).order < order →
    (if (b.nodes u).module then
        match b.gates (b.nodes u).index with
        | none => none
        | some res =>
          some (if res.complement then 1 - RetrieveProbability b res.vertex
            else RetrieveProbability b res.vertex)
      else some (p (b.nodes u).index)) = some q →
    F u = q * vertexFactor F (b.nodes u).high
          + (1 - q) * (if (b.nodes u).complement_edge then -vertexFactor F (b.nodes u).low
                       else vertexFactor F (b.nodes u).low)

/-- The variable `index` can be a target of `CalculateMif` on the diagram: it has an
order and no module reference carries that order. -/
def TargetReady {n : Nat} (b : Bdd n) (index : Int) : Prop :=
  ∃ order, b.index_to_order index = some order ∧ NoModuleAt b order

/-- Factor behind the root vertex for the variable `index`, computed without the
cache (`0` when the variable has no order). -/
def pureMif {n : Nat} (b : Bdd n) (p : Int → ℚ) (index : Int) : ℚ :=
  match b.index_to_order index with
  | none => 0
  | some order => vertexFactor (pureFactor b p order) b.root.vertex

/-- Records that one run of `Analyze` computes for the target events `evs`, with the
factors computed without the cache. -/
def pureRecords {n : Nat} (b : Bdd n) (p : Int → ℚ) (p_total : ℚ)
    (evs : List (Int × BasicEvent)) : List (BasicEvent × ImportanceFactors) :=
  evs.map fun ev => (ev.2, recordOf ev.2.p (pureMif b p ev.1) p_total)

/-! ## Sample diagrams with sharing and with an untested variable -/

/-- Diagram of `x1 ↔ x2` with cached probabilities for `p1`, `p2`: both edges of the root
(node `0`, variable 1) lead to the same node `1`, which tests variable 2; the low edge of
the root is complemented. -/
def xnorBdd (p1 p2 : ℚ) : Bdd 2 :=
  { root := { vertex := .ite 0, complement := false }
    nodes := fun j =>
      if j = 0 then
        { index := 1, order := 1, module := false, high := .ite 1, low := .ite 1,
          complement_edge := true, mark := false, factor := 0,
          prob := p1 * p2 + (1 - p1) * (1 - p2) }
      else
        { index := 2, order := 2, module := false, high := .terminal, low := .terminal,
          complement_edge := true, mark := false, factor := 0, prob := p2 }
    gates := fun _ => none
    index_to_order := fun i => if i = 1 then some 1 else if i = 2 then some 2 else none }

/-- Diagram of `x1 ∧ x3` over the variables `x1`, `x2`, `x3` with the orders `1`, `2`,
`3`: node `0` tests variable 1 and leads to node `1`, which tests variable 3; no node
tests variable 2. -/
def skipBdd (p1 p3 : ℚ) : Bdd 2 :=
  { root := { vertex := .ite 0, complement := false }
    nodes := fun j =>
      if j = 0 then
        { index := 1, order := 1, module := false, high := .ite 1, low := .terminal,
          complement_edge := true, mark := false, factor := 0, prob := p1 * p3 }
      else
        { index := 3, order := 3, module := false, high := .terminal, low := .terminal,
          complement_edge := true, mark := false, factor := 0, prob := p3 }
    gates := fun _ => none
    index_to_order := fun i =>
      if i = 1 then some 1 else if i = 2 then some 2 else if i = 3 then some 3 else none }

/-! ## Sample analyzers for the rounding of the measures -/

/-- Analyzer over `andBdd` like `andAnalysis`, with the top-event probability that the
multiplication of the `double`s `0.1` and `0.2` gives: `1441151880758559 / 2 ^ 56`, the
`double` `0.020000000000000004`. -/
def andRoundedAnalysis : ImportanceAnalysis 2 :=
  { bdd_graph_ := andBdd (1 / 10) (1 / 5)
    var_probs := fun i => if i = 1 then 1 / 10 else 1 / 5
    p_total := 1441151880758559 / 72057594037927936
    graph := fun i => if i = 1 then { id := "e1", p := 1 / 10 } else { id := "e2", p := 1 / 5 }
    cut_sets := [[1, 2]]
    importance_ := fun _ => none
    important_events_ := [] }

/-- Reasons for which a call of the recursive `CalculateMif` has no result in the
embedding: the fuel of the embedding ran out, `gates().find(index)` found no entry, or
the assertion `!ite->module()` of the branch of the target order failed. -/
inductive Failure where
  | fuel : Failure
  | gate : Failure
  | assertion : Failure
deriving DecidableEq

/-- The recursive `CalculateMif(vertex, order, mark)` with a log of its writes: the
statements of `CalculateMifRec`, where in addition every assignment `ite->factor(x)`
appends the node to the log, and the reasons for a missing result are told apart. -/
def CalculateMifTrace {n : Nat} (var_probs : Int → ℚ) (order : Int) (mark : Bool) :
    Nat → Bdd n → Vertex n → Except Failure (ℚ × Bdd n × List (Fin n))
  | _, b, .terminal => .ok (0, b, [])
  | 0, _, .ite _ => .error .fuel
  | fuel + 1, b, .ite id =>
    if (b.nodes id).mark = mark then .ok ((b.nodes id).factor, b, [])
    else
      let b1 := b.setMark id mark
      if (b1.nodes id).order > order then
        if (b1.nodes id).module = false then
          let b2 := b1.setFactor id 0
          .ok ((b2.nodes id).factor, b2, [id])
        else
          let high := RetrieveProbability b1 (b1.nodes id).high
          let low0 := RetrieveProbability b1 (b1.nodes id).low
          let low := if (b1.nodes id).complement_edge then 1 - low0 else low0
          match b1.gates (b1.nodes id).index with
          | none => .error .gate
          | some res =>
            match CalculateMifTrace var_probs order mark fuel b1 res.vertex with
            | .error e => .error e
            | .ok (mif0, b2, log) =>
              let mif := if res.complement then -mif0 else mif0
              let b3 := b2.setFactor id ((high - low) * mif)
              .ok ((b3.nodes id).factor, b3, log ++ [id])
      else if (b1.nodes id).order = order then
        if (b1.nodes id).module then .error .assertion
        else
          let high := RetrieveProbability b1 (b1.nodes id).high
          let low0 := RetrieveProbability b1 (b1.nodes id).low
          let low := if (b1.nodes id).complement_edge then 1 - low0 else low0
          let b2 := b1.setFactor id (high - low)
          .ok ((b2.nodes id).factor, b2, [id])
      else
        let var_prob : Except Failure ℚ :=
          if (b1.nodes id).module then
            match b1.gates (b1.nodes id).index with
            | none => .error .gate
            | some res =>
              let q := RetrieveProbability b1 res.vertex
              .ok (if res.complement then 1 - q else q)
          else .ok (var_probs (b1.nodes id).index)
        match var_prob with
        | .error e => .error e
        | .ok q =>
          match CalculateMifTrace var_probs order mark fuel b1 (b1.nodes id).high with
          | .error e => .error e
          | .ok (high, b2, log1) =>
            match CalculateMifTrace var_probs order mark fuel b2 (b2.nodes id).low with
            | .error e => .error e
            | .ok (low0, b3, log2) =>
              let low := if (b3.nodes id).complement_edge then -low0 else low0
              let b4 := b3.setFactor id (q * high + (1 - q) * low)
              .ok ((b4.nodes id).factor, b4, log1 ++ log2 ++ [id])

/-! ## Formula extraction of the GUI

`MainWindow::extract<mef::Formula>` of `src/gui/mainwindow.cpp`.  The model, the undo
stack and the classes of `mef` are not defined in that file: the operations that
`extract` calls on them are parameters of the embedding. -/

/-- Connective of a formula (`mef::Connective`).  `extract` names `kAtleast` only; every
other connective is told apart by a code. -/
inductive Connective where
  | kAtleast : Connective
  | other (code : Nat) : Connective
deriving DecidableEq

/-- Data that `extract` reads from the event dialog: `arguments()`, `connective()` and
`minNumber()`. -/
structure EventDialog where
  arguments : List String
  connective : Connective
  minNumber : Int

/-- Operations of the main window used by `extract`, over a state `σ` (model and undo
stack) and a type `α` of argument events.  `GetEvent` is `m_model->GetEvent(arg)`, with
`none` for the exception `mef::UndefinedElement`; `AddEvent` is the handler of that
exception: it creates the basic event `arg` with the attribute `flavor = undeveloped`,
pushes the command `AddEvent` on the undo stack and yields the address of the event. -/
structure MainWindow (σ α : Type) where
  GetEvent : σ → String → Option α
  AddEvent : σ → String → σ × α

/-- Arguments of the call `mef::Formula(connective, std::move(arg_set), minNumber)` that
ends `extract`; `arg_set` is the sequence of the events passed to `arg_set.Add`. -/
structure FormulaCall (α : Type) where
  connective : Connective
  arg_set : List α
  minNumber : Option Int

/-- The lambda `getEvent` of `extract`. -/
def getEvent {σ α : Type} (w : MainWindow σ α) (s : σ) (arg : String) : σ × α :=
  match w.GetEvent s arg with
  | some e => (s, e)
  | none => w.AddEvent s arg

/-- The specialization `MainWindow::extract<mef::Formula>`: the state after the call and
the arguments of the constructor call.  In the lambda `minNumber` the statement
`dialog.minNumber();` of the at-least branch is an expression statement, whose value is
dropped; the lambda ends with `return {};` on every path. -/
def extract {σ α : Type} (w : MainWindow σ α) (s : σ) (dialog : EventDialog) :
    σ × FormulaCall α :=
  let r := dialog.arguments.foldl
    (fun (acc : σ × List α) (arg : String) =>
      let e := getEvent w acc.1 arg
      (e.1, acc.2 ++ [e.2]))
    (s, [])
  let connective := dialog.connective
  let minNumber : Option Int :=
    if connective = Connective.kAtleast then
      (fun (_ : Int) => (none : Option Int)) dialog.minNumber
    else none
  (r.1, { connective := connective, arg_set := r.2, minNumber := minNumber })

/-! ## Theorems -/

/-! ### Target-set selection and the loop of `Analyze` -/

theorem mem_firstOccurrences (a : Int) : ∀ l : List Int, a ∈ firstOccurrences l ↔ a ∈ l
  | [] => by simp [firstOccurrences]
  | x :: xs => by
    simp only [firstOccurrences, List.mem_cons, List.mem_filter, mem_firstOccurrences a xs]
    by_cases h : a = x <;> simp [h]

theorem nodup_firstOccurrences : ∀ l : List Int, (firstOccurrences l).Nodup
  | [] => by simp [firstOccurrences]
  | x :: xs => by
    simp only [firstOccurrences, List.nodup_cons, List.mem_filter]
    exact ⟨by simp, (nodup_firstOccurrences xs).filter _⟩

theorem firstOccurrences_append (l1 l2 : List Int) :
    firstOccurrences (l1 ++ l2)
      = firstOccurrences l1 ++ (firstOccurrences l2).filter (fun y => decide (y ∉ l1)) := by
  induction l1 with
  | nil => simp [firstOccurrences]
  | cons x xs ih =>
    rw [List.cons_append, firstOccurrences, ih, firstOccurrences, List.filter_append,
      List.filter_filter, List.cons_append]
    congr 2
    apply List.filter_congr
    intro y _
    by_cases h : y = x <;> simp [h]

theorem gather_foldl (graph : Int → BasicEvent) : ∀ (xs : List Int)
    (ev : List (Int × BasicEvent)) (seen : List Int),
    (xs.foldl (gatherStep graph) (ev, seen)).1
      = ev ++ (((firstOccurrences (xs.map fun i => |i|)).filter
          (fun y => decide (y ∉ seen))).map fun a => (a, graph a))
  | [], ev, seen => by simp [firstOccurrences]
  | x :: xs, ev, seen => by
    by_cases h : (Int.natAbs x : Int) ∈ seen
    · have h2 : |x| ∈ seen := by simpa using h
      rw [List.foldl_cons, gatherStep, if_pos h, gather_foldl graph xs ev seen]
      simp only [List.map_cons, firstOccurrences, List.filter_cons, List.filter_filter]
      simp only [h2, not_true_eq_false, decide_False, Bool.false_eq_true, if_false]
      congr 2
      apply List.filter_congr
      intro y _
      by_cases hy : y = |x| <;> simp [hy, h2]
    · have h2 : |x| ∉ seen := by simpa using h
      rw [List.foldl_cons, gatherStep, if_neg h]
      simp only []
      rw [gather_foldl graph xs _ _]
      simp only [List.map_cons, firstOccurrences, List.filter_cons, List.filter_filter]
      simp only [h2, not_false_eq_true, decide_True, if_true, Int.natCast_natAbs,
        List.append_assoc, List.singleton_append, List.map_cons]
      congr 3
      apply List.filter_congr
      intro y _
      by_cases hy : y = |x| <;> simp [hy, h2]

theorem gather_eq (graph : Int → BasicEvent) (cut_sets : List (List Int)) :
    GatherImportantEvents graph cut_sets
      = (firstOccurrences (cut_sets.flatten.map fun i => |i|)).map fun a => (a, graph a) := by
  unfold GatherImportantEvents
  rw [← List.foldl_flatten, gather_foldl]
  simp


theorem analyzeEvent_some {n : Nat} (a a1 : ImportanceAnalysis n) (ev : Int × BasicEvent)
    (h : analyzeEvent a ev = some a1) :
    ∃ mif b1, CalculateMif a.var_probs a.bdd_graph_ ev.1 = some (mif, b1) ∧
      a1 = { a with
        bdd_graph_ := b1
        importance_ := emplace a.importance_ ev.2.id (recordOf ev.2.p mif a.p_total)
        important_events_ := a.important_events_ ++ [(ev.2, recordOf ev.2.p mif a.p_total)] } := by
  unfold analyzeEvent at h
  cases hc : CalculateMif a.var_probs a.bdd_graph_ ev.1 with
  | none => simp [hc] at h
  | some r =>
    obtain ⟨mif, b1⟩ := r
    simp only [hc, Option.some.injEq] at h
    exact ⟨mif, b1, rfl, h.symm⟩

theorem analyzeLoop_spec {n : Nat} : ∀ (evs : List (Int × BasicEvent))
    (a a2 : ImportanceAnalysis n), analyzeLoop evs a = some a2 →
    a2.p_total = a.p_total ∧ a2.var_probs = a.var_probs ∧ a2.graph = a.graph ∧
    a2.cut_sets = a.cut_sets ∧
    ∃ recs, a2.important_events_ = a.important_events_ ++ recs ∧
      recs.length = evs.length ∧
      (∀ key, a2.importance_ key
          = match a.importance_ key with
            | some old => some old
            | none => firstRecord recs key) ∧
      ∀ k ev, evs[k]? = some ev → ∃ s mif b1,
        analyzeLoop (evs.take k) a = some s ∧
        CalculateMif s.var_probs s.bdd_graph_ ev.1 = some (mif, b1) ∧
        recs[k]? = some (ev.2, recordOf ev.2.p mif a.p_total)
  | [], a, a2, h => by
    simp only [analyzeLoop, Option.some.injEq] at h
    subst h
    refine ⟨rfl, rfl, rfl, rfl, [], by simp, rfl, ?_, ?_⟩
    · intro key
      cases a.importance_ key <;> simp [firstRecord]
    · intro k ev hk
      simp at hk
  | e :: rest, a, a2, h => by
    rw [analyzeLoop] at h
    cases h1 : analyzeEvent a e with
    | none => simp [h1] at h
    | some a1 =>
      simp only [h1] at h
      obtain ⟨mif, b1, hc, ha1⟩ := analyzeEvent_some a a1 e h1
      obtain ⟨hp, hv, hg, hcs, recs, hrecs, hlen, hmap, hk⟩ := analyzeLoop_spec rest a1 a2 h
      have e1 : a1.p_total = a.p_total := by rw [ha1]
      have e2 : a1.var_probs = a.var_probs := by rw [ha1]
      have e3 : a1.graph = a.graph := by rw [ha1]
      have e4 : a1.cut_sets = a.cut_sets := by rw [ha1]
      have e5 : a1.important_events_
          = a.important_events_ ++ [(e.2, recordOf e.2.p mif a.p_total)] := by rw [ha1]
      have e6 : a1.importance_ = emplace a.importance_ e.2.id (recordOf e.2.p mif a.p_total) := by
        rw [ha1]
      refine ⟨hp.trans e1, hv.trans e2, hg.trans e3, hcs.trans e4,
        (e.2, recordOf e.2.p mif a.p_total) :: recs, ?_, by simp [hlen], ?_, ?_⟩
      · rw [hrecs, e5]; simp
      · intro key
        rw [hmap key, e6]
        unfold emplace firstRecord
        by_cases hkey : key = e.2.id
        · subst hkey
          cases a.importance_ e.2.id <;> simp
        · have hkey2 : ¬ e.2.id = key := fun h => hkey h.symm
          simp [hkey, hkey2, List.find?_cons]
      · intro k ev hev
        cases k with
        | zero =>
          simp only [List.getElem?_cons_zero, Option.some.injEq] at hev
          subst hev
          exact ⟨a, mif, b1, by simp [analyzeLoop], hc, by simp⟩
        | succ k =>
          simp only [List.getElem?_cons_succ] at hev
          obtain ⟨s, mif2, b2, hs, hc2, hr⟩ := hk k ev hev
          refine ⟨s, mif2, b2, ?_, hc2, ?_⟩
          · simp only [List.take_succ_cons, analyzeLoop, h1]
            exact hs
          · simp only [List.getElem?_cons_succ]
            rw [hr, e1]


/-- C4: the pairs returned by `GatherImportantEvents` are, in order, the absolute values
of the literals in iteration order (cut sets, then the literals of each) with every
occurrence after the first removed, each paired with `graph->GetBasicEvent` of it. -/
theorem GatherImportantEvents_first_occurrences (graph : Int → BasicEvent)
    (cut_sets : List (List Int)) :
    (GatherImportantEvents graph cut_sets).map Prod.fst
        = firstOccurrences (cut_sets.flatten.map fun i => |i|) ∧
    GatherImportantEvents graph cut_sets
        = ((GatherImportantEvents graph cut_sets).map Prod.fst).map fun a => (a, graph a) := by
  rw [gather_eq]
  simp [Function.comp_def]

/-- C5: no absolute index occurs twice in the output of `GatherImportantEvents`; an index
met with either polarity in any number of cut sets is listed exactly once, directly after
the indices gathered from the literals that precede its first occurrence. -/
theorem GatherImportantEvents_no_duplicates (graph : Int → BasicEvent)
    (cut_sets : List (List Int)) :
    ((GatherImportantEvents graph cut_sets).map Prod.fst).Nodup ∧
    (∀ i : Int, (∃ cs ∈ cut_sets, i ∈ cs ∨ -i ∈ cs) →
      ((GatherImportantEvents graph cut_sets).map Prod.fst).count |i| = 1) ∧
    (∀ (pre post : List Int) (x : Int), cut_sets.flatten = pre ++ x :: post →
      (∀ y ∈ pre, |y| ≠ |x|) →
      ∃ tail, (GatherImportantEvents graph cut_sets).map Prod.fst
        = (GatherImportantEvents graph [pre]).map Prod.fst ++ |x| :: tail) := by
  have hfst : ∀ cs : List (List Int), (GatherImportantEvents graph cs).map Prod.fst
      = firstOccurrences (cs.flatten.map fun i => |i|) := by
    intro cs; rw [gather_eq]; simp [Function.comp_def]
  refine ⟨?_, ?_, ?_⟩
  · rw [hfst]; exact nodup_firstOccurrences _
  · rintro i ⟨cs, hcs, hi⟩
    rw [hfst]
    apply List.count_eq_one_of_mem (nodup_firstOccurrences _)
    rw [mem_firstOccurrences, List.mem_map]
    rcases hi with hi | hi
    · exact ⟨i, List.mem_flatten.2 ⟨cs, hcs, hi⟩, rfl⟩
    · exact ⟨-i, List.mem_flatten.2 ⟨cs, hcs, hi⟩, abs_neg i⟩
  · intro pre post x hsplit hfresh
    rw [hfst, hfst, hsplit, List.map_append, firstOccurrences_append, List.map_cons,
      firstOccurrences, List.filter_cons]
    have hx : |x| ∉ pre.map fun i => |i| := by
      intro hmem
      obtain ⟨y, hy, hyx⟩ := List.mem_map.1 hmem
      exact hfresh y hy hyx
    simp only [hx, not_false_eq_true, decide_True, if_true, List.flatten_cons,
      List.flatten_nil, List.append_nil]
    exact ⟨_, rfl⟩

/-- Witness of C5: index `1` occurs as `1`, `-1` and `1` again. -/
theorem GatherImportantEvents_no_duplicates_witness :
    ((GatherImportantEvents (fun _ => ⟨"e", 0⟩) [[1, -2], [2, -1, 3, 1]]).map Prod.fst).count |(-1)|
      = 1 :=
  (GatherImportantEvents_no_duplicates (fun _ => ⟨"e", 0⟩) [[1, -2], [2, -1, 3, 1]]).2.1 (-1)
    ⟨[1, -2], by decide, Or.inr (by decide)⟩

/-- C6: a positive index is in the output of `GatherImportantEvents` exactly when some
cut set holds it as a literal of either polarity; and every record that `Analyze` appends
belongs to the event of an index that occurs in some cut set. -/
theorem GatherImportantEvents_exclusion {n : Nat} (an : ImportanceAnalysis n) :
    (∀ a : Int, 0 < a →
      (a ∈ (GatherImportantEvents an.graph an.cut_sets).map Prod.fst
        ↔ ∃ cs ∈ an.cut_sets, a ∈ cs ∨ -a ∈ cs)) ∧
    (∀ an2, Analyze an = some an2 →
      ∃ recs, an2.important_events_ = an.important_events_ ++ recs ∧
        ∀ r ∈ recs, ∃ a : Int, (∃ cs ∈ an.cut_sets, a ∈ cs ∨ -a ∈ cs) ∧
          r.1 = an.graph |a|) := by
  have hmem : ∀ a : Int, a ∈ (GatherImportantEvents an.graph an.cut_sets).map Prod.fst
      ↔ ∃ x, (∃ cs ∈ an.cut_sets, x ∈ cs) ∧ |x| = a := by
    intro a
    rw [gather_eq]
    simp only [List.map_map, Function.comp_def, List.map_id_fun, id, List.map_id_fun',
      mem_firstOccurrences, List.mem_map, List.mem_flatten]
  constructor
  · intro a ha
    rw [hmem]
    constructor
    · rintro ⟨x, ⟨cs, hcs, hx⟩, hxa⟩
      refine ⟨cs, hcs, ?_⟩
      rcases abs_choice x with h | h
      · left; rw [← hxa, h]; exact hx
      · right; rw [← hxa, h, neg_neg]; exact hx
    · rintro ⟨cs, hcs, h | h⟩
      · exact ⟨a, ⟨cs, hcs, h⟩, abs_of_pos ha⟩
      · exact ⟨-a, ⟨cs, hcs, h⟩, by rw [abs_neg, abs_of_pos ha]⟩
  · intro an2 h
    have hall : ∀ ev ∈ GatherImportantEvents an.graph an.cut_sets,
        ∃ x : Int, (∃ cs ∈ an.cut_sets, x ∈ cs) ∧ ev.2 = an.graph |x| := by
      intro ev hev
      rw [gather_eq] at hev
      obtain ⟨a, ha, hpair⟩ := List.mem_map.1 hev
      rw [mem_firstOccurrences] at ha
      obtain ⟨x, hx, hxa⟩ := List.mem_map.1 ha
      obtain ⟨cs, hcs, hxcs⟩ := List.mem_flatten.1 hx
      exact ⟨x, ⟨cs, hcs, hxcs⟩, by rw [← hpair, ← hxa]⟩
    obtain ⟨_, _, _, _, recs, hrecs, hlen, _, hk⟩ := analyzeLoop_spec _ an an2 h
    refine ⟨recs, hrecs, ?_⟩
    intro r hr
    obtain ⟨k, hklt, hkr⟩ := List.getElem_of_mem hr
    have hklt2 : k < (GatherImportantEvents an.graph an.cut_sets).length := by omega
    obtain ⟨s, mif, b1, _, _, hrk⟩ := hk k _ (List.getElem?_eq_getElem hklt2)
    obtain ⟨x, ⟨cs, hcs, hxcs⟩, hx⟩ := hall _ (List.getElem_mem hklt2)
    refine ⟨x, ⟨cs, hcs, Or.inl hxcs⟩, ?_⟩
    rw [List.getElem?_eq_getElem hklt, hkr] at hrk
    simp only [Option.some.injEq] at hrk
    rw [hrk]
    exact hx

/-- Witness of C6: index `2` of the analyzer of `x1 ∧ x2`. -/
theorem GatherImportantEvents_exclusion_witness :
    (2 : Int) ∈ (GatherImportantEvents andAnalysis.graph andAnalysis.cut_sets).map Prod.fst
      ↔ ∃ cs ∈ andAnalysis.cut_sets, (2 : Int) ∈ cs ∨ -(2 : Int) ∈ cs :=
  (GatherImportantEvents_exclusion andAnalysis).1 2 (by decide)

theorem find?_at {α : Type} (p : α → Bool) : ∀ (l : List α) (k : Nat) (x : α),
    l[k]? = some x → p x = true → (∀ j y, j < k → l[j]? = some y → p y = false) →
    l.find? p = some x
  | [], k, x, h, _, _ => by simp at h
  | a :: l, 0, x, h, hp, _ => by
    simp only [List.getElem?_cons_zero, Option.some.injEq] at h
    subst h
    simp [List.find?_cons, hp]
  | a :: l, k + 1, x, h, hp, hlt => by
    have ha : p a = false := hlt 0 a (Nat.succ_pos k) (by simp)
    rw [List.find?_cons, ha]
    exact find?_at p l k x (by simpa using h) hp
      (fun j y hj hy => hlt (j + 1) y (Nat.succ_lt_succ hj) (by simpa using hy))

theorem andAnalysis_gather :
    GatherImportantEvents andAnalysis.graph andAnalysis.cut_sets
      = [(1, { id := "e1", p := 1 / 10 }), (2, { id := "e2", p := 1 / 5 })] := by
  simp [GatherImportantEvents, gatherStep, andAnalysis]

theorem andAnalysis_isSome : (Analyze andAnalysis).isSome = true := by
  rw [Analyze, andAnalysis_gather]
  simp [analyzeLoop, analyzeEvent, CalculateMif, CalculateMifRec, andAnalysis, andBdd,
    Bdd.setMark, Bdd.setFactor, Bdd.ClearMarks, RetrieveProbability]

/-- C7: every record that `Analyze` appends carries the factor returned by `CalculateMif`
for the index of its event (on the analyzer state reached after the earlier target events)
and the four measures derived from it by the formulas of `Analyze`. -/
theorem Analyze_record_formulas {n : Nat} (an an2 : ImportanceAnalysis n)
    (h : Analyze an = some an2) :
    ∃ recs, an2.important_events_ = an.important_events_ ++ recs ∧
      ∀ k ev, (GatherImportantEvents an.graph an.cut_sets)[k]? = some ev →
        ∃ s mif b1 imp,
          analyzeLoop ((GatherImportantEvents an.graph an.cut_sets).take k) an = some s ∧
          CalculateMif s.var_probs s.bdd_graph_ ev.1 = some (mif, b1) ∧
          recs[k]? = some (ev.2, imp) ∧
          imp.mif = (mif : Double) ∧
          imp.cif = (ev.2.p : Double) * (mif : Double) / (an.p_total : Double) ∧
          imp.raw = 1 + (1 - (ev.2.p : Double)) * (mif : Double) / (an.p_total : Double) ∧
          imp.dif = (ev.2.p : Double) * imp.raw ∧
          imp.rrw = (an.p_total : Double)
            / ((an.p_total : Double) - (ev.2.p : Double) * (mif : Double)) := by
  obtain ⟨_, _, _, _, recs, hrecs, _, _, hk⟩ := analyzeLoop_spec _ an an2 h
  refine ⟨recs, hrecs, ?_⟩
  intro k ev hev
  obtain ⟨s, mif, b1, hs, hc, hr⟩ := hk k ev hev
  exact ⟨s, mif, b1, _, hs, hc, hr, rfl, rfl, rfl, rfl, rfl⟩

/-- Witness of C7 on the analyzer of `x1 ∧ x2`. -/
theorem Analyze_record_formulas_witness :
    ∃ an2, Analyze andAnalysis = some an2 ∧
      ∃ recs, an2.important_events_ = andAnalysis.important_events_ ++ recs ∧
        ∀ k ev, (GatherImportantEvents andAnalysis.graph andAnalysis.cut_sets)[k]? = some ev →
          ∃ s mif b1 imp,
            analyzeLoop ((GatherImportantEvents andAnalysis.graph andAnalysis.cut_sets).take k)
              andAnalysis = some s ∧
            CalculateMif s.var_probs s.bdd_graph_ ev.1 = some (mif, b1) ∧
            recs[k]? = some (ev.2, imp) ∧
            imp.mif = (mif : Double) ∧
            imp.cif = (ev.2.p : Double) * (mif : Double) / (andAnalysis.p_total : Double) ∧
            imp.raw = 1 + (1 - (ev.2.p : Double)) * (mif : Double) / (andAnalysis.p_total : Double) ∧
            imp.dif = (ev.2.p : Double) * imp.raw ∧
            imp.rrw = (andAnalysis.p_total : Double)
              / ((andAnalysis.p_total : Double) - (ev.2.p : Double) * (mif : Double)) := by
  obtain ⟨an2, h⟩ := Option.isSome_iff_exists.1 andAnalysis_isSome
  exact ⟨an2, h, Analyze_record_formulas andAnalysis an2 h⟩

/-- C8: started with empty result containers, `Analyze` leaves one entry per gathered
pair in the ordered list, in the order of the pairs, each pairing the event with the
record computed for it, and the keyed map holds that record under the event's identifier
(identifiers identify the gathered events). -/
theorem Analyze_results_from_empty {n : Nat} (an an2 : ImportanceAnalysis n)
    (h : Analyze an = some an2)
    (hlist : an.important_events_ = [])
    (hmap : ∀ key, an.importance_ key = none)
    (hid : ∀ e1 ∈ GatherImportantEvents an.graph an.cut_sets,
      ∀ e2 ∈ GatherImportantEvents an.graph an.cut_sets, e1.2.id = e2.2.id → e1.1 = e2.1) :
    an2.important_events_.length = (GatherImportantEvents an.graph an.cut_sets).length ∧
    an2.important_events_.map Prod.fst
      = (GatherImportantEvents an.graph an.cut_sets).map Prod.snd ∧
    ∀ k ev, (GatherImportantEvents an.graph an.cut_sets)[k]? = some ev →
      ∃ imp s mif b1,
        an2.important_events_[k]? = some (ev.2, imp) ∧
        an2.importance_ ev.2.id = some imp ∧
        analyzeLoop ((GatherImportantEvents an.graph an.cut_sets).take k) an = some s ∧
        CalculateMif s.var_probs s.bdd_graph_ ev.1 = some (mif, b1) ∧
        imp.mif = (mif : Double) := by
  obtain ⟨_, _, _, _, recs, hrecs, hlen, hkey, hk⟩ := analyzeLoop_spec _ an an2 h
  rw [hlist, List.nil_append] at hrecs
  have hnd : ((GatherImportantEvents an.graph an.cut_sets).map Prod.fst).Nodup := by
    rw [gather_eq]
    simpa [Function.comp_def] using nodup_firstOccurrences _
  refine ⟨by rw [hrecs, hlen], ?_, ?_⟩
  · rw [hrecs]
    apply List.ext_getElem?
    intro k
    rw [List.getElem?_map, List.getElem?_map]
    cases hev : (GatherImportantEvents an.graph an.cut_sets)[k]? with
    | none =>
      have : recs[k]? = none := by
        rw [List.getElem?_eq_none_iff] at hev ⊢
        omega
      simp [this]
    | some ev =>
      obtain ⟨s, mif, b1, _, _, hr⟩ := hk k ev hev
      simp [hr]
  · intro k ev hev
    obtain ⟨s, mif, b1, hs, hc, hr⟩ := hk k ev hev
    refine ⟨_, s, mif, b1, by rw [hrecs]; exact hr, ?_, hs, hc, rfl⟩
    rw [hkey, hmap]
    simp only [firstRecord]
    rw [find?_at _ recs k _ hr (by simp)]
    · rfl
    · intro j y hj hy
      have hklt : k < (GatherImportantEvents an.graph an.cut_sets).length := by
        by_contra hcon
        rw [List.getElem?_eq_none (by omega)] at hev
        exact Option.noConfusion hev
      have hjlt : j < (GatherImportantEvents an.graph an.cut_sets).length := by omega
      obtain ⟨s2, mif2, b2, _, _, hr2⟩ := hk j _ (List.getElem?_eq_getElem hjlt)
      rw [hy] at hr2
      simp only [Option.some.injEq] at hr2
      rw [hr2]
      simp only [decide_eq_false_iff_not]
      intro hsame
      have hevk : (GatherImportantEvents an.graph an.cut_sets)[k] = ev := by
        rw [List.getElem?_eq_getElem hklt] at hev
        exact Option.some.inj hev
      have hidx := hid _ (List.getElem_mem hjlt) _ (List.getElem_mem hklt)
        (by rw [hevk]; exact hsame)
      have hjk : j = k := by
        apply List.getElem?_inj (by simpa using hjlt) hnd
        rw [List.getElem?_map, List.getElem?_map, List.getElem?_eq_getElem hjlt,
          List.getElem?_eq_getElem hklt]
        simp [hidx]
      omega

/-- Witness of C8 on the analyzer of `x1 ∧ x2`. -/
theorem Analyze_results_from_empty_witness :
    ∃ an2, Analyze andAnalysis = some an2 ∧
      an2.important_events_.length
        = (GatherImportantEvents andAnalysis.graph andAnalysis.cut_sets).length ∧
      an2.important_events_.map Prod.fst
        = (GatherImportantEvents andAnalysis.graph andAnalysis.cut_sets).map Prod.snd ∧
      ∀ k ev, (GatherImportantEvents andAnalysis.graph andAnalysis.cut_sets)[k]? = some ev →
        ∃ imp s mif b1,
          an2.important_events_[k]? = some (ev.2, imp) ∧
          an2.importance_ ev.2.id = some imp ∧
          analyzeLoop ((GatherImportantEvents andAnalysis.graph andAnalysis.cut_sets).take k)
            andAnalysis = some s ∧
          CalculateMif s.var_probs s.bdd_graph_ ev.1 = some (mif, b1) ∧
          imp.mif = (mif : Double) := by
  obtain ⟨an2, h⟩ := Option.isSome_iff_exists.1 andAnalysis_isSome
  refine ⟨an2, h, Analyze_results_from_empty andAnalysis an2 h rfl (fun _ => rfl) ?_⟩
  rw [andAnalysis_gather]
  simp

/-! ### The recursion of `CalculateMif`: big-step relation, frame and totality -/

@[simp] theorem setMark_nodes_self {n : Nat} (b : Bdd n) (id : Fin n) (m : Bool) :
    (b.setMark id m).nodes id = { b.nodes id with mark := m } := by
  simp [Bdd.setMark]

@[simp] theorem setFactor_nodes_self {n : Nat} (b : Bdd n) (id : Fin n) (x : ℚ) :
    (b.setFactor id x).nodes id = { b.nodes id with factor := x } := by
  simp [Bdd.setFactor]

theorem setMark_nodes_ne {n : Nat} (b : Bdd n) (id j : Fin n) (m : Bool) (h : j ≠ id) :
    (b.setMark id m).nodes j = b.nodes j := by
  simp [Bdd.setMark, h]

theorem setFactor_nodes_ne {n : Nat} (b : Bdd n) (id j : Fin n) (x : ℚ) (h : j ≠ id) :
    (b.setFactor id x).nodes j = b.nodes j := by
  simp [Bdd.setFactor, h]

@[simp] theorem setMark_gates {n : Nat} (b : Bdd n) (id : Fin n) (m : Bool) :
    (b.setMark id m).gates = b.gates := rfl

@[simp] theorem setFactor_gates {n : Nat} (b : Bdd n) (id : Fin n) (x : ℚ) :
    (b.setFactor id x).gates = b.gates := rfl

@[simp] theorem retrieve_setMark {n : Nat} (b : Bdd n) (id : Fin n) (m : Bool) (v : Vertex n) :
    RetrieveProbability (b.setMark id m) v = RetrieveProbability b v := by
  cases v with
  | terminal => rfl
  | ite j =>
    by_cases h : j = id
    · subst h; simp [RetrieveProbability]
    · simp [RetrieveProbability, setMark_nodes_ne b id j m h]

theorem CalculateMifRec_run {n : Nat} (var_probs : Int → ℚ) (order : Int) (mark : Bool) :
    ∀ (fuel : Nat) (b : Bdd n) (v : Vertex n) (r : ℚ) (b2 : Bdd n),
      CalculateMifRec var_probs order mark fuel b v = some (r, b2) →
      MifRun var_probs order mark b v r b2 := by
  intro fuel
  induction fuel with
  | zero =>
    intro b v r b2 h
    cases v with
    | terminal =>
      simp only [CalculateMifRec, Option.some.injEq, Prod.mk.injEq] at h
      obtain ⟨rfl, rfl⟩ := h
      exact MifRun.terminal b
    | ite id => simp [CalculateMifRec] at h
  | succ fuel ih =>
    intro b v r b2 h
    cases v with
    | terminal =>
      simp only [CalculateMifRec, Option.some.injEq, Prod.mk.injEq] at h
      obtain ⟨rfl, rfl⟩ := h
      exact MifRun.terminal b
    | ite id =>
      rw [CalculateMifRec] at h
      by_cases hm : (b.nodes id).mark = mark
      · rw [if_pos hm] at h
        simp only [Option.some.injEq, Prod.mk.injEq] at h
        obtain ⟨rfl, rfl⟩ := h
        exact MifRun.cached b id hm
      · rw [if_neg hm] at h
        simp only [setMark_nodes_self, setFactor_nodes_self, retrieve_setMark, setMark_gates] at h
        by_cases ho : (b.nodes id).order > order
        · rw [if_pos ho] at h
          by_cases hmod : (b.nodes id).module = false
          · rw [if_pos hmod] at h
            simp only [Option.some.injEq, Prod.mk.injEq] at h
            obtain ⟨rfl, rfl⟩ := h
            exact MifRun.past b id hm ho hmod
          · rw [if_neg hmod] at h
            cases hres : b.gates (b.nodes id).index with
            | none => simp [hres] at h
            | some res =>
              simp only [hres] at h
              cases hrec : CalculateMifRec var_probs order mark fuel (b.setMark id mark) res.vertex with
              | none => simp [hrec] at h
              | some x =>
                obtain ⟨mif0, b3⟩ := x
                simp only [hrec, Option.some.injEq, Prod.mk.injEq] at h
                obtain ⟨rfl, rfl⟩ := h
                exact MifRun.pastModule b id res mif0 b3 hm ho (by simpa using hmod) hres
                  (ih _ _ _ _ hrec)
        · rw [if_neg ho] at h
          by_cases ho2 : (b.nodes id).order = order
          · rw [if_pos ho2] at h
            by_cases hmod : (b.nodes id).module = true
            · simp [hmod] at h
            · rw [if_neg hmod] at h
              simp only [Option.some.injEq, Prod.mk.injEq] at h
              obtain ⟨rfl, rfl⟩ := h
              exact MifRun.target b id hm ho2 (by simpa using hmod)
          · rw [if_neg ho2] at h
            have ho3 : (b.nodes id).order < order := by omega
            cases hq : (if (b.nodes id).module = true then
                  match b.gates (b.nodes id).index with
                  | none => none
                  | some res =>
                    some (if res.complement = true then 1 - RetrieveProbability b res.vertex
                      else RetrieveProbability b res.vertex)
                else some (var_probs (b.nodes id).index)) with
            | none => simp [hq] at h
            | some q =>
              simp only [hq] at h
              cases hhigh : CalculateMifRec var_probs order mark fuel (b.setMark id mark)
                  (b.nodes id).high with
              | none => simp [hhigh] at h
              | some x =>
                obtain ⟨high, b3⟩ := x
                simp only [hhigh] at h
                cases hlow : CalculateMifRec var_probs order mark fuel b3 (b3.nodes id).low with
                | none => simp [hlow] at h
                | some y =>
                  obtain ⟨low0, b4⟩ := y
                  simp only [hlow, Option.some.injEq, Prod.mk.injEq] at h
                  obtain ⟨rfl, rfl⟩ := h
                  exact MifRun.descend b id q high low0 b3 b4 hm ho3 hq
                    (ih _ _ _ _ hhigh) (ih _ _ _ _ hlow)

theorem NodeFrame.node_refl {n : Nat} (mark : Bool) (x : Ite n) : NodeFrame mark x x :=
  ⟨rfl, fun _ => rfl, Or.inr rfl⟩

theorem NodeFrame.node_trans {n : Nat} {mark : Bool} {x y z : Ite n}
    (h1 : NodeFrame mark x y) (h2 : NodeFrame mark y z) : NodeFrame mark x z := by
  obtain ⟨s1, k1, t1⟩ := h1
  obtain ⟨s2, k2, t2⟩ := h2
  refine ⟨s2.trans s1, ?_, ?_⟩
  · intro hx
    have hy : y = x := k1 hx
    have hz : z = y := k2 (by rw [hy]; exact hx)
    rw [hz, hy]
  · rcases t2 with t2 | t2
    · exact Or.inl t2
    · rcases t1 with t1 | t1
      · left; rw [t2]; exact t1
      · right; rw [t2, t1]

theorem NodeFrame.node_write {n : Nat} {mark : Bool} {x y : Ite n}
    (hx : x.mark ≠ mark) (hs : y.shape = x.shape) (hy : y.mark = mark) : NodeFrame mark x y :=
  ⟨hs, fun h => absurd h hx, Or.inl hy⟩

theorem Frame.frame_refl {n : Nat} (mark : Bool) (b : Bdd n) : Frame mark b b :=
  ⟨rfl, rfl, rfl, fun j => NodeFrame.node_refl mark (b.nodes j)⟩

theorem Frame.frame_trans {n : Nat} {mark : Bool} {b b2 b3 : Bdd n}
    (h1 : Frame mark b b2) (h2 : Frame mark b2 b3) : Frame mark b b3 :=
  ⟨h2.1.trans h1.1, h2.2.1.trans h1.2.1, h2.2.2.1.trans h1.2.2.1,
    fun j => (h1.2.2.2 j).node_trans (h2.2.2.2 j)⟩

theorem Frame.setMark {n : Nat} (mark : Bool) (b : Bdd n) (id : Fin n) :
    Frame mark b (b.setMark id mark) := by
  refine ⟨rfl, rfl, rfl, fun j => ?_⟩
  by_cases h : j = id
  · subst h
    rw [setMark_nodes_self]
    refine ⟨rfl, fun hx => ?_, Or.inl rfl⟩
    rw [← hx]
  · rw [setMark_nodes_ne b id j mark h]
    exact NodeFrame.node_refl mark _

/-- Writing the factor of a node that the pass has just marked. -/
theorem Frame.frame_write {n : Nat} {mark : Bool} {b b2 : Bdd n} (id : Fin n) (x : ℚ)
    (hm : (b.nodes id).mark ≠ mark) (h : Frame mark (b.setMark id mark) b2) :
    Frame mark b (b2.setFactor id x) := by
  have h0 := (Frame.setMark mark b id).frame_trans h
  refine ⟨h0.1, h0.2.1, h0.2.2.1, fun j => ?_⟩
  by_cases hj : j = id
  · subst hj
    have hkeep : b2.nodes j = (b.setMark j mark).nodes j :=
      (h.2.2.2 j).2.1 (by simp)
    rw [setFactor_nodes_self, hkeep, setMark_nodes_self]
    exact NodeFrame.node_write hm rfl rfl
  · rw [setFactor_nodes_ne b2 id j x hj]
    exact h0.2.2.2 j

theorem MifRun.frame {n : Nat} {var_probs : Int → ℚ} {order : Int} {mark : Bool}
    {b b2 : Bdd n} {v : Vertex n} {r : ℚ} (h : MifRun var_probs order mark b v r b2) :
    Frame mark b b2 := by
  induction h with
  | terminal b => exact Frame.frame_refl mark b
  | cached b id hm => exact Frame.frame_refl mark b
  | past b id hm ho hmod => exact Frame.frame_write id 0 hm (Frame.frame_refl mark _)
  | pastModule b id res mif0 b2 hm ho hmod hres hrec ih => exact Frame.frame_write id _ hm ih
  | target b id hm ho hmod => exact Frame.frame_write id _ hm (Frame.frame_refl mark _)
  | descend b id q high low0 b2 b3 hm ho hq hhigh hlow ih1 ih2 =>
    exact Frame.frame_write id _ hm (ih1.frame_trans ih2)

theorem MifRun.result_aux {n : Nat} {var_probs : Int → ℚ} {order : Int} {mark : Bool}
    {b b2 : Bdd n} {v : Vertex n} {r : ℚ} (h : MifRun var_probs order mark b v r b2) :
    ∀ id, v = .ite id → (b2.nodes id).mark = mark ∧ (b2.nodes id).factor = r := by
  induction h with
  | terminal b => intro id hv; cases hv
  | cached b id hm => intro j hv; cases hv; exact ⟨hm, rfl⟩
  | past b id hm ho hmod => intro j hv; cases hv; simp
  | pastModule b id res mif0 b3 hm ho hmod hres hrec _ =>
    intro j hv; cases hv
    have hk : b3.nodes id = (b.setMark id mark).nodes id := (hrec.frame.2.2.2 id).2.1 (by simp)
    simp [hk]
  | target b id hm ho hmod => intro j hv; cases hv; simp
  | descend b id q high low0 b3 b4 hm ho hq hhigh hlow _ _ =>
    intro j hv; cases hv
    have hk : b4.nodes id = (b.setMark id mark).nodes id :=
      ((hhigh.frame.frame_trans hlow.frame).2.2.2 id).2.1 (by simp)
    refine ⟨?_, ?_⟩
    · rw [setFactor_nodes_self]; simp [hk]
    · rw [setFactor_nodes_self]

/-- The node a call was made on ends marked, with the returned value as its factor. -/
theorem MifRun.result {n : Nat} {var_probs : Int → ℚ} {order : Int} {mark : Bool}
    {b b2 : Bdd n} {id : Fin n} {r : ℚ} (h : MifRun var_probs order mark b (.ite id) r b2) :
    (b2.nodes id).mark = mark ∧ (b2.nodes id).factor = r :=
  h.result_aux id rfl

theorem Frame.frame_index_eq {n : Nat} {mark : Bool} {b b2 : Bdd n} (h : Frame mark b b2) (j : Fin n) :
    (b2.nodes j).index = (b.nodes j).index :=
  show ((b2.nodes j).shape).index = ((b.nodes j).shape).index from congrArg Ite.index (h.2.2.2 j).1

theorem Frame.frame_order_eq {n : Nat} {mark : Bool} {b b2 : Bdd n} (h : Frame mark b b2) (j : Fin n) :
    (b2.nodes j).order = (b.nodes j).order :=
  show ((b2.nodes j).shape).order = ((b.nodes j).shape).order from congrArg Ite.order (h.2.2.2 j).1

theorem Frame.frame_module_eq {n : Nat} {mark : Bool} {b b2 : Bdd n} (h : Frame mark b b2) (j : Fin n) :
    (b2.nodes j).module = (b.nodes j).module :=
  show ((b2.nodes j).shape).module = ((b.nodes j).shape).module from congrArg Ite.module (h.2.2.2 j).1

theorem Frame.frame_high_eq {n : Nat} {mark : Bool} {b b2 : Bdd n} (h : Frame mark b b2) (j : Fin n) :
    (b2.nodes j).high = (b.nodes j).high :=
  show ((b2.nodes j).shape).high = ((b.nodes j).shape).high from congrArg Ite.high (h.2.2.2 j).1

theorem Frame.frame_low_eq {n : Nat} {mark : Bool} {b b2 : Bdd n} (h : Frame mark b b2) (j : Fin n) :
    (b2.nodes j).low = (b.nodes j).low :=
  show ((b2.nodes j).shape).low = ((b.nodes j).shape).low from congrArg Ite.low (h.2.2.2 j).1

theorem Frame.frame_complement_edge_eq {n : Nat} {mark : Bool} {b b2 : Bdd n} (h : Frame mark b b2)
    (j : Fin n) : (b2.nodes j).complement_edge = (b.nodes j).complement_edge :=
  show ((b2.nodes j).shape).complement_edge = ((b.nodes j).shape).complement_edge from congrArg Ite.complement_edge (h.2.2.2 j).1

theorem Frame.frame_prob_eq {n : Nat} {mark : Bool} {b b2 : Bdd n} (h : Frame mark b b2) (j : Fin n) :
    (b2.nodes j).prob = (b.nodes j).prob :=
  show ((b2.nodes j).shape).prob = ((b.nodes j).shape).prob from congrArg Ite.prob (h.2.2.2 j).1

theorem Frame.retrieve_eq {n : Nat} {mark : Bool} {b b2 : Bdd n} (h : Frame mark b b2)
    (v : Vertex n) : RetrieveProbability b2 v = RetrieveProbability b v := by
  cases v with
  | terminal => rfl
  | ite j => exact h.frame_prob_eq j

/-- A pass never takes the target mark away: the stale nodes can only become fewer. -/
theorem Frame.stale_card_le {n : Nat} {mark : Bool} {b b2 : Bdd n} (h : Frame mark b b2) :
    (Finset.univ.filter fun j => (b2.nodes j).mark ≠ mark).card
      ≤ (Finset.univ.filter fun j => (b.nodes j).mark ≠ mark).card := by
  apply Finset.card_le_card
  intro j hj
  simp only [Finset.mem_filter, Finset.mem_univ, true_and] at hj ⊢
  intro hb
  exact hj (by rw [(h.2.2.2 j).2.1 hb]; exact hb)

theorem stale_card_setMark {n : Nat} (mark : Bool) (b : Bdd n) (id : Fin n)
    (hm : (b.nodes id).mark ≠ mark) :
    (Finset.univ.filter fun j => ((b.setMark id mark).nodes j).mark ≠ mark).card
      < (Finset.univ.filter fun j => (b.nodes j).mark ≠ mark).card := by
  apply Finset.card_lt_card
  rw [Finset.ssubset_iff_of_subset]
  · exact ⟨id, by simpa using hm, by simp⟩
  · intro j hj
    simp only [Finset.mem_filter, Finset.mem_univ, true_and] at hj ⊢
    by_cases h : j = id
    · subst h; exact hm
    · rw [setMark_nodes_ne b id j mark h] at hj; exact hj

/-- Totality of the recursion: with more fuel than stale nodes the call returns, given
that every module node has its entry in `gates` and none carries the target order. -/
theorem CalculateMifRec_total {n : Nat} (var_probs : Int → ℚ) (order : Int) (mark : Bool) :
    ∀ (fuel : Nat) (b : Bdd n) (v : Vertex n),
      (∀ j, (b.nodes j).module = true → (b.gates (b.nodes j).index).isSome = true) →
      (∀ j, (b.nodes j).module = true → (b.nodes j).order ≠ order) →
      (Finset.univ.filter fun j => (b.nodes j).mark ≠ mark).card < fuel →
      ∃ r b2, CalculateMifRec var_probs order mark fuel b v = some (r, b2) := by
  intro fuel
  induction fuel with
  | zero => intro b v _ _ h; omega
  | succ fuel ih =>
    intro b v hg ha hc
    cases v with
    | terminal => exact ⟨0, b, by simp [CalculateMifRec]⟩
    | ite id =>
      rw [CalculateMifRec]
      by_cases hm : (b.nodes id).mark = mark
      · rw [if_pos hm]; exact ⟨_, _, rfl⟩
      · rw [if_neg hm]
        simp only [setMark_nodes_self, setFactor_nodes_self, retrieve_setMark, setMark_gates]
        have hf1 := Frame.setMark mark b id
        have hc1 : (Finset.univ.filter fun j => ((b.setMark id mark).nodes j).mark ≠ mark).card
            < fuel := by
          have := stale_card_setMark mark b id hm
          omega
        have hg1 : ∀ j, ((b.setMark id mark).nodes j).module = true →
            ((b.setMark id mark).gates ((b.setMark id mark).nodes j).index).isSome = true := by
          intro j hj
          rw [hf1.frame_module_eq j] at hj
          rw [hf1.frame_index_eq j]
          exact hg j hj
        have ha1 : ∀ j, ((b.setMark id mark).nodes j).module = true →
            ((b.setMark id mark).nodes j).order ≠ order := by
          intro j hj
          rw [hf1.frame_module_eq j] at hj
          rw [hf1.frame_order_eq j]
          exact ha j hj
        by_cases ho : (b.nodes id).order > order
        · rw [if_pos ho]
          by_cases hmod : (b.nodes id).module = false
          · rw [if_pos hmod]; exact ⟨_, _, rfl⟩
          · rw [if_neg hmod]
            obtain ⟨res, hres⟩ := Option.isSome_iff_exists.1 (hg id (by simpa using hmod))
            obtain ⟨r, b2, hrec⟩ := ih (b.setMark id mark) res.vertex hg1 ha1 hc1
            simp only [hres, hrec]
            exact ⟨_, _, rfl⟩
        · rw [if_neg ho]
          by_cases ho2 : (b.nodes id).order = order
          · rw [if_pos ho2]
            have hmod : ¬ (b.nodes id).module = true := fun hmod => ha id hmod ho2
            rw [if_neg hmod]
            exact ⟨_, _, rfl⟩
          · rw [if_neg ho2]
            have hq : ∃ q, (if (b.nodes id).module = true then
                  match b.gates (b.nodes id).index with
                  | none => none
                  | some res =>
                    some (if res.complement = true then 1 - RetrieveProbability b res.vertex
                      else RetrieveProbability b res.vertex)
                else some (var_probs (b.nodes id).index)) = some q := by
              by_cases hmod : (b.nodes id).module = true
              · obtain ⟨res, hres⟩ := Option.isSome_iff_exists.1 (hg id hmod)
                rw [if_pos hmod, hres]
                exact ⟨_, rfl⟩
              · rw [if_neg hmod]
                exact ⟨_, rfl⟩
            obtain ⟨q, hq⟩ := hq
            obtain ⟨high, b2, hhigh⟩ := ih (b.setMark id mark) (b.nodes id).high hg1 ha1 hc1
            have hf2 := (CalculateMifRec_run _ _ _ _ _ _ _ _ hhigh).frame
            have hf12 := hf1.frame_trans hf2
            have hc2 : (Finset.univ.filter fun j => (b2.nodes j).mark ≠ mark).card < fuel :=
              lt_of_le_of_lt hf2.stale_card_le hc1
            have hg2 : ∀ j, (b2.nodes j).module = true →
                (b2.gates (b2.nodes j).index).isSome = true := by
              intro j hj
              rw [hf12.frame_module_eq j] at hj
              rw [hf12.frame_index_eq j, hf12.2.1]
              exact hg j hj
            have ha2 : ∀ j, (b2.nodes j).module = true → (b2.nodes j).order ≠ order := by
              intro j hj
              rw [hf12.frame_module_eq j] at hj
              rw [hf12.frame_order_eq j]
              exact ha j hj
            obtain ⟨low0, b3, hlow⟩ := ih b2 (b2.nodes id).low hg2 ha2 hc2
            simp only [hq, hhigh, hlow]
            exact ⟨_, _, rfl⟩

/-! ### The public `CalculateMif`: marks and factors after the call -/

theorem CalculateMif_some {n : Nat} {var_probs : Int → ℚ} {b b2 : Bdd n} {index : Int}
    {mif : ℚ} (h : CalculateMif var_probs b index = some (mif, b2)) :
    (b.root.vertex = .terminal ∧ mif = 0 ∧ b2 = b) ∨
    ∃ r order b1, b.root.vertex = .ite r ∧ b.index_to_order index = some order ∧
      MifRun var_probs order (!(b.nodes r).mark) b (.ite r) mif b1 ∧
      b2 = b1.ClearMarks (b.nodes r).mark := by
  unfold CalculateMif at h
  cases hv : b.root.vertex with
  | terminal =>
    simp only [hv, Option.some.injEq, Prod.mk.injEq] at h
    exact Or.inl ⟨rfl, h.1.symm, h.2.symm⟩
  | ite r =>
    simp only [hv] at h
    cases ho : b.index_to_order index with
    | none => simp [ho] at h
    | some order =>
      simp only [ho] at h
      cases hrec : CalculateMifRec var_probs order (!(b.nodes r).mark) (n + 1) b (.ite r) with
      | none => simp [hrec] at h
      | some x =>
        obtain ⟨m, b1⟩ := x
        simp only [hrec, Option.some.injEq, Prod.mk.injEq] at h
        obtain ⟨rfl, rfl⟩ := h
        exact Or.inr ⟨r, order, b1, rfl, rfl, CalculateMifRec_run _ _ _ _ _ _ _ _ hrec, rfl⟩

theorem staleAndBdd_run :
    CalculateMif (fun i => if i = 1 then 1 / 10 else 1 / 5) staleAndBdd 1
      = some (1 / 5, ((staleAndBdd.setMark 0 true).setFactor 0 (1 / 5)).ClearMarks false) := by
  simp [CalculateMif, CalculateMifRec, staleAndBdd, andBdd, Bdd.setMark, Bdd.setFactor,
    RetrieveProbability]

/-- C9, counterexample: on the diagram of `x1 ∧ x2` with the mark of node `1` differing
from the mark of the root, `CalculateMif(1)` returns and leaves node `1` with a mark
that is not the one it had before the call. -/
theorem CalculateMif_marks_not_restored :
    ∃ mif b2, CalculateMif (fun i => if i = 1 then 1 / 10 else 1 / 5) staleAndBdd 1
        = some (mif, b2) ∧
      (b2.nodes 1).mark ≠ (staleAndBdd.nodes 1).mark :=
  ⟨_, _, staleAndBdd_run, by simp [Bdd.ClearMarks, staleAndBdd, Bdd.setMark]⟩

/-- C9, amended: when all decision nodes carry the same mark before the call, every
decision node's mark after `CalculateMif(index)` returns equals its mark before. -/
theorem CalculateMif_restores_uniform_marks {n : Nat} (var_probs : Int → ℚ) (b b2 : Bdd n)
    (index : Int) (mif : ℚ) (huni : UniformMarks b)
    (h : CalculateMif var_probs b index = some (mif, b2)) :
    ∀ j, (b2.nodes j).mark = (b.nodes j).mark := by
  intro j
  rcases CalculateMif_some h with ⟨_, _, rfl⟩ | ⟨r, order, b1, _, _, _, rfl⟩
  · rfl
  · exact huni r j

/-- Witness of the amended C9 on the diagram of `x1 ∧ x2`. -/
theorem CalculateMif_restores_uniform_marks_witness :
    ∃ mif b2, CalculateMif (fun i => if i = 1 then 1 / 10 else 1 / 5)
        (andBdd (1 / 10) (1 / 5)) 2 = some (mif, b2) ∧
      ∀ j, (b2.nodes j).mark = ((andBdd (1 / 10) (1 / 5)).nodes j).mark := by
  have hs : (CalculateMif (fun i => if i = 1 then 1 / 10 else 1 / 5)
      (andBdd (1 / 10) (1 / 5)) 2).isSome = true := by
    simp [CalculateMif, CalculateMifRec, andBdd, Bdd.setMark, Bdd.setFactor,
      RetrieveProbability]
  obtain ⟨⟨mif, b2⟩, h⟩ := Option.isSome_iff_exists.1 hs
  exact ⟨mif, b2, h, CalculateMif_restores_uniform_marks _ _ b2 2 mif
    (by intro j k; simp [andBdd]; split <;> split <;> rfl) h⟩
theorem andBdd_run_one :
    CalculateMif (fun i => if i = 1 then 1 / 10 else 1 / 5) (andBdd (1 / 10) (1 / 5)) 1
      = some (1 / 5,
          (((andBdd (1 / 10) (1 / 5)).setMark 0 true).setFactor 0 (1 / 5)).ClearMarks false) := by
  simp [CalculateMif, CalculateMifRec, andBdd, Bdd.setMark, Bdd.setFactor, RetrieveProbability]

/-- C10, counterexample: on the diagram of `x1 ∧ x2` (uniform marks, every factor slot
`0`), `CalculateMif(1)` returns `1/5` and leaves `1/5` in the factor slot of the root
node, which held `0` before the call. -/
theorem CalculateMif_factor_not_restored :
    ∃ mif b2, CalculateMif (fun i => if i = 1 then 1 / 10 else 1 / 5)
        (andBdd (1 / 10) (1 / 5)) 1 = some (mif, b2) ∧
      (b2.nodes 0).factor ≠ ((andBdd (1 / 10) (1 / 5)).nodes 0).factor :=
  ⟨_, _, andBdd_run_one, by simp [Bdd.ClearMarks, andBdd, Bdd.setMark, Bdd.setFactor]⟩

/-- C10, amended: after `CalculateMif(index)` returns on a diagram whose root is a
decision node, the factor slot of the root node holds the returned factor (the slots
written by the pass are not restored); a node keeps the factor it had before the call
if its mark already was the inverted mark of the root, so that the pass did not
recompute it. -/
theorem CalculateMif_factor_slots {n : Nat} (var_probs : Int → ℚ) (b b2 : Bdd n)
    (index : Int) (mif : ℚ) (r : Fin n) (hroot : b.root.vertex = .ite r)
    (h : CalculateMif var_probs b index = some (mif, b2)) :
    (b2.nodes r).factor = mif ∧
    ∀ j, (b.nodes j).mark = (!(b.nodes r).mark) → (b2.nodes j).factor = (b.nodes j).factor := by
  rcases CalculateMif_some h with ⟨ht, _, _⟩ | ⟨r2, order, b1, hr, _, hrun, rfl⟩
  · rw [hroot] at ht; cases ht
  · rw [hroot] at hr
    cases hr
    refine ⟨hrun.result.2, ?_⟩
    intro j hj
    have := (hrun.frame.2.2.2 j).2.1 hj
    show (b1.nodes j).factor = (b.nodes j).factor
    rw [this]

/-- Witness of the amended C10 on the diagram of `x1 ∧ x2`. -/
theorem CalculateMif_factor_slots_witness :
    ∃ mif b2, CalculateMif (fun i => if i = 1 then 1 / 10 else 1 / 5)
        (andBdd (1 / 10) (1 / 5)) 1 = some (mif, b2) ∧
      (b2.nodes 0).factor = mif ∧
      ∀ j, ((andBdd (1 / 10) (1 / 5)).nodes j).mark = (!((andBdd (1 / 10) (1 / 5)).nodes 0).mark) →
        (b2.nodes j).factor = ((andBdd (1 / 10) (1 / 5)).nodes j).factor :=
  ⟨_, _, andBdd_run_one,
    CalculateMif_factor_slots _ (andBdd (1 / 10) (1 / 5)) _ 1 _ 0 rfl andBdd_run_one⟩

/-! ### Order and reachability in a well-formed diagram -/

theorem step_transGen_cases {n : Nat} {b : Bdd n} (hE : EdgesIncrease b) {u w : Fin n}
    (h : Relation.TransGen b.step u w) :
    (b.nodes u).order < (b.nodes w).order ∨
      ∃ m g, Relation.ReflTransGen b.step u m ∧ b.moduleRoot m g ∧
        Relation.ReflTransGen b.step g w := by
  induction h with
  | single h =>
    rcases h with hc | hm
    · exact Or.inl (hE _ _ hc)
    · exact Or.inr ⟨_, _, Relation.ReflTransGen.refl, hm, Relation.ReflTransGen.refl⟩
  | tail huv hvw ih =>
    rcases ih with ih | ⟨m, g, h1, h2, h3⟩
    · rcases hvw with hc | hm
      · exact Or.inl (lt_trans ih (hE _ _ hc))
      · exact Or.inr ⟨_, _, huv.to_reflTransGen, hm, Relation.ReflTransGen.refl⟩
    · exact Or.inr ⟨m, g, h1, h2, h3.tail hvw⟩

theorem step_acyclic {n : Nat} {b : Bdd n} (hE : EdgesIncrease b)
    (hA : ModuleAboveItsNodes b) (u : Fin n) : ¬ Relation.TransGen b.step u u := by
  intro h
  rcases step_transGen_cases hE h with h | ⟨m, g, h1, h2, h3⟩
  · exact lt_irrefl _ h
  · exact lt_irrefl _ (hA m m ⟨g, h2, h3.trans h1⟩)

theorem step_wellFounded {n : Nat} {b : Bdd n} (hE : EdgesIncrease b)
    (hA : ModuleAboveItsNodes b) : WellFounded fun w u : Fin n => b.step u w := by
  have htrans : IsTrans (Fin n) (Relation.TransGen fun w u : Fin n => b.step u w) :=
    ⟨fun _ _ _ => Relation.TransGen.trans⟩
  have hirr : IsIrrefl (Fin n) (Relation.TransGen fun w u : Fin n => b.step u w) :=
    ⟨fun u h => step_acyclic hE hA u (by
      have := Relation.transGen_swap.2 h
      exact this)⟩
  have hwf : WellFounded (Relation.TransGen fun w u : Fin n => b.step u w) :=
    Finite.wellFounded_of_trans_of_irrefl _
  refine Subrelation.wf ?_ hwf
  intro x y h
  exact Relation.TransGen.single h
/-! ### Probability labelings -/

theorem MifSetting.wf {n : Nat} {b : Bdd n} {p : Int → ℚ} {index order : Int}
    {x y : ℚ} {Px Py : Fin n → ℚ} (S : MifSetting b p index order x y Px Py) :
    WellFounded fun w u : Fin n => b.step u w :=
  step_wellFounded S.edges S.above

theorem Frame.sameShape {n : Nat} {mark : Bool} {b b2 : Bdd n} (h : Frame mark b b2) :
    SameShape b b2 :=
  ⟨h.1, h.2.1, h.2.2.1, fun j => (h.2.2.2 j).1⟩

theorem SameShape.shape_trans {n : Nat} {b b2 b3 : Bdd n} (h1 : SameShape b b2)
    (h2 : SameShape b2 b3) : SameShape b b3 :=
  ⟨h2.1.trans h1.1, h2.2.1.trans h1.2.1, h2.2.2.1.trans h1.2.2.1,
    fun j => (h2.2.2.2 j).trans (h1.2.2.2 j)⟩

theorem SameShape.shape_index_eq {n : Nat} {b b2 : Bdd n} (h : SameShape b b2) (j : Fin n) :
    (b2.nodes j).index = (b.nodes j).index :=
  show ((b2.nodes j).shape).index = ((b.nodes j).shape).index from
    congrArg Ite.index (h.2.2.2 j)

theorem SameShape.shape_order_eq {n : Nat} {b b2 : Bdd n} (h : SameShape b b2) (j : Fin n) :
    (b2.nodes j).order = (b.nodes j).order :=
  show ((b2.nodes j).shape).order = ((b.nodes j).shape).order from
    congrArg Ite.order (h.2.2.2 j)

theorem SameShape.shape_module_eq {n : Nat} {b b2 : Bdd n} (h : SameShape b b2) (j : Fin n) :
    (b2.nodes j).module = (b.nodes j).module :=
  show ((b2.nodes j).shape).module = ((b.nodes j).shape).module from
    congrArg Ite.module (h.2.2.2 j)

theorem SameShape.shape_high_eq {n : Nat} {b b2 : Bdd n} (h : SameShape b b2) (j : Fin n) :
    (b2.nodes j).high = (b.nodes j).high :=
  show ((b2.nodes j).shape).high = ((b.nodes j).shape).high from
    congrArg Ite.high (h.2.2.2 j)

theorem SameShape.shape_low_eq {n : Nat} {b b2 : Bdd n} (h : SameShape b b2) (j : Fin n) :
    (b2.nodes j).low = (b.nodes j).low :=
  show ((b2.nodes j).shape).low = ((b.nodes j).shape).low from
    congrArg Ite.low (h.2.2.2 j)

theorem SameShape.shape_complement_edge_eq {n : Nat} {b b2 : Bdd n} (h : SameShape b b2)
    (j : Fin n) : (b2.nodes j).complement_edge = (b.nodes j).complement_edge :=
  show ((b2.nodes j).shape).complement_edge = ((b.nodes j).shape).complement_edge from
    congrArg Ite.complement_edge (h.2.2.2 j)

theorem reach_ncard_le {n : Nat} (b : Bdd n) (j : Fin n) :
    {w | Relation.ReflTransGen b.step j w}.ncard ≤ n := by
  have h := Set.ncard_le_ncard (Set.subset_univ {w | Relation.ReflTransGen b.step j w})
    (Set.toFinite _)
  rw [Set.ncard_univ, Nat.card_eq_fintype_card, Fintype.card_fin] at h
  exact h

theorem reach_ncard_step {n : Nat} {b : Bdd n} (hacyc : ∀ u, ¬ Relation.TransGen b.step u u)
    {j c : Fin n} (h : b.step j c) :
    {w | Relation.ReflTransGen b.step c w}.ncard
      < {w | Relation.ReflTransGen b.step j w}.ncard := by
  apply Set.ncard_lt_ncard _ (Set.toFinite _)
  refine ⟨fun w hw => Relation.ReflTransGen.head h hw, ?_⟩
  intro hsub
  have hj : Relation.ReflTransGen b.step c j := hsub Relation.ReflTransGen.refl
  exact hacyc j (Relation.TransGen.head' h hj)

theorem SameShape.shape_refl {n : Nat} (b : Bdd n) : SameShape b b :=
  ⟨rfl, rfl, rfl, fun _ => rfl⟩

theorem moduleFree_not_moduleRoot {n : Nat} {b : Bdd n} (hfree : ModuleFree b) (u w : Fin n) :
    ¬ b.moduleRoot u w := by
  intro h
  have h1 := h.1
  rw [hfree u] at h1
  cases h1

theorem andBdd_moduleFree (p1 p2 : ℚ) : ModuleFree (andBdd p1 p2) := by
  intro j
  fin_cases j <;> simp [andBdd]

theorem andBdd_edgesIncrease (p1 p2 : ℚ) : EdgesIncrease (andBdd p1 p2) := by
  intro u w h
  fin_cases u <;> fin_cases w <;> simp [Bdd.child, andBdd] at h ⊢

theorem andBdd_cachedValid (p1 p2 : ℚ) :
    CachedValid (andBdd p1 p2) (fun i => if i = 1 then p1 else p2) := by
  intro j
  fin_cases j <;> simp [nodeProb, andBdd, edgeProb]

theorem andBdd_uniformMarks (p1 p2 : ℚ) : UniformMarks (andBdd p1 p2) := by
  intro j k
  fin_cases j <;> fin_cases k <;> simp [andBdd]

/-- C2, the code at the failing input: for the top event `¬x1` (the node of `x1` behind a
complemented root edge, a well-formed module-free diagram) the top-event probability is
`0` when `x1` is true and `1` when it is false, so its derivative is `-1`;
`CalculateMif(1)` returns `1`, the derivative of the probability of the root vertex,
without the negation of the root edge. -/
theorem CalculateMif_ignores_root_complement :
    ModuleFree (varBdd true (1 / 2)) ∧
    EdgesIncrease (varBdd true (1 / 2)) ∧
    TestsAt (varBdd true (1 / 2)) 1 1 ∧
    CachedValid (varBdd true (1 / 2)) (fun _ => 1 / 2) ∧
    UniformMarks (varBdd true (1 / 2)) ∧
    (varBdd true (1 / 2)).root.complement = true ∧
    topProbability (varBdd true (1 / 2)) (Function.update (fun _ => 1 / 2) 1 1) = 0 ∧
    topProbability (varBdd true (1 / 2)) (Function.update (fun _ => 1 / 2) 1 0) = 1 ∧
    (CalculateMif (fun _ => 1 / 2) (varBdd true (1 / 2)) 1).map Prod.fst = some 1 := by
  refine ⟨fun _ => rfl, ?_, ?_, ?_, fun _ _ => rfl, rfl, ?_, ?_, ?_⟩
  · intro u w h
    simp [Bdd.child, varBdd] at h
  · intro j
    simp [varBdd]
  · intro j
    simp [nodeProb, varBdd, edgeProb]
  · simp [topProbability, topProb, probabilityOf, CalculateProbability, varBdd, edgeProb]
  · simp [topProbability, topProb, probabilityOf, CalculateProbability, varBdd, edgeProb]
  · simp [CalculateMif, CalculateMifRec, varBdd, Bdd.setMark, Bdd.setFactor,
      RetrieveProbability]
/-! ### Module references -/

theorem outerModuleBdd_gatesPresent (p1 p2 : ℚ) : GatesPresent (outerModuleBdd p1 p2) := by
  intro j hj
  fin_cases j <;> simp [outerModuleBdd] at hj ⊢

theorem bitLength_zero (fuel : Nat) : bitLength fuel 0 = 0 := by
  cases fuel <;> simp [bitLength]

theorem bitLength_spec : ∀ (fuel n : Nat), n ≤ fuel → 0 < n →
    2 ^ (bitLength fuel n - 1) ≤ n ∧ n < 2 ^ bitLength fuel n ∧ 0 < bitLength fuel n := by
  intro fuel
  induction fuel with
  | zero => intro n h1 h2; omega
  | succ fuel ih =>
    intro n h1 h2
    have hn : n ≠ 0 := by omega
    rw [bitLength, if_neg hn]
    by_cases h : n / 2 = 0
    · rw [h, bitLength_zero]
      have : n = 1 := by omega
      subst this
      simp
    · obtain ⟨i1, i2, i3⟩ := ih (n / 2) (by omega) (by omega)
      have e1 : 2 ^ (bitLength fuel (n / 2) + 1 - 1)
          = 2 * 2 ^ (bitLength fuel (n / 2) - 1) := by
        have : bitLength fuel (n / 2) + 1 - 1 = (bitLength fuel (n / 2) - 1) + 1 := by omega
        rw [this, pow_succ]; ring
      have e2 : 2 ^ (bitLength fuel (n / 2) + 1) = 2 * 2 ^ bitLength fuel (n / 2) := by
        rw [pow_succ]; ring
      rw [e1, e2]
      refine ⟨by omega, by omega, by omega⟩

theorem binade_bounds (a N D : ℚ) (LN LD : ℕ) (ha : a = N / D) (hD : 0 < D) (hN : 0 < N)
    (n1 : (2 : ℚ) ^ (LN - 1) ≤ N) (n2 : N < (2 : ℚ) ^ LN) (n3 : 0 < LN)
    (d1 : (2 : ℚ) ^ (LD - 1) ≤ D) (d2 : D < (2 : ℚ) ^ LD) (d3 : 0 < LD) :
    a < (2 : ℚ) ^ ((LN : ℤ) - (LD : ℤ) + 1) ∧ (2 : ℚ) ^ ((LN : ℤ) - (LD : ℤ) - 1) ≤ a := by
  have two : (2 : ℚ) ≠ 0 := by norm_num
  constructor
  · have e : (2 : ℚ) ^ ((LN : ℤ) - (LD : ℤ) + 1) = (2 : ℚ) ^ LN / (2 : ℚ) ^ (LD - 1) := by
      rw [← zpow_natCast, ← zpow_natCast, ← zpow_sub₀ two]
      congr 1
      have : ((LD - 1 : ℕ) : ℤ) = (LD : ℤ) - 1 := by omega
      rw [this]; ring
    rw [e, ha, div_lt_div_iff₀ hD (by positivity)]
    calc N * (2 : ℚ) ^ (LD - 1) ≤ N * D := mul_le_mul_of_nonneg_left d1 (le_of_lt hN)
      _ < (2 : ℚ) ^ LN * D := mul_lt_mul_of_pos_right n2 hD
  · have e : (2 : ℚ) ^ ((LN : ℤ) - (LD : ℤ) - 1) = (2 : ℚ) ^ (LN - 1) / (2 : ℚ) ^ LD := by
      rw [← zpow_natCast, ← zpow_natCast, ← zpow_sub₀ two]
      congr 1
      have : ((LN - 1 : ℕ) : ℤ) = (LN : ℤ) - 1 := by omega
      rw [this]; ring
    rw [e, ha, div_le_div_iff₀ (by positivity) hD]
    calc (2 : ℚ) ^ (LN - 1) * D ≤ N * D := mul_le_mul_of_nonneg_right n1 (le_of_lt hD)
      _ ≤ N * (2 : ℚ) ^ LD := mul_le_mul_of_nonneg_left (le_of_lt d2) (le_of_lt hN)

theorem Double.binade_spec (a : ℚ) (ha : 0 < a) :
    (2 : ℚ) ^ Double.binade a ≤ a ∧ a < (2 : ℚ) ^ (Double.binade a + 1) := by
  have hnum : 0 < a.num := Rat.num_pos.2 ha
  have hN : 0 < a.num.natAbs := Int.natAbs_pos.2 (ne_of_gt hnum)
  obtain ⟨n1, n2, n3⟩ := bitLength_spec _ _ (le_refl a.num.natAbs) hN
  obtain ⟨d1, d2, d3⟩ := bitLength_spec _ _ (le_refl a.den) a.den_pos
  have hcast : ((a.num.natAbs : ℕ) : ℚ) = (a.num : ℚ) := by
    have h1 : ((a.num.natAbs : ℕ) : ℤ) = a.num := Int.natAbs_of_nonneg (le_of_lt hnum)
    have h2 : (((a.num.natAbs : ℕ) : ℤ) : ℚ) = (a.num : ℚ) := by rw [h1]
    rw [← h2, Int.cast_natCast]
  have ha2 : a = ((a.num.natAbs : ℕ) : ℚ) / ((a.den : ℕ) : ℚ) := by
    rw [hcast]
    exact (Rat.num_div_den a).symm
  obtain ⟨up, lo⟩ := binade_bounds a _ _ _ _ ha2 (by exact_mod_cast a.den_pos)
    (by exact_mod_cast hN) (by exact_mod_cast n1) (by exact_mod_cast n2) n3
    (by exact_mod_cast d1) (by exact_mod_cast d2) d3
  unfold Double.binade
  by_cases h : (2 : ℚ) ^ ((bitLength a.num.natAbs a.num.natAbs : ℤ)
      - (bitLength a.den a.den : ℤ)) ≤ a
  · rw [if_pos h]
    exact ⟨h, up⟩
  · rw [if_neg h]
    refine ⟨lo, ?_⟩
    rw [sub_add_cancel]
    exact lt_of_not_le h

theorem Double.binade_unique (a : ℚ) (e : ℤ) (ha : 0 < a) (h1 : (2 : ℚ) ^ e ≤ a)
    (h2 : a < (2 : ℚ) ^ (e + 1)) : Double.binade a = e := by
  obtain ⟨s1, s2⟩ := Double.binade_spec a ha
  have two : (1 : ℚ) < 2 := by norm_num
  have i1 : Double.binade a < e + 1 :=
    (zpow_lt_zpow_iff_right₀ two).1 (lt_of_le_of_lt s1 h2)
  have i2 : e < Double.binade a + 1 :=
    (zpow_lt_zpow_iff_right₀ two).1 (lt_of_le_of_lt h1 s2)
  omega

theorem roundEven_cases (x : ℚ) :
    roundEven x = ⌊x⌋ ∨ (roundEven x = ⌊x⌋ + 1 ∧ (1 / 2 : ℚ) ≤ x - ⌊x⌋) := by
  unfold roundEven
  by_cases h1 : x - ⌊x⌋ < 1 / 2
  · rw [if_pos h1]; exact Or.inl rfl
  · rw [if_neg h1]
    by_cases h2 : 1 / 2 < x - ⌊x⌋
    · rw [if_pos h2]; exact Or.inr ⟨rfl, le_of_lt h2⟩
    · rw [if_neg h2]
      by_cases h3 : ⌊x⌋ % 2 = 0
      · rw [if_pos h3]; exact Or.inl rfl
      · rw [if_neg h3]; exact Or.inr ⟨rfl, not_lt.1 h1⟩

theorem roundEven_intCast (m : ℤ) : roundEven (m : ℚ) = m := by
  unfold roundEven
  rw [Int.floor_intCast, sub_self, if_pos (by norm_num)]

theorem le_roundEven (a : ℤ) (x : ℚ) (h : (a : ℚ) ≤ x) : a ≤ roundEven x := by
  have hf : a ≤ ⌊x⌋ := Int.le_floor.2 h
  rcases roundEven_cases x with h1 | ⟨h1, _⟩ <;> rw [h1] <;> omega

theorem roundEven_le (b : ℤ) (x : ℚ) (h : x ≤ (b : ℚ)) : roundEven x ≤ b := by
  have hf : (⌊x⌋ : ℚ) ≤ x := Int.floor_le x
  rcases roundEven_cases x with h1 | ⟨h1, h2⟩
  · rw [h1]
    exact_mod_cast le_trans hf h
  · rw [h1]
    have hlt : (⌊x⌋ : ℚ) < (b : ℚ) := by linarith
    have : ⌊x⌋ < b := by exact_mod_cast hlt
    omega

theorem Double.ulp_pos (q : ℚ) : 0 < Double.ulp q := by
  unfold Double.ulp
  positivity

theorem Double.rnd_zero : Double.rnd 0 = 0 := by
  unfold Double.rnd
  rw [zero_div]
  have := roundEven_intCast 0
  simp only [Int.cast_zero] at this
  rw [this]
  simp

theorem Double.rnd_nonneg (q : ℚ) (h : 0 ≤ q) : 0 ≤ Double.rnd q := by
  unfold Double.rnd
  have h1 : ((0 : ℤ) : ℚ) ≤ q / Double.ulp q := by
    simp only [Int.cast_zero]
    exact div_nonneg h (le_of_lt (Double.ulp_pos q))
  have h2 := le_roundEven 0 _ h1
  have h3 : (0 : ℚ) ≤ (roundEven (q / Double.ulp q) : ℚ) := by exact_mod_cast h2
  exact mul_nonneg h3 (le_of_lt (Double.ulp_pos q))

theorem Double.rnd_nonpos (q : ℚ) (h : q ≤ 0) : Double.rnd q ≤ 0 := by
  unfold Double.rnd
  have h1 : q / Double.ulp q ≤ ((0 : ℤ) : ℚ) := by
    simp only [Int.cast_zero]
    exact div_nonpos_of_nonpos_of_nonneg h (le_of_lt (Double.ulp_pos q))
  have h2 := roundEven_le 0 _ h1
  have h3 : (roundEven (q / Double.ulp q) : ℚ) ≤ 0 := by exact_mod_cast h2
  exact mul_nonpos_of_nonpos_of_nonneg h3 (le_of_lt (Double.ulp_pos q))

/-- The multiplier of the spacing stays within `2 ^ 53` in magnitude. -/
theorem Double.multiplier_bound (q : ℚ) (hq : q ≠ 0) :
    |roundEven (q / Double.ulp q)| ≤ 2 ^ 53 ∧
      |q| < 2 ^ 53 * Double.ulp q := by
  have ha : 0 < |q| := abs_pos.2 hq
  obtain ⟨-, s2⟩ := Double.binade_spec |q| ha
  have two : (1 : ℚ) < 2 := by norm_num
  have hu : Double.ulp q = (2 : ℚ) ^ (max (Double.binade |q|) (-1022) - 52) := rfl
  have hle : (2 : ℚ) ^ (Double.binade |q| + 1)
      ≤ 2 ^ 53 * (2 : ℚ) ^ (max (Double.binade |q|) (-1022) - 52) := by
    have e : (2 : ℚ) ^ 53 * (2 : ℚ) ^ (max (Double.binade |q|) (-1022) - 52)
        = (2 : ℚ) ^ (max (Double.binade |q|) (-1022) + 1) := by
      rw [← zpow_natCast, ← zpow_add₀ (by norm_num : (2 : ℚ) ≠ 0)]
      congr 1
      push_cast
      ring
    rw [e]
    exact (zpow_le_zpow_iff_right₀ two).2 (by omega)
  have hlt : |q| < 2 ^ 53 * Double.ulp q := by
    rw [hu]; exact lt_of_lt_of_le s2 hle
  refine ⟨?_, hlt⟩
  have hup := Double.ulp_pos q
  have habs : |q / Double.ulp q| < 2 ^ 53 := by
    rw [abs_div, abs_of_pos hup, div_lt_iff₀ hup]
    exact hlt
  obtain ⟨b1, b2⟩ := abs_lt.1 habs
  rw [abs_le]
  constructor
  · apply le_roundEven
    push_cast
    linarith
  · apply roundEven_le
    push_cast
    linarith

theorem Double.maxFinite_eq : Double.maxFinite = (2 ^ 53 - 1) * (2 : ℚ) ^ (971 : ℤ) := by
  unfold Double.maxFinite
  norm_num

theorem Double.maxFinite_pos : 0 < Double.maxFinite := by
  unfold Double.maxFinite
  norm_num

theorem Double.maxFinite_lt_threshold : Double.maxFinite + 1 < Double.overflowThreshold := by
  unfold Double.maxFinite Double.overflowThreshold
  norm_num

theorem two_pow_53_mul (z : ℤ) : (2 : ℚ) ^ 53 * (2 : ℚ) ^ (z - 52) = (2 : ℚ) ^ (z + 1) := by
  rw [← zpow_natCast, ← zpow_add₀ (by norm_num : (2 : ℚ) ≠ 0)]
  congr 1
  push_cast
  ring

theorem abs_two_zpow (z : ℤ) : |(2 : ℚ) ^ z| = (2 : ℚ) ^ z :=
  abs_of_pos (by positivity)

theorem Double.rnd_eq (q : ℚ) :
    Double.rnd q = (roundEven (q / Double.ulp q) : ℚ)
      * (2 : ℚ) ^ (max (Double.binade |q|) (-1022) - 52) := rfl

/-- Rounding does not leave the range of the finite numbers. -/
theorem Double.rnd_abs_le (q : ℚ) (h : |q| ≤ Double.maxFinite) :
    |Double.rnd q| ≤ Double.maxFinite := by
  by_cases hq : q = 0
  · subst hq
    rw [Double.rnd_zero, abs_zero]
    exact le_of_lt Double.maxFinite_pos
  have ha : 0 < |q| := abs_pos.2 hq
  obtain ⟨s1, -⟩ := Double.binade_spec |q| ha
  have two : (1 : ℚ) < 2 := by norm_num
  have hmax : Double.maxFinite < (2 : ℚ) ^ (1024 : ℤ) := by
    unfold Double.maxFinite
    norm_num
  have he : Double.binade |q| < 1024 :=
    (zpow_lt_zpow_iff_right₀ two).1 (lt_of_le_of_lt s1 (lt_of_le_of_lt h hmax))
  obtain ⟨hm, -⟩ := Double.multiplier_bound q hq
  have hup := Double.ulp_pos q
  rw [Double.rnd_eq, abs_mul, abs_two_zpow]
  by_cases hE : max (Double.binade |q|) (-1022) = 1023
  · -- the topmost binade: the multiplier is at most `2 ^ 53 - 1`
    have hu : Double.ulp q = (2 : ℚ) ^ (971 : ℤ) := by
      unfold Double.ulp
      rw [hE]
      norm_num
    have hq2 : |q / Double.ulp q| ≤ 2 ^ 53 - 1 := by
      rw [abs_div, abs_of_pos hup, div_le_iff₀ hup, hu, ← Double.maxFinite_eq]
      exact h
    obtain ⟨b1, b2⟩ := abs_le.1 hq2
    have i1 : -(2 ^ 53 - 1 : ℤ) ≤ roundEven (q / Double.ulp q) := by
      apply le_roundEven
      push_cast
      linarith
    have i2 : roundEven (q / Double.ulp q) ≤ (2 ^ 53 - 1 : ℤ) := by
      apply roundEven_le
      push_cast
      linarith
    have i3 : |(roundEven (q / Double.ulp q) : ℚ)| ≤ 2 ^ 53 - 1 := by
      rw [abs_le]
      constructor
      · exact_mod_cast i1
      · exact_mod_cast i2
    have e971 : max (Double.binade |q|) (-1022) - 52 = 971 := by omega
    rw [e971, Double.maxFinite_eq]
    exact mul_le_mul_of_nonneg_right i3 (by positivity)
  · have hE2 : max (Double.binade |q|) (-1022) ≤ 1022 := by omega
    have i3 : |(roundEven (q / Double.ulp q) : ℚ)| ≤ 2 ^ 53 := by
      have : ((|roundEven (q / Double.ulp q)| : ℤ) : ℚ) ≤ ((2 ^ 53 : ℤ) : ℚ) := by
        exact_mod_cast hm
      rw [Int.cast_abs] at this
      calc |(roundEven (q / Double.ulp q) : ℚ)| ≤ ((2 ^ 53 : ℤ) : ℚ) := this
        _ = 2 ^ 53 := by norm_num
    calc |(roundEven (q / Double.ulp q) : ℚ)|
          * (2 : ℚ) ^ (max (Double.binade |q|) (-1022) - 52)
        ≤ 2 ^ 53 * (2 : ℚ) ^ (max (Double.binade |q|) (-1022) - 52) :=
          mul_le_mul_of_nonneg_right i3 (by positivity)
      _ = (2 : ℚ) ^ (max (Double.binade |q|) (-1022) + 1) := two_pow_53_mul _
      _ ≤ (2 : ℚ) ^ (1023 : ℤ) := (zpow_le_zpow_iff_right₀ two).2 (by omega)
      _ ≤ Double.maxFinite := by
          unfold Double.maxFinite
          norm_num

/-- A value whose quotient by its spacing is an integer is its own rounding. -/
theorem Double.rnd_of_int (x : ℚ) (k : ℤ) (h : x / Double.ulp x = (k : ℚ)) :
    Double.rnd x = x := by
  unfold Double.rnd
  rw [h, roundEven_intCast, ← h]
  exact div_mul_cancel₀ x (ne_of_gt (Double.ulp_pos x))

/-- A multiple of the spacing of a binade, with a multiplier of at most 53 bits, is a
binary64 number: rounding leaves it as it is. -/
theorem Double.rnd_of_multiple (x : ℚ) (m E : ℤ) (hE : -1022 ≤ E)
    (hx : x = (m : ℚ) * (2 : ℚ) ^ (E - 52)) (hm : |m| ≤ 2 ^ 53) : Double.rnd x = x := by
  by_cases hx0 : x = 0
  · rw [hx0, Double.rnd_zero]
  have two : (1 : ℚ) < 2 := by norm_num
  have two0 : (2 : ℚ) ≠ 0 := by norm_num
  have hxabs : 0 < |x| := abs_pos.2 hx0
  obtain ⟨t1, t2⟩ := Double.binade_spec |x| hxabs
  have hval : |x| = ((|m| : ℤ) : ℚ) * (2 : ℚ) ^ (E - 52) := by
    rw [hx, abs_mul, abs_two_zpow, Int.cast_abs]
  obtain ⟨F, hF⟩ : ∃ F, F = max (Double.binade |x|) (-1022) := ⟨_, rfl⟩
  have hulp : Double.ulp x = (2 : ℚ) ^ (F - 52) := by rw [hF]; rfl
  rcases lt_or_eq_of_le hm with hlt | heq
  · -- the multiplier is below `2 ^ 53`: the binade of the value is at most `E`
    have hlt2 : ((|m| : ℤ) : ℚ) < 2 ^ 53 := by
      calc ((|m| : ℤ) : ℚ) < ((2 ^ 53 : ℤ) : ℚ) := by exact_mod_cast hlt
        _ = 2 ^ 53 := by norm_num
    have hxlt : |x| < (2 : ℚ) ^ (E + 1) := by
      rw [hval, ← two_pow_53_mul]
      exact mul_lt_mul_of_pos_right hlt2 (by positivity)
    have he : Double.binade |x| < E + 1 :=
      (zpow_lt_zpow_iff_right₀ two).1 (lt_of_le_of_lt t1 hxlt)
    have hFE : F ≤ E := by omega
    obtain ⟨k, hk⟩ := Int.eq_ofNat_of_zero_le (sub_nonneg.2 hFE)
    apply Double.rnd_of_int x (m * 2 ^ k)
    rw [hulp, hx, mul_div_assoc, ← zpow_sub₀ two0]
    have : E - 52 - (F - 52) = (k : ℤ) := by rw [← hk]; ring
    rw [this, zpow_natCast]
    push_cast
    ring
  · -- the multiplier is `2 ^ 53`: the value is the power of two `2 ^ (E + 1)`
    have heq2 : ((|m| : ℤ) : ℚ) = 2 ^ 53 := by
      rw [heq]; norm_num
    have hxeq : |x| = (2 : ℚ) ^ (E + 1) := by
      rw [hval, heq2, two_pow_53_mul]
    have he : Double.binade |x| = E + 1 := by
      apply Double.binade_unique _ _ hxabs
      · rw [hxeq]
      · rw [hxeq]
        exact (zpow_lt_zpow_iff_right₀ two).2 (by omega)
    have hFE : F = E + 1 := by rw [hF, he]; omega
    have hdiv : x / Double.ulp x = (m : ℚ) / 2 := by
      rw [hulp, hFE, hx, mul_div_assoc, ← zpow_sub₀ two0]
      have : E - 52 - (E + 1 - 52) = -1 := by ring
      rw [this]
      norm_num
      ring
    have hm2 : m = 2 ^ 53 ∨ m = -2 ^ 53 := by
      rcases abs_cases m with ⟨h1, _⟩ | ⟨h1, _⟩
      · left; rw [← h1]; exact heq
      · right; rw [h1] at heq; omega
    rcases hm2 with h1 | h1
    · apply Double.rnd_of_int x (2 ^ 52)
      rw [hdiv, h1]
      norm_num
    · apply Double.rnd_of_int x (-2 ^ 52)
      rw [hdiv, h1]
      norm_num

/-- Rounding is idempotent: a rounded value is a binary64 number. -/
theorem Double.rnd_idem (q : ℚ) : Double.rnd (Double.rnd q) = Double.rnd q := by
  by_cases hq : q = 0
  · subst hq
    rw [Double.rnd_zero, Double.rnd_zero]
  exact Double.rnd_of_multiple _ _ _ (le_max_right _ _) (Double.rnd_eq q)
    (Double.multiplier_bound q hq).1

/-! ### Arithmetic of `Double` -/

theorem Double.num_add_num (a b : ℚ) :
    (Double.num a + Double.num b) = Double.round (a + b) := rfl

theorem Double.num_sub_num (a b : ℚ) :
    (Double.num a - Double.num b) = Double.round (a - b) := by
  show Double.round (a + -b) = Double.round (a - b)
  rw [sub_eq_add_neg]

theorem Double.num_mul_num (a b : ℚ) :
    (Double.num a * Double.num b) = Double.round (a * b) := rfl

theorem Double.num_div_num (a b : ℚ) :
    (Double.num a / Double.num b)
      = if b = 0 then (if a = 0 then Double.nan else Double.infinity (decide (a < 0)))
        else Double.round (a / b) := rfl

theorem Double.ofNat_eq_finite (k : Nat) :
    (OfNat.ofNat k : Double) = Double.finite k := rfl

@[simp] theorem Double.num_add_nan (a : ℚ) : (Double.num a + Double.nan) = Double.nan := rfl

@[simp] theorem Double.num_mul_nan (a : ℚ) : (Double.num a * Double.nan) = Double.nan := rfl

theorem Double.zero_eq : (0 : Double) = Double.num 0 := by decide!

theorem Double.one_eq : (1 : Double) = Double.num 1 := by decide!

theorem Double.finite_zero : Double.finite 0 = Double.num 0 := by decide!

theorem Double.finite_one : Double.finite 1 = Double.num 1 := by decide!

theorem Double.round_zero : Double.round 0 = Double.num 0 := by decide!

theorem Double.round_one : Double.round 1 = Double.num 1 := by decide!

/-- An exact value that is a binary64 number below the overflow threshold is the result
of the operation. -/
theorem Double.round_exact (v : ℚ) (h1 : Double.rnd v = v)
    (h2 : |v| < Double.overflowThreshold) : Double.round v = Double.num v := by
  unfold Double.round
  rw [if_neg (not_le.2 h2), h1]

/-- The `double` of a rational is a finite binary64 number with the sign of the
rational. -/
theorem Double.finite_spec (q : ℚ) :
    ∃ v, Double.finite q = Double.num v ∧ |v| ≤ Double.maxFinite ∧ Double.rnd v = v ∧
      (0 ≤ q → 0 ≤ v) ∧ (q ≤ 0 → v ≤ 0) := by
  have hM := le_of_lt Double.maxFinite_pos
  have hc : |max (-Double.maxFinite) (min q Double.maxFinite)| ≤ Double.maxFinite := by
    rw [abs_le]
    exact ⟨le_max_left _ _, max_le (by linarith) (min_le_right _ _)⟩
  refine ⟨Double.nearest q, rfl, Double.rnd_abs_le _ hc, Double.rnd_idem _, ?_, ?_⟩
  · intro h
    exact Double.rnd_nonneg _ (le_max_of_le_right (le_min h hM))
  · intro h
    exact Double.rnd_nonpos _ (max_le (by linarith) (le_trans (min_le_left _ _) h))

/-- Multiplication by one is exact. -/
theorem Double.finite_mul_one (q : ℚ) : Double.finite q * 1 = Double.finite q := by
  obtain ⟨v, hv, hle, hr, -, -⟩ := Double.finite_spec q
  rw [hv, Double.one_eq, Double.num_mul_num, mul_one]
  exact Double.round_exact v hr (by linarith [Double.maxFinite_lt_threshold])

/-- The difference `1 - p` of a finite `double` is finite. -/
theorem Double.one_sub_finite (q : ℚ) : ∃ w, 1 - Double.finite q = Double.num w := by
  obtain ⟨v, hv, hle, -, -, -⟩ := Double.finite_spec q
  refine ⟨Double.rnd (1 - v), ?_⟩
  rw [hv, Double.one_eq, Double.num_sub_num]
  unfold Double.round
  rw [if_neg]
  rw [not_le]
  have h1 : |1 - v| ≤ 1 + |v| := by
    have := abs_sub (1 : ℚ) v
    simpa using this
  linarith [Double.maxFinite_lt_threshold]

theorem Double.finite_half_ne_zero : Double.finite (1 / 2) ≠ 0 := by decide!

/-- The nearest integer is within one half. -/
theorem roundEven_error (x : ℚ) : |(roundEven x : ℚ) - x| ≤ 1 / 2 := by
  have h1 : (⌊x⌋ : ℚ) ≤ x := Int.floor_le x
  have h2 : x < (⌊x⌋ : ℚ) + 1 := Int.lt_floor_add_one x
  rw [abs_le]
  unfold roundEven
  split_ifs <;> push_cast <;> constructor <;> linarith

/-- The rounded value is within half a spacing of the exact value. -/
theorem Double.rnd_error (q : ℚ) : |Double.rnd q - q| ≤ Double.ulp q / 2 := by
  have hu := Double.ulp_pos q
  have e : Double.rnd q - q
      = ((roundEven (q / Double.ulp q) : ℚ) - q / Double.ulp q) * Double.ulp q := by
    unfold Double.rnd
    field_simp
  rw [e, abs_mul, abs_of_pos hu]
  have := roundEven_error (q / Double.ulp q)
  nlinarith

/-- Samples of the rounding: the conversion of `0.1`, two ties at `1` that go to the even
neighbour, the largest finite number and the overflow threshold, and three values of the
subnormal range. -/
theorem Double.round_samples :
    Double.finite (1 / 10) = Double.num (3602879701896397 / 36028797018963968) ∧
    Double.round (1 + 2 ^ (-53 : ℤ)) = Double.num 1 ∧
    Double.round (1 + 3 * 2 ^ (-53 : ℤ)) = Double.num (1 + 2 ^ (-51 : ℤ)) ∧
    Double.round Double.maxFinite = Double.num Double.maxFinite ∧
    Double.round (Double.overflowThreshold - 1) = Double.num Double.maxFinite ∧
    Double.round Double.overflowThreshold = Double.infinity false ∧
    Double.round (-Double.overflowThreshold) = Double.infinity true ∧
    Double.round (2 ^ (-1075 : ℤ)) = Double.num 0 ∧
    Double.round (3 * 2 ^ (-1075 : ℤ)) = Double.num (2 * 2 ^ (-1074 : ℤ)) ∧
    Double.round (-(5 * 2 ^ (-1075 : ℤ))) = Double.num (-(2 * 2 ^ (-1074 : ℤ))) := by
  decide!

/-! ### Constant diagrams and the numeric examples -/

/-- C14: when the root vertex is the terminal, `CalculateMif(index)` returns `0` for
every index, with or without an entry in `index_to_order`, and leaves the diagram as it
is: no field of any node is written. -/
theorem CalculateMif_terminal_root {n : Nat} (p : Int → ℚ) (b : Bdd n) (index : Int)
    (hroot : b.root.vertex = .terminal) : CalculateMif p b index = some (0, b) := by
  unfold CalculateMif
  rw [hroot]

/-- Witness of C14: the constant-false diagram and an index without an order. -/
theorem CalculateMif_terminal_root_witness :
    (constBdd true).index_to_order 7 = none ∧
      CalculateMif (fun _ => 1 / 2) (constBdd true) 7 = some (0, constBdd true) :=
  ⟨rfl, CalculateMif_terminal_root _ (constBdd true) 7 rfl⟩

theorem analyzeLoop_terminal {n : Nat} : ∀ (evs : List (Int × BasicEvent))
    (a : ImportanceAnalysis n), a.bdd_graph_.root.vertex = .terminal →
    ∃ a2, analyzeLoop evs a = some a2 ∧ a2.bdd_graph_ = a.bdd_graph_ ∧
      a2.important_events_
        = a.important_events_ ++ evs.map fun ev => (ev.2, recordOf ev.2.p 0 a.p_total)
  | [], a, _ => ⟨a, rfl, rfl, by simp⟩
  | ev :: rest, a, hroot => by
    have hc := CalculateMif_terminal_root a.var_probs a.bdd_graph_ ev.1 hroot
    have h1 : analyzeEvent a ev = some { a with
        bdd_graph_ := a.bdd_graph_
        importance_ := emplace a.importance_ ev.2.id (recordOf ev.2.p 0 a.p_total)
        important_events_ := a.important_events_ ++ [(ev.2, recordOf ev.2.p 0 a.p_total)] } := by
      unfold analyzeEvent
      rw [hc]
      rfl
    obtain ⟨a2, h2, hb, hl⟩ := analyzeLoop_terminal rest _
      (show ({ a with
        bdd_graph_ := a.bdd_graph_
        importance_ := emplace a.importance_ ev.2.id (recordOf ev.2.p 0 a.p_total)
        important_events_ := a.important_events_ ++ [(ev.2, recordOf ev.2.p 0 a.p_total)] }
          : ImportanceAnalysis n).bdd_graph_.root.vertex = .terminal from hroot)
    refine ⟨a2, ?_, hb, ?_⟩
    · rw [analyzeLoop, h1]
      exact h2
    · rw [hl]
      simp

/-- Record of an event on the constant-true diagram: every operation of the formulas
is exact. -/
theorem recordOf_zero_one (p_var : ℚ) :
    recordOf p_var 0 1
      = { mif := 0, cif := 0, raw := 1, dif := Double.finite p_var, rrw := 1 } := by
  obtain ⟨v, hv, hle, hr, -, -⟩ := Double.finite_spec p_var
  obtain ⟨w, hw⟩ := Double.one_sub_finite p_var
  have hrv : Double.round v = Double.num v :=
    Double.round_exact v hr (by linarith [Double.maxFinite_lt_threshold])
  simp only [recordOf]
  rw [hw, hv, Double.finite_zero, Double.finite_one, Double.zero_eq, Double.one_eq]
  simp [Double.num_mul_num, Double.num_div_num, Double.num_add_num, Double.num_sub_num,
    Double.round_zero, Double.round_one, hrv]

/-- Record of an event on the constant-false diagram: the quotients are `0 / 0`. -/
theorem recordOf_zero_zero (p_var : ℚ) :
    recordOf p_var 0 0
      = { mif := 0, cif := .nan, raw := .nan, dif := .nan, rrw := .nan } := by
  obtain ⟨v, hv, -, -, -, -⟩ := Double.finite_spec p_var
  obtain ⟨w, hw⟩ := Double.one_sub_finite p_var
  simp only [recordOf]
  rw [hw, hv, Double.finite_zero, Double.zero_eq, Double.one_eq]
  simp [Double.num_mul_num, Double.num_div_num, Double.num_add_num, Double.num_sub_num,
    Double.round_zero]

theorem constant_records {n : Nat} (an : ImportanceAnalysis n)
    (hroot : an.bdd_graph_.root.vertex = .terminal)
    (hp : an.p_total = if an.bdd_graph_.root.complement then 0 else 1) :
    ∃ an2, Analyze an = some an2 ∧
      an2.important_events_ = an.important_events_
        ++ (GatherImportantEvents an.graph an.cut_sets).map fun ev =>
          (ev.2, if an.bdd_graph_.root.complement then recordOf ev.2.p 0 0
                 else recordOf ev.2.p 0 1) := by
  obtain ⟨an2, h, _, hl⟩ := analyzeLoop_terminal (GatherImportantEvents an.graph an.cut_sets)
    an hroot
  refine ⟨an2, h, ?_⟩
  rw [hl, hp]
  cases an.bdd_graph_.root.complement <;> simp

theorem constAnalysis_gather (c : Bool) (pv : ℚ) :
    GatherImportantEvents (constAnalysis c pv).graph (constAnalysis c pv).cut_sets
      = [(1, { id := "e", p := pv })] := by
  simp [GatherImportantEvents, gatherStep, constAnalysis]

theorem constAnalysis_records (c : Bool) (pv : ℚ) :
    ∃ an2, Analyze (constAnalysis c pv) = some an2 ∧
      an2.important_events_
        = [({ id := "e", p := pv }, if c then recordOf pv 0 0 else recordOf pv 0 1)] := by
  obtain ⟨an2, h, hl⟩ := constant_records (constAnalysis c pv) rfl rfl
  refine ⟨an2, h, ?_⟩
  rw [hl, constAnalysis_gather]
  rfl

/-- C15, counterexample: for the constant-false diagram (top-event probability `0`) and
a target event of probability `1/2`, the record of `Analyze` has the quotient `0 / 0`,
NaN, as CIF and as RAW, not `0` and `1`. -/
theorem Analyze_constant_false_cif_raw :
    ∃ an2 imp, Analyze (constAnalysis true (1 / 2)) = some an2 ∧
      an2.important_events_ = [({ id := "e", p := 1 / 2 }, imp)] ∧
      imp.cif = Double.nan ∧ imp.raw = Double.nan ∧ imp.cif ≠ 0 ∧ imp.raw ≠ 1 := by
  obtain ⟨an2, h, hl⟩ := constAnalysis_records true (1 / 2)
  refine ⟨an2, _, h, hl, ?_, ?_, ?_, ?_⟩ <;>
    simp [recordOf_zero_zero, Double.zero_eq, Double.one_eq]

/-- C15, amended: on a constant diagram with the top-event probability of its constant,
`Analyze` returns and appends one record per target event; for the constant-true diagram
(`p_total = 1`) every record has CIF `0` and RAW `1`, and for the constant-false diagram
(`p_total = 0`) CIF and RAW are the quotient `0 / 0`, NaN. -/
theorem Analyze_constant_cif_raw {n : Nat} (an : ImportanceAnalysis n)
    (hroot : an.bdd_graph_.root.vertex = .terminal)
    (hp : an.p_total = if an.bdd_graph_.root.complement then 0 else 1) :
    ∃ an2 recs, Analyze an = some an2 ∧
      an2.important_events_ = an.important_events_ ++ recs ∧
      recs.map Prod.fst = (GatherImportantEvents an.graph an.cut_sets).map Prod.snd ∧
      ∀ r ∈ recs,
        if an.bdd_graph_.root.complement then r.2.cif = Double.nan ∧ r.2.raw = Double.nan
        else r.2.cif = 0 ∧ r.2.raw = 1 := by
  obtain ⟨an2, h, hl⟩ := constant_records an hroot hp
  refine ⟨an2, _, h, hl, by simp [Function.comp_def], ?_⟩
  intro r hr
  obtain ⟨ev, _, rfl⟩ := List.mem_map.1 hr
  cases an.bdd_graph_.root.complement <;> simp [recordOf_zero_one, recordOf_zero_zero]

/-- Witness of the amended C15: the constant-true diagram. -/
theorem Analyze_constant_cif_raw_witness :
    ∃ an2 recs, Analyze (constAnalysis false (1 / 2)) = some an2 ∧
      an2.important_events_ = (constAnalysis false (1 / 2)).important_events_ ++ recs ∧
      recs.map Prod.fst
        = (GatherImportantEvents (constAnalysis false (1 / 2)).graph
            (constAnalysis false (1 / 2)).cut_sets).map Prod.snd ∧
      ∀ r ∈ recs,
        if (constAnalysis false (1 / 2)).bdd_graph_.root.complement then
          r.2.cif = Double.nan ∧ r.2.raw = Double.nan
        else r.2.cif = 0 ∧ r.2.raw = 1 :=
  Analyze_constant_cif_raw (constAnalysis false (1 / 2)) rfl rfl

/-- C16, counterexample: for the constant-true diagram and a target event of
probability `1/2`, the record of `Analyze` has DIF `1/2`, not `0`. -/
theorem Analyze_constant_true_dif :
    ∃ an2 imp, Analyze (constAnalysis false (1 / 2)) = some an2 ∧
      an2.important_events_ = [({ id := "e", p := 1 / 2 }, imp)] ∧
      imp.dif = Double.finite (1 / 2) ∧ imp.dif ≠ 0 := by
  obtain ⟨an2, h, hl⟩ := constAnalysis_records false (1 / 2)
  refine ⟨an2, _, h, hl, ?_, ?_⟩
  · simp [recordOf_zero_one]
  · simp only [if_false, Bool.false_eq_true, recordOf_zero_one]
    exact Double.finite_half_ne_zero

/-- C16, amended: on a constant diagram with the top-event probability of its constant,
the DIF of every record of `Analyze` is `p_var * RAW`: the probability of the event for
the constant-true diagram (`0` only for an event of probability `0`), and NaN for the
constant-false diagram. -/
theorem Analyze_constant_dif {n : Nat} (an : ImportanceAnalysis n)
    (hroot : an.bdd_graph_.root.vertex = .terminal)
    (hp : an.p_total = if an.bdd_graph_.root.complement then 0 else 1) :
    ∃ an2 recs, Analyze an = some an2 ∧
      an2.important_events_ = an.important_events_ ++ recs ∧
      recs.map Prod.fst = (GatherImportantEvents an.graph an.cut_sets).map Prod.snd ∧
      ∀ r ∈ recs,
        if an.bdd_graph_.root.complement then r.2.dif = Double.nan
        else r.2.dif = Double.finite r.1.p := by
  obtain ⟨an2, h, hl⟩ := constant_records an hroot hp
  refine ⟨an2, _, h, hl, by simp [Function.comp_def], ?_⟩
  intro r hr
  obtain ⟨ev, _, rfl⟩ := List.mem_map.1 hr
  cases an.bdd_graph_.root.complement <;> simp [recordOf_zero_one, recordOf_zero_zero]

/-- Witness of the amended C16: the constant-true diagram. -/
theorem Analyze_constant_dif_witness :
    ∃ an2 recs, Analyze (constAnalysis false (1 / 2)) = some an2 ∧
      an2.important_events_ = (constAnalysis false (1 / 2)).important_events_ ++ recs ∧
      recs.map Prod.fst
        = (GatherImportantEvents (constAnalysis false (1 / 2)).graph
            (constAnalysis false (1 / 2)).cut_sets).map Prod.snd ∧
      ∀ r ∈ recs,
        if (constAnalysis false (1 / 2)).bdd_graph_.root.complement then
          r.2.dif = Double.nan
        else r.2.dif = Double.finite r.1.p :=
  Analyze_constant_dif (constAnalysis false (1 / 2)) rfl rfl

/-- The record of the first target event of `Analyze`. -/
theorem Analyze_first_record {n : Nat} (an an2 : ImportanceAnalysis n)
    (ev : Int × BasicEvent) (rest : List (Int × BasicEvent)) (mif : ℚ) (b1 : Bdd n)
    (hg : GatherImportantEvents an.graph an.cut_sets = ev :: rest)
    (hc : CalculateMif an.var_probs an.bdd_graph_ ev.1 = some (mif, b1))
    (hl : an.important_events_ = []) (h : Analyze an = some an2) :
    an2.important_events_[0]? = some (ev.2, recordOf ev.2.p mif an.p_total) := by
  obtain ⟨_, _, _, _, recs, hrecs, _, _, hk⟩ := analyzeLoop_spec _ an an2 h
  obtain ⟨s, mif2, b2, hs, hc2, hr⟩ := hk 0 ev (by rw [hg]; simp)
  simp only [List.take_zero, analyzeLoop, Option.some.injEq] at hs
  subst hs
  rw [hc] at hc2
  simp only [Option.some.injEq, Prod.mk.injEq] at hc2
  rw [hrecs, hl, List.nil_append, hr, hc2.1]

theorem andBdd_mif_one (p1 p2 : ℚ) (vp : Int → ℚ) :
    CalculateMif vp (andBdd p1 p2) 1
      = some (p2, (((andBdd p1 p2).setMark 0 true).setFactor 0 p2).ClearMarks false) := by
  simp [CalculateMif, CalculateMifRec, andBdd, Bdd.setMark, Bdd.setFactor, RetrieveProbability]

theorem andBdd_mif_two (p1 p2 : ℚ) :
    (CalculateMif (fun i => if i = 1 then p1 else p2) (andBdd p1 p2) 2).map Prod.fst
      = some p1 := by
  simp [CalculateMif, CalculateMifRec, andBdd, Bdd.setMark, Bdd.setFactor, RetrieveProbability]

theorem andAnalysis_first_record :
    ∃ an2, Analyze andAnalysis = some an2 ∧
      an2.important_events_[0]?
        = some ({ id := "e1", p := 1 / 10 }, recordOf (1 / 10) (1 / 5) (1 / 50)) := by
  obtain ⟨an2, h⟩ := Option.isSome_iff_exists.1 andAnalysis_isSome
  exact ⟨an2, h, Analyze_first_record andAnalysis an2 _ _ _ _ andAnalysis_gather
    (andBdd_mif_one _ _ _) rfl h⟩

/-- The record of variable 1 on the analyzer of `x1 ∧ x2`, operation by operation in
binary64: the product `0.1 * 0.2` rounds up to `0.020000000000000004`, so the CIF is
`1 + 2 ^ (-52)` and the denominator of RRW is `0.02 - 0.020000000000000004`. -/
theorem recordOf_and_one :
    recordOf (1 / 10) (1 / 5) (1 / 50)
      = { mif := Double.finite (1 / 5), cif := .num (4503599627370497 / 4503599627370496),
          raw := 10, dif := 1, rrw := .num (-5764607523034235) } := by
  decide!

/-- The record of variable 1 on `andRoundedAnalysis`. -/
theorem recordOf_and_rounded :
    recordOf (1 / 10) (1 / 5) (1441151880758559 / 72057594037927936)
      = { mif := Double.finite (1 / 5), cif := 1, raw := 10, dif := 1,
          rrw := .infinity false } := by
  decide!

theorem andRoundedAnalysis_gather :
    GatherImportantEvents andRoundedAnalysis.graph andRoundedAnalysis.cut_sets
      = [(1, { id := "e1", p := 1 / 10 }), (2, { id := "e2", p := 1 / 5 })] := by
  simp [GatherImportantEvents, gatherStep, andRoundedAnalysis]

theorem andRoundedAnalysis_isSome : (Analyze andRoundedAnalysis).isSome = true := by
  rw [Analyze, andRoundedAnalysis_gather]
  simp [analyzeLoop, analyzeEvent, CalculateMif, CalculateMifRec, andRoundedAnalysis, andBdd,
    Bdd.setMark, Bdd.setFactor, Bdd.ClearMarks, RetrieveProbability]

theorem andRoundedAnalysis_first_record :
    ∃ an2, Analyze andRoundedAnalysis = some an2 ∧
      an2.important_events_[0]?
        = some ({ id := "e1", p := 1 / 10 },
            recordOf (1 / 10) (1 / 5) (1441151880758559 / 72057594037927936)) := by
  obtain ⟨an2, h⟩ := Option.isSome_iff_exists.1 andRoundedAnalysis_isSome
  exact ⟨an2, h, Analyze_first_record andRoundedAnalysis an2 _ _ _ _ andRoundedAnalysis_gather
    (andBdd_mif_one _ _ _) rfl h⟩

/-- C17, counterexample: with `p1 = 1/10`, `p2 = 1/5` and `p_total = 1/50` as the
`double`s `0.1`, `0.2` and `0.02`, the CIF that `Analyze` stores for variable 1 is not
`1`: the product `0.1 * 0.2` is rounded to `0.020000000000000004`, which is above
`0.02`, and the quotient is `4503599627370497 / 2 ^ 52`, the `double` next above `1`
(`1.0000000000000002`). -/
theorem andAnalysis_cif_not_one :
    ∃ an2 imp, Analyze andAnalysis = some an2 ∧
      an2.important_events_[0]? = some ({ id := "e1", p := 1 / 10 }, imp) ∧
      Double.finite (1 / 10) * Double.finite (1 / 5)
        = Double.num (1441151880758559 / 72057594037927936) ∧
      Double.finite (1 / 50) = Double.num (5764607523034235 / 288230376151711744) ∧
      imp.cif = Double.num (4503599627370497 / 4503599627370496) ∧ imp.cif ≠ 1 := by
  obtain ⟨an2, h, hr⟩ := andAnalysis_first_record
  refine ⟨an2, _, h, hr, by decide!, by decide!, ?_, ?_⟩
  · rw [recordOf_and_one]
  · rw [recordOf_and_one]
    decide!

/-- C17, amended: on the diagram of `x1 ∧ x2` with valid cached probabilities, for all
`p1`, `p2`, `CalculateMif(1) = p2` and `CalculateMif(2) = p1`.  With `p1 = 1/10`,
`p2 = 1/5` and `p_total = 1/50` the quotient `p1 * p2 / p_total` is `1` in exact
arithmetic; the record of variable 1 holds the `double` `0.2` as MIF and the `double`
`1 + 2 ^ (-52)` as CIF, because the product `0.1 * 0.2` is rounded before it is divided by
`0.02`.  With the top-event probability that the product of the `double`s `0.1` and `0.2`
gives, the stored CIF is `1`. -/
theorem andBdd_mif_and_cif :
    (∀ p1 p2 : ℚ,
      CachedValid (andBdd p1 p2) (fun i => if i = 1 then p1 else p2) ∧
      (CalculateMif (fun i => if i = 1 then p1 else p2) (andBdd p1 p2) 1).map Prod.fst
        = some p2 ∧
      (CalculateMif (fun i => if i = 1 then p1 else p2) (andBdd p1 p2) 2).map Prod.fst
        = some p1) ∧
    (1 / 10 : ℚ) * (1 / 5) / (1 / 50) = 1 ∧
    (4503599627370497 / 4503599627370496 : ℚ) = 1 + 1 / 2 ^ 52 ∧
    (∃ an2 imp, Analyze andAnalysis = some an2 ∧
      an2.important_events_[0]? = some ({ id := "e1", p := 1 / 10 }, imp) ∧
      imp.mif = Double.finite (1 / 5) ∧
      imp.cif = Double.num (4503599627370497 / 4503599627370496)) ∧
    ∃ an2 imp, Analyze andRoundedAnalysis = some an2 ∧
      an2.important_events_[0]? = some ({ id := "e1", p := 1 / 10 }, imp) ∧
      Double.finite andRoundedAnalysis.p_total
        = Double.finite (1 / 10) * Double.finite (1 / 5) ∧
      imp.mif = Double.finite (1 / 5) ∧ imp.cif = 1 := by
  refine ⟨fun p1 p2 => ⟨andBdd_cachedValid p1 p2, ?_, andBdd_mif_two p1 p2⟩,
    by norm_num, by norm_num, ?_, ?_⟩
  · rw [andBdd_mif_one]; rfl
  · obtain ⟨an2, h, hr⟩ := andAnalysis_first_record
    refine ⟨an2, _, h, hr, ?_, ?_⟩
    · rw [recordOf_and_one]
    · rw [recordOf_and_one]
  · obtain ⟨an2, h, hr⟩ := andRoundedAnalysis_first_record
    refine ⟨an2, _, h, hr, by decide!, ?_, ?_⟩
    · rw [recordOf_and_rounded]
    · rw [recordOf_and_rounded]

/-- C18, counterexample: on the diagram of `x1 ∧ x2` with `p1 = 1/10`, `p2 = 1/5` and
`p_total = 1/50`, the RAW of the record of variable 1 is not `9`. -/
theorem andAnalysis_raw_not_nine :
    ∃ an2 imp, Analyze andAnalysis = some an2 ∧
      an2.important_events_[0]? = some ({ id := "e1", p := 1 / 10 }, imp) ∧
      imp.raw ≠ 9 := by
  obtain ⟨an2, h, hr⟩ := andAnalysis_first_record
  refine ⟨an2, _, h, hr, ?_⟩
  rw [recordOf_and_one]
  decide!

/-- C18, amended: on the diagram of `x1 ∧ x2` with `p1 = 1/10`, `p2 = 1/5` and
`p_total = 1/50`, the record of variable 1 has RAW `1 + (9/10) * (1/5) / (1/50) = 10`, in
exact rational arithmetic; the RAW stored in `double` is `10` as well. -/
theorem andAnalysis_raw_ten :
    (1 : ℚ) + (1 - 1 / 10) * (1 / 5) / (1 / 50) = 10 ∧
    ∃ an2 imp, Analyze andAnalysis = some an2 ∧
      an2.important_events_[0]? = some ({ id := "e1", p := 1 / 10 }, imp) ∧
      imp.raw = 10 := by
  refine ⟨by norm_num, ?_⟩
  obtain ⟨an2, h, hr⟩ := andAnalysis_first_record
  refine ⟨an2, _, h, hr, ?_⟩
  rw [recordOf_and_one]

theorem orBdd_cachedValid (p1 p2 : ℚ) :
    CachedValid (orBdd p1 p2) (fun i => if i = 1 then p1 else p2) := by
  intro j
  fin_cases j <;> simp [nodeProb, orBdd, edgeProb]

theorem orBdd_topProbability (p1 p2 : ℚ) :
    topProbability (orBdd p1 p2) (fun i => if i = 1 then p1 else p2) = p1 + (1 - p1) * p2 := by
  simp [topProbability, topProb, probabilityOf, CalculateProbability, orBdd, edgeProb]

theorem orBdd_mif_one (p1 p2 : ℚ) (vp : Int → ℚ) :
    CalculateMif vp (orBdd p1 p2) 1
      = some (1 - p2,
          (((orBdd p1 p2).setMark 0 true).setFactor 0 (1 - p2)).ClearMarks false) := by
  simp [CalculateMif, CalculateMifRec, orBdd, Bdd.setMark, Bdd.setFactor, RetrieveProbability]

theorem orAnalysis_gather :
    GatherImportantEvents orAnalysis.graph orAnalysis.cut_sets
      = [(1, { id := "e1", p := 1 / 10 }), (2, { id := "e2", p := 1 / 5 })] := by
  simp [GatherImportantEvents, gatherStep, orAnalysis]

theorem orAnalysis_isSome : (Analyze orAnalysis).isSome = true := by
  rw [Analyze, orAnalysis_gather]
  simp [analyzeLoop, analyzeEvent, CalculateMif, CalculateMifRec, orAnalysis, orBdd,
    Bdd.setMark, Bdd.setFactor, Bdd.ClearMarks, RetrieveProbability]

theorem orAnalysis_first_record :
    ∃ an2, Analyze orAnalysis = some an2 ∧
      an2.important_events_[0]?
        = some ({ id := "e1", p := 1 / 10 }, recordOf (1 / 10) (1 - 1 / 5) (7 / 25)) := by
  obtain ⟨an2, h⟩ := Option.isSome_iff_exists.1 orAnalysis_isSome
  exact ⟨an2, h, Analyze_first_record orAnalysis an2 _ _ _ _ orAnalysis_gather
    (orBdd_mif_one _ _ _) rfl h⟩

/-- The record of variable 1 on the analyzer of `x1 ∨ x2`, operation by operation in
binary64. -/
theorem recordOf_or_one :
    recordOf (1 / 10) (1 - 1 / 5) (7 / 25)
      = { mif := Double.finite (4 / 5), cif := .num (5146971002709139 / 18014398509481984),
          raw := .num (8042142191733029 / 2251799813685248),
          dif := .num (804214219173303 / 2251799813685248),
          rrw := .num (6305039478318695 / 4503599627370496) } := by
  decide!

/-- C19, counterexample: with `p1 = 1/10`, `p2 = 1/5` and `p_total = 7/25` as the
`double`s `0.1`, `0.2` and `0.28`, the CIF that `Analyze` stores for variable 1 is the
`double` `5146971002709139 / 2 ^ 54` (`0.28571428571428575`).  It is not `2/7`, which is
no binary64 number, and it is not the `double` nearest to `2/7` either, which is
`2573485501354569 / 2 ^ 53` (`0.2857142857142857`). -/
theorem orAnalysis_cif_not_two_sevenths :
    ∃ an2 imp, Analyze orAnalysis = some an2 ∧
      an2.important_events_[0]? = some ({ id := "e1", p := 1 / 10 }, imp) ∧
      imp.cif = Double.num (5146971002709139 / 18014398509481984) ∧
      Double.finite (2 / 7) = Double.num (2573485501354569 / 9007199254740992) ∧
      imp.cif ≠ Double.finite (2 / 7) ∧ imp.cif ≠ Double.num (2 / 7) := by
  obtain ⟨an2, h, hr⟩ := orAnalysis_first_record
  refine ⟨an2, _, h, hr, ?_, by decide!, ?_, ?_⟩
  · rw [recordOf_or_one]
  · rw [recordOf_or_one]
    decide!
  · rw [recordOf_or_one]
    decide!

/-- C19, amended: on the diagram of `x1 ∨ x2` with valid cached probabilities, for all
`p1`, `p2`, the top-event probability is `p1 + (1 - p1) * p2` and
`CalculateMif(1) = 1 - p2`; with `p1 = 1/10`, `p2 = 1/5` the top-event probability is
`7/25`, the factor is `4/5` and the quotient `(1/10) * (4/5) / (7/25)` is `2/7` in exact
arithmetic.  The record of variable 1 holds the `double` `0.8` as MIF and the `double`
`5146971002709139 / 2 ^ 54` (`0.28571428571428575`) as CIF, which is within `2 ^ (-54)`
of `2/7`. -/
theorem orBdd_mif_and_cif :
    (∀ p1 p2 : ℚ,
      CachedValid (orBdd p1 p2) (fun i => if i = 1 then p1 else p2) ∧
      topProbability (orBdd p1 p2) (fun i => if i = 1 then p1 else p2)
        = p1 + (1 - p1) * p2 ∧
      (CalculateMif (fun i => if i = 1 then p1 else p2) (orBdd p1 p2) 1).map Prod.fst
        = some (1 - p2)) ∧
    topProbability (orBdd (1 / 10) (1 / 5)) (fun i => if i = 1 then 1 / 10 else 1 / 5)
      = 7 / 25 ∧
    (1 / 10 : ℚ) * (4 / 5) / (7 / 25) = 2 / 7 ∧
    |(5146971002709139 / 18014398509481984 : ℚ) - 2 / 7| < 1 / 2 ^ 54 ∧
    ∃ an2 imp, Analyze orAnalysis = some an2 ∧
      an2.important_events_[0]? = some ({ id := "e1", p := 1 / 10 }, imp) ∧
      imp.mif = Double.finite (4 / 5) ∧
      imp.cif = Double.num (5146971002709139 / 18014398509481984) := by
  refine ⟨fun p1 p2 => ⟨orBdd_cachedValid p1 p2, orBdd_topProbability p1 p2, ?_⟩, ?_,
    by norm_num, ?_, ?_⟩
  · rw [orBdd_mif_one]; rfl
  · rw [orBdd_topProbability]; norm_num
  · rw [abs_lt]
    constructor <;> norm_num
  · obtain ⟨an2, h, hr⟩ := orAnalysis_first_record
    refine ⟨an2, _, h, hr, ?_, ?_⟩
    · rw [recordOf_or_one]
    · rw [recordOf_or_one]

/-- The stored RRW when the denominator, computed in `double`, is zero. -/
theorem rrw_zero_denominator (p_var mif p_total : ℚ)
    (hden : (p_total : Double) - (p_var : Double) * (mif : Double) = 0) :
    (recordOf p_var mif p_total).rrw
      = if (p_total : Double) = 0 then Double.nan
        else Double.infinity (decide (p_total < 0)) := by
  obtain ⟨v, hv, -, -, hpos, hneg⟩ := Double.finite_spec p_total
  show Double.finite p_total / (Double.finite p_total - Double.finite p_var * Double.finite mif)
    = _
  rw [hden, hv, Double.zero_eq, Double.num_div_num, if_pos rfl]
  by_cases h0 : v = 0
  · rw [if_pos h0, h0, if_pos rfl]
  · have hne : Double.num v ≠ Double.num 0 := fun h => h0 (Double.num.inj h)
    rw [if_neg h0, if_neg hne]
    congr 1
    by_cases hq : p_total < 0
    · have hv0 : v < 0 := lt_of_le_of_ne (hneg (le_of_lt hq)) h0
      simp [hq, hv0]
    · have hv0 : ¬ v < 0 := not_lt.2 (hpos (not_lt.1 hq))
      simp [hq, hv0]

/-- C20, counterexample: a zero denominator of RRW does not yield an infinity in two
ways.  On the constant-false diagram (top-event probability `0`, factor `0`) the
denominator is zero and the stored RRW is the quotient `0 / 0`, NaN.  On the analyzer of
`x1 ∧ x2` the denominator `1/50 - (1/10) * (1/5)` of variable 1 is zero, and the stored
RRW is the finite number `-5764607523034235`: the product of the `double`s `0.1` and
`0.2` is rounded to `0.020000000000000004`, and the denominator, computed in `double`, is
`0.02 - 0.020000000000000004 = -2 ^ (-58)`. -/
theorem Analyze_rrw_nan :
    (∃ an2 imp, Analyze (constAnalysis true (1 / 2)) = some an2 ∧
      an2.important_events_ = [({ id := "e", p := 1 / 2 }, imp)] ∧
      CalculateMif (constAnalysis true (1 / 2)).var_probs
        (constAnalysis true (1 / 2)).bdd_graph_ 1 = some (0, constBdd true) ∧
      (constAnalysis true (1 / 2)).p_total - (1 / 2) * 0 = 0 ∧
      imp.rrw = Double.nan ∧ ∀ s, imp.rrw ≠ Double.infinity s) ∧
    ∃ an2 imp, Analyze andAnalysis = some an2 ∧
      an2.important_events_[0]? = some ({ id := "e1", p := 1 / 10 }, imp) ∧
      (CalculateMif andAnalysis.var_probs andAnalysis.bdd_graph_ 1).map Prod.fst
        = some (1 / 5) ∧
      andAnalysis.p_total - (1 / 10) * (1 / 5) = 0 ∧
      Double.finite andAnalysis.p_total - Double.finite (1 / 10) * Double.finite (1 / 5)
        = Double.num (-1 / 288230376151711744) ∧
      imp.rrw = Double.num (-5764607523034235) ∧ ∀ s, imp.rrw ≠ Double.infinity s := by
  constructor
  · obtain ⟨an2, h, hl⟩ := constAnalysis_records true (1 / 2)
    refine ⟨an2, _, h, hl, rfl, by simp [constAnalysis], ?_, ?_⟩ <;>
      simp [recordOf_zero_zero]
  · obtain ⟨an2, h, hr⟩ := andAnalysis_first_record
    refine ⟨an2, _, h, hr, ?_, ?_, by decide!, ?_, ?_⟩
    · have hm := andBdd_mif_one (1 / 10) (1 / 5) andAnalysis.var_probs
      show (CalculateMif andAnalysis.var_probs (andBdd (1 / 10) (1 / 5)) 1).map Prod.fst = _
      rw [hm]; rfl
    · simp [andAnalysis]; norm_num
    · rw [recordOf_and_one]
    · rw [recordOf_and_one]
      intro s
      simp

/-- C20, amended: the step of `Analyze` for a target event returns whenever
`CalculateMif` does, whatever the denominators.  When the denominator of RRW, computed in
`double` from the `double`s of `p_total`, `p_var` and the factor, is zero, the stored RRW
is the quotient `p_total / 0`: the infinity with the sign of `p_total` if the `double` of
`p_total` is not zero, and NaN (`0 / 0`) if it is zero; never a finite number.  (A
denominator that is zero in exact arithmetic need not be zero in `double`.) -/
theorem Analyze_rrw_zero_denominator {n : Nat} (an an2 : ImportanceAnalysis n)
    (h : Analyze an = some an2) :
    (∀ (a : ImportanceAnalysis n) (ev : Int × BasicEvent) (mif : ℚ) (b1 : Bdd n),
      CalculateMif a.var_probs a.bdd_graph_ ev.1 = some (mif, b1) →
      ∃ a1, analyzeEvent a ev = some a1) ∧
    ∃ recs, an2.important_events_ = an.important_events_ ++ recs ∧
      ∀ k ev, (GatherImportantEvents an.graph an.cut_sets)[k]? = some ev →
        ∃ s mif b1 imp,
          analyzeLoop ((GatherImportantEvents an.graph an.cut_sets).take k) an = some s ∧
          CalculateMif s.var_probs s.bdd_graph_ ev.1 = some (mif, b1) ∧
          recs[k]? = some (ev.2, imp) ∧
          ((an.p_total : Double) - (ev.2.p : Double) * (mif : Double) = 0 →
            imp.rrw = (if (an.p_total : Double) = 0 then Double.nan
                       else Double.infinity (decide (an.p_total < 0))) ∧
            ∀ q, imp.rrw ≠ Double.num q) := by
  constructor
  · intro a ev mif b1 hc
    unfold analyzeEvent
    rw [hc]
    exact ⟨_, rfl⟩
  · obtain ⟨_, _, _, _, recs, hrecs, _, _, hk⟩ := analyzeLoop_spec _ an an2 h
    refine ⟨recs, hrecs, ?_⟩
    intro k ev hev
    obtain ⟨s, mif, b1, hs, hc, hr⟩ := hk k ev hev
    refine ⟨s, mif, b1, _, hs, hc, hr, ?_⟩
    intro hden
    rw [rrw_zero_denominator _ _ _ hden]
    refine ⟨rfl, ?_⟩
    intro q
    split_ifs <;> simp

/-- Witness of the amended C20: on `andRoundedAnalysis` the top-event probability is the
`double` that the product `0.1 * 0.2` gives, the denominator of the RRW of variable 1 is
zero in `double`, and the stored RRW is `+infinity`. -/
theorem Analyze_rrw_zero_denominator_witness :
    ∃ an2 imp, Analyze andRoundedAnalysis = some an2 ∧
      an2.important_events_[0]? = some ({ id := "e1", p := 1 / 10 }, imp) ∧
      Double.finite andRoundedAnalysis.p_total
        - Double.finite (1 / 10) * Double.finite (1 / 5) = 0 ∧
      imp.rrw = Double.infinity false := by
  obtain ⟨an2, h⟩ := Option.isSome_iff_exists.1 andRoundedAnalysis_isSome
  obtain ⟨_, recs, hrecs, hk⟩ := Analyze_rrw_zero_denominator andRoundedAnalysis an2 h
  obtain ⟨s, mif, b1, imp, hs, hc, hr, hz⟩ := hk 0 (1, { id := "e1", p := 1 / 10 })
    (by rw [andRoundedAnalysis_gather]; simp)
  simp only [List.take_zero, analyzeLoop, Option.some.injEq] at hs
  subst hs
  have hc2 : CalculateMif andRoundedAnalysis.var_probs andRoundedAnalysis.bdd_graph_ 1
      = some (1 / 5, _) := andBdd_mif_one _ _ _
  rw [hc2] at hc
  simp only [Option.some.injEq, Prod.mk.injEq] at hc
  have hden : Double.finite andRoundedAnalysis.p_total
      - Double.finite (1 / 10) * Double.finite mif = 0 := by
    rw [← hc.1]; decide!
  refine ⟨an2, imp, h, ?_, ?_, ?_⟩
  · rw [hrecs]
    simpa [andRoundedAnalysis] using hr
  · decide!
  · rw [(hz hden).1]
    decide!

/-! ### Frame of `CalculateMif` and `Analyze` -/

theorem ClearMarks_sameShape {n : Nat} (b : Bdd n) (m : Bool) : SameShape b (b.ClearMarks m) :=
  ⟨rfl, rfl, rfl, fun _ => rfl⟩

theorem CalculateMif_sameShape {n : Nat} {p : Int → ℚ} {b b2 : Bdd n} {index : Int} {mif : ℚ}
    (h : CalculateMif p b index = some (mif, b2)) : SameShape b b2 := by
  rcases CalculateMif_some h with ⟨_, _, rfl⟩ | ⟨r, order, b1, _, _, hrun, rfl⟩
  · exact SameShape.shape_refl _
  · exact hrun.frame.sameShape.shape_trans (ClearMarks_sameShape b1 _)

theorem analyzeEvent_sameShape {n : Nat} {a a1 : ImportanceAnalysis n} {ev : Int × BasicEvent}
    (h : analyzeEvent a ev = some a1) : SameShape a.bdd_graph_ a1.bdd_graph_ := by
  obtain ⟨mif, b1, hc, ha1⟩ := analyzeEvent_some a a1 ev h
  rw [ha1]
  exact CalculateMif_sameShape hc

theorem analyzeLoop_sameShape {n : Nat} : ∀ (evs : List (Int × BasicEvent))
    (a a2 : ImportanceAnalysis n), analyzeLoop evs a = some a2 →
    SameShape a.bdd_graph_ a2.bdd_graph_
  | [], a, a2, h => by
    simp only [analyzeLoop, Option.some.injEq] at h
    subst h
    exact SameShape.shape_refl _
  | ev :: rest, a, a2, h => by
    rw [analyzeLoop] at h
    cases h1 : analyzeEvent a ev with
    | none => simp [h1] at h
    | some a1 =>
      simp only [h1] at h
      exact (analyzeEvent_sameShape h1).shape_trans (analyzeLoop_sameShape rest a1 a2 h)

theorem SameShape.fields {n : Nat} {b b2 : Bdd n} (h : SameShape b b2) :
    b2.root = b.root ∧ b2.gates = b.gates ∧ b2.index_to_order = b.index_to_order ∧
    ∀ j, (b2.nodes j).prob = (b.nodes j).prob ∧
      (b2.nodes j).index = (b.nodes j).index ∧
      (b2.nodes j).order = (b.nodes j).order ∧
      (b2.nodes j).module = (b.nodes j).module ∧
      (b2.nodes j).high = (b.nodes j).high ∧
      (b2.nodes j).low = (b.nodes j).low ∧
      (b2.nodes j).complement_edge = (b.nodes j).complement_edge :=
  ⟨h.1, h.2.1, h.2.2.1, fun j =>
    ⟨show ((b2.nodes j).shape).prob = ((b.nodes j).shape).prob from
        congrArg Ite.prob (h.2.2.2 j),
      h.shape_index_eq j, h.shape_order_eq j, h.shape_module_eq j, h.shape_high_eq j,
      h.shape_low_eq j, h.shape_complement_edge_eq j⟩⟩

/-- C11: `CalculateMif(index)`, and with it `Analyze`, leaves the root edge, the `gates`
and `index_to_order` tables and, in every decision node, the cached probability, the
variable index, the order, the module flag, the high and low edges and the complement flag
of the low edge as they were: only marks and factors are written. -/
theorem CalculateMif_permanent_fields {n : Nat} :
    (∀ (p : Int → ℚ) (b b2 : Bdd n) (index : Int) (mif : ℚ),
      CalculateMif p b index = some (mif, b2) →
      b2.root = b.root ∧ b2.gates = b.gates ∧ b2.index_to_order = b.index_to_order ∧
      ∀ j, (b2.nodes j).prob = (b.nodes j).prob ∧
        (b2.nodes j).index = (b.nodes j).index ∧
        (b2.nodes j).order = (b.nodes j).order ∧
        (b2.nodes j).module = (b.nodes j).module ∧
        (b2.nodes j).high = (b.nodes j).high ∧
        (b2.nodes j).low = (b.nodes j).low ∧
        (b2.nodes j).complement_edge = (b.nodes j).complement_edge) ∧
    (∀ an an2 : ImportanceAnalysis n, Analyze an = some an2 →
      an2.bdd_graph_.root = an.bdd_graph_.root ∧
      an2.bdd_graph_.gates = an.bdd_graph_.gates ∧
      an2.bdd_graph_.index_to_order = an.bdd_graph_.index_to_order ∧
      ∀ j, (an2.bdd_graph_.nodes j).prob = (an.bdd_graph_.nodes j).prob ∧
        (an2.bdd_graph_.nodes j).index = (an.bdd_graph_.nodes j).index ∧
        (an2.bdd_graph_.nodes j).order = (an.bdd_graph_.nodes j).order ∧
        (an2.bdd_graph_.nodes j).module = (an.bdd_graph_.nodes j).module ∧
        (an2.bdd_graph_.nodes j).high = (an.bdd_graph_.nodes j).high ∧
        (an2.bdd_graph_.nodes j).low = (an.bdd_graph_.nodes j).low ∧
        (an2.bdd_graph_.nodes j).complement_edge
          = (an.bdd_graph_.nodes j).complement_edge) :=
  ⟨fun _ _ _ _ _ h => (CalculateMif_sameShape h).fields,
    fun an an2 h => (analyzeLoop_sameShape _ an an2 h).fields⟩

/-- Witness of C11: `CalculateMif(1)` and `Analyze` on the diagram of `x1 ∧ x2`. -/
theorem CalculateMif_permanent_fields_witness :
    (∃ mif b2, CalculateMif (fun i => if i = 1 then 1 / 10 else 1 / 5)
        (andBdd (1 / 10) (1 / 5)) 1 = some (mif, b2) ∧
      ∀ j, (b2.nodes j).prob = ((andBdd (1 / 10) (1 / 5)).nodes j).prob) ∧
    ∃ an2, Analyze andAnalysis = some an2 ∧
      ∀ j, (an2.bdd_graph_.nodes j).prob = (andAnalysis.bdd_graph_.nodes j).prob := by
  constructor
  · exact ⟨_, _, andBdd_run_one, fun j =>
      ((CalculateMif_permanent_fields.1 _ _ _ _ _ andBdd_run_one).2.2.2 j).1⟩
  · obtain ⟨an2, h⟩ := Option.isSome_iff_exists.1 andAnalysis_isSome
    exact ⟨an2, h, fun j => ((CalculateMif_permanent_fields.2 andAnalysis an2 h).2.2.2 j).1⟩

/-! ### Memoization: the cached recursion against the uncached one -/

theorem SameShape.retrieve_same {n : Nat} {b b2 : Bdd n} (h : SameShape b b2) (v : Vertex n) :
    RetrieveProbability b2 v = RetrieveProbability b v := by
  cases v with
  | terminal => rfl
  | ite j =>
    show ((b2.nodes j).shape).prob = ((b.nodes j).shape).prob
    exact congrArg Ite.prob (h.2.2.2 j)

/-- Invariant of the memoized recursion against a labeling `F` that satisfies the
equations of the recursion.  If every node below the vertex of the call that already
carries the target mark holds its `F` value as factor, the call returns the `F` value
behind the vertex, and every node that carries the target mark afterwards either carried
it before or lies below the vertex and holds its `F` value. -/
theorem MifRun.memo {n : Nat} {b0 : Bdd n} {p : Int → ℚ} {order : Int}
    {mark : Bool} {F : Fin n → ℚ} (S : MemoSetting b0 p order F)
    {b b2 : Bdd n} {v : Vertex n} {r : ℚ} (hrun : MifRun p order mark b v r b2) :
    SameShape b0 b →
    (∀ u w, v = .ite u → Relation.ReflTransGen b0.step u w → (b.nodes w).mark = mark →
      (b.nodes w).factor = F w) →
    r = vertexFactor F v ∧
    ∀ w, (b2.nodes w).mark = mark →
      (b.nodes w).mark = mark ∨
        ((∃ u, v = .ite u ∧ Relation.ReflTransGen b0.step u w) ∧
          (b2.nodes w).factor = F w) := by
  induction hrun with
  | terminal b =>
    intro _ _
    exact ⟨rfl, fun w hw => Or.inl hw⟩
  | cached b id hm =>
    intro _ hpre
    exact ⟨hpre id id rfl Relation.ReflTransGen.refl hm, fun w hw => Or.inl hw⟩
  | past b id hm ho hmod =>
    intro hs _
    rw [hs.shape_order_eq id] at ho
    rw [hs.shape_module_eq id] at hmod
    have hval : (0 : ℚ) = F id := (S.past id ho hmod).symm
    refine ⟨hval, ?_⟩
    intro w hw
    by_cases hwid : w = id
    · subst hwid
      exact Or.inr ⟨⟨w, rfl, Relation.ReflTransGen.refl⟩, by rw [setFactor_nodes_self]; exact hval⟩
    · rw [setFactor_nodes_ne _ _ _ _ hwid, setMark_nodes_ne _ _ _ _ hwid] at hw
      exact Or.inl hw
  | pastModule b id res mif0 b2 hm ho hmod hres hrec ih =>
    intro hs hpre
    have hs1 : SameShape b0 (b.setMark id mark) :=
      hs.shape_trans (Frame.setMark mark b id).sameShape
    rw [hs.shape_order_eq id] at ho
    rw [hs.shape_module_eq id] at hmod
    rw [hs.shape_index_eq id, hs.2.1] at hres
    have hroot : ∀ u, res.vertex = .ite u → b0.moduleRoot id u :=
      fun u hu => ⟨hmod, res, hres, hu⟩
    have hne : ∀ u w, res.vertex = .ite u → Relation.ReflTransGen b0.step u w → w ≠ id := by
      intro u w hu hreach hwid
      rw [hwid] at hreach
      exact S.acyclic id (Relation.TransGen.head' (Or.inr (hroot u hu)) hreach)
    obtain ⟨hr, hpost⟩ := ih hs1 (by
      intro u w hu hreach hmark
      have hwid := hne u w hu hreach
      rw [setMark_nodes_ne _ _ _ _ hwid] at hmark ⊢
      exact hpre id w rfl (Relation.ReflTransGen.head (Or.inr (hroot u hu)) hreach) hmark)
    have hval : (RetrieveProbability b (b.nodes id).high
            - (if (b.nodes id).complement_edge then 1 - RetrieveProbability b (b.nodes id).low
               else RetrieveProbability b (b.nodes id).low))
          * (if res.complement then -mif0 else mif0) = F id := by
      rw [S.pastModule id res ho hmod hres, hs.retrieve_same, hs.retrieve_same,
        hs.shape_high_eq id, hs.shape_low_eq id, hs.shape_complement_edge_eq id, hr]
    refine ⟨hval, ?_⟩
    intro w hw
    by_cases hwid : w = id
    · subst hwid
      exact Or.inr ⟨⟨w, rfl, Relation.ReflTransGen.refl⟩, by rw [setFactor_nodes_self]; exact hval⟩
    · rw [setFactor_nodes_ne _ _ _ _ hwid] at hw ⊢
      rcases hpost w hw with h | ⟨⟨u, hu, hreach⟩, hfac⟩
      · rw [setMark_nodes_ne _ _ _ _ hwid] at h
        exact Or.inl h
      · exact Or.inr ⟨⟨id, rfl, Relation.ReflTransGen.head (Or.inr (hroot u hu)) hreach⟩, hfac⟩
  | target b id hm ho hmod =>
    intro hs _
    rw [hs.shape_order_eq id] at ho
    rw [hs.shape_module_eq id] at hmod
    have hval : RetrieveProbability b (b.nodes id).high
            - (if (b.nodes id).complement_edge then 1 - RetrieveProbability b (b.nodes id).low
               else RetrieveProbability b (b.nodes id).low) = F id := by
      rw [S.target id ho hmod, hs.retrieve_same, hs.retrieve_same, hs.shape_high_eq id,
        hs.shape_low_eq id, hs.shape_complement_edge_eq id]
    refine ⟨hval, ?_⟩
    intro w hw
    by_cases hwid : w = id
    · subst hwid
      exact Or.inr ⟨⟨w, rfl, Relation.ReflTransGen.refl⟩, by rw [setFactor_nodes_self]; exact hval⟩
    · rw [setFactor_nodes_ne _ _ _ _ hwid, setMark_nodes_ne _ _ _ _ hwid] at hw
      exact Or.inl hw
  | descend b id q high low0 b2 b3 hm ho hq hhigh hlow ih1 ih2 =>
    intro hs hpre
    have hf1 := hhigh.frame
    have hf2 := hlow.frame
    have hs1 : SameShape b0 (b.setMark id mark) :=
      hs.shape_trans (Frame.setMark mark b id).sameShape
    have hs2 : SameShape b0 b2 := hs1.shape_trans hf1.sameShape
    have hs3 : SameShape b0 b3 := hs2.shape_trans hf2.sameShape
    rw [hs.shape_order_eq id] at ho
    have hne : ∀ u w, b0.child id u → Relation.ReflTransGen b0.step u w → w ≠ id := by
      intro u w hu hreach hwid
      rw [hwid] at hreach
      exact S.acyclic id (Relation.TransGen.head' (Or.inl hu) hreach)
    have hchildH : ∀ u, (b.nodes id).high = .ite u → b0.child id u :=
      fun u hu => Or.inl (by rw [← hs.shape_high_eq id]; exact hu)
    have hchildL : ∀ u, (b2.nodes id).low = .ite u → b0.child id u :=
      fun u hu => Or.inr (by rw [← hs2.shape_low_eq id]; exact hu)
    obtain ⟨hr1, hpost1⟩ := ih1 hs1 (by
      intro u w hu hreach hmark
      have hwid := hne u w (hchildH u hu) hreach
      rw [setMark_nodes_ne _ _ _ _ hwid] at hmark ⊢
      exact hpre id w rfl (Relation.ReflTransGen.head (Or.inl (hchildH u hu)) hreach) hmark)
    obtain ⟨hr2, hpost2⟩ := ih2 hs2 (by
      intro u w hu hreach hmark
      have hwid := hne u w (hchildL u hu) hreach
      rcases hpost1 w hmark with h | ⟨_, hfac⟩
      · rw [(hf1.2.2.2 w).2.1 h]
        rw [setMark_nodes_ne _ _ _ _ hwid] at h ⊢
        exact hpre id w rfl (Relation.ReflTransGen.head (Or.inl (hchildL u hu)) hreach) h
      · exact hfac)
    have hq0 : (if (b0.nodes id).module then
            match b0.gates (b0.nodes id).index with
            | none => none
            | some res =>
              some (if res.complement then 1 - RetrieveProbability b0 res.vertex
                else RetrieveProbability b0 res.vertex)
          else some (p (b0.nodes id).index)) = some q := by
      rw [← hq, hs.shape_module_eq id, hs.shape_index_eq id, hs.2.1]
      simp only [hs.retrieve_same]
    have hval : q * high + (1 - q) * (if (b3.nodes id).complement_edge then -low0 else low0)
        = F id := by
      rw [S.descend id q ho hq0, ← hs.shape_high_eq id, ← hs2.shape_low_eq id,
        ← hs3.shape_complement_edge_eq id, ← hr1, ← hr2]
    refine ⟨hval, ?_⟩
    intro w hw
    by_cases hwid : w = id
    · subst hwid
      exact Or.inr ⟨⟨w, rfl, Relation.ReflTransGen.refl⟩, by rw [setFactor_nodes_self]; exact hval⟩
    · rw [setFactor_nodes_ne _ _ _ _ hwid] at hw ⊢
      rcases hpost2 w hw with h | ⟨⟨u, hu, hreach⟩, hfac⟩
      · rcases hpost1 w h with h1 | ⟨⟨u, hu, hreach⟩, hfac⟩
        · rw [setMark_nodes_ne _ _ _ _ hwid] at h1
          exact Or.inl h1
        · refine Or.inr ⟨⟨id, rfl,
            Relation.ReflTransGen.head (Or.inl (hchildH u hu)) hreach⟩, ?_⟩
          rw [(hf2.2.2.2 w).2.1 h]
          exact hfac
      · exact Or.inr ⟨⟨id, rfl,
          Relation.ReflTransGen.head (Or.inl (hchildL u hu)) hreach⟩, hfac⟩

/-! ### The uncached recursion: fuel, totality and local equations -/

theorem CalculateMifPure_succ {n : Nat} (p : Int → ℚ) (order : Int) (b : Bdd n) :
    ∀ (fuel : Nat) (v : Vertex n) (a : ℚ),
      CalculateMifPure p order fuel b v = some a →
      CalculateMifPure p order (fuel + 1) b v = some a := by
  intro fuel
  induction fuel with
  | zero =>
    intro v a h
    cases v with
    | terminal => simpa [CalculateMifPure] using h
    | ite j => simp [CalculateMifPure] at h
  | succ fuel ih =>
    intro v a h
    cases v with
    | terminal => simpa [CalculateMifPure] using h
    | ite j =>
      rw [CalculateMifPure] at h ⊢
      by_cases h1 : (b.nodes j).order > order
      · rw [if_pos h1] at h ⊢
        by_cases hmod : (b.nodes j).module = false
        · rw [if_pos hmod] at h ⊢
          exact h
        · rw [if_neg hmod] at h ⊢
          cases hres : b.gates (b.nodes j).index with
          | none => simp [hres] at h
          | some res =>
            simp only [hres] at h ⊢
            cases hr : CalculateMifPure p order fuel b res.vertex with
            | none => simp [hr] at h
            | some r =>
              rw [ih _ _ hr]
              rw [hr] at h
              exact h
      · rw [if_neg h1] at h ⊢
        by_cases h2 : (b.nodes j).order = order
        · rw [if_pos h2] at h ⊢
          exact h
        · rw [if_neg h2] at h ⊢
          revert h
          generalize (if (b.nodes j).module = true then
            match b.gates (b.nodes j).index with
            | none => none
            | some res =>
              some (if res.complement = true then 1 - RetrieveProbability b res.vertex
                else RetrieveProbability b res.vertex)
            else some (p (b.nodes j).index)) = vp
          intro h
          cases vp with
          | none => simp at h
          | some q =>
            simp only at h ⊢
            cases hh : CalculateMifPure p order fuel b (b.nodes j).high with
            | none => simp [hh] at h
            | some high =>
              cases hl : CalculateMifPure p order fuel b (b.nodes j).low with
              | none => simp [hh, hl] at h
              | some low =>
                rw [ih _ _ hh, ih _ _ hl]
                rw [hh, hl] at h
                exact h

theorem CalculateMifPure_mono {n : Nat} (p : Int → ℚ) (order : Int) (b : Bdd n)
    (v : Vertex n) (a : ℚ) (f1 f2 : Nat) (hle : f1 ≤ f2)
    (h : CalculateMifPure p order f1 b v = some a) :
    CalculateMifPure p order f2 b v = some a := by
  induction hle with
  | refl => exact h
  | step _ ih => exact CalculateMifPure_succ p order b _ v a ih

/-- The uncached recursion returns on every acyclic diagram with complete `gates` table
and no module reference at the target order, as soon as the fuel covers the nodes below
the vertex. -/
theorem CalculateMifPure_total {n : Nat} (p : Int → ℚ) (order : Int) {b : Bdd n}
    (hacyc : Acyclic b) (hg : GatesPresent b) (hno : NoModuleAt b order) :
    ∀ (fuel : Nat) (j : Fin n), {w | Relation.ReflTransGen b.step j w}.ncard ≤ fuel →
      ∃ a, CalculateMifPure p order fuel b (.ite j) = some a := by
  intro fuel
  induction fuel with
  | zero =>
    intro j hj
    have hpos : 0 < {w | Relation.ReflTransGen b.step j w}.ncard :=
      (Set.ncard_pos (Set.toFinite _)).2 ⟨j, Relation.ReflTransGen.refl⟩
    omega
  | succ fuel ih =>
    intro j hj
    have hsub : ∀ c : Vertex n, (∀ w, c = .ite w → b.step j w) →
        ∃ a, CalculateMifPure p order fuel b c = some a := by
      intro c hc
      cases c with
      | terminal => exact ⟨0, by simp [CalculateMifPure]⟩
      | ite w =>
        have := reach_ncard_step hacyc (hc w rfl)
        exact ih w (by omega)
    obtain ⟨high, hh⟩ := hsub (b.nodes j).high (fun w hw => Or.inl (Or.inl hw))
    obtain ⟨low, hl⟩ := hsub (b.nodes j).low (fun w hw => Or.inl (Or.inr hw))
    rw [CalculateMifPure]
    by_cases hmod : (b.nodes j).module = true
    · obtain ⟨res, hres⟩ := Option.isSome_iff_exists.1 (hg j hmod)
      obtain ⟨r, hr⟩ := hsub res.vertex (fun w hw => Or.inr ⟨hmod, res, hres, hw⟩)
      have h2 : ¬ (b.nodes j).order = order := hno j hmod
      by_cases h1 : (b.nodes j).order > order
      · simp only [if_pos h1, hmod, hres, hr]
        exact ⟨_, rfl⟩
      · simp only [if_neg h1, if_neg h2, hmod, if_true, hres, hh, hl]
        exact ⟨_, rfl⟩
    · have hmf : (b.nodes j).module = false := by
        cases hb : (b.nodes j).module
        · rfl
        · exact absurd hb hmod
      by_cases h1 : (b.nodes j).order > order
      · rw [if_pos h1, if_pos hmf]
        exact ⟨_, rfl⟩
      · by_cases h2 : (b.nodes j).order = order
        · rw [if_neg h1, if_pos h2]
          simp [hmf]
        · rw [if_neg h1, if_neg h2]
          simp [hmf, hh, hl]

theorem vertexFactor_pureFactor {n : Nat} (p : Int → ℚ) (order : Int) {b : Bdd n} (fuel : Nat)
    (hle : fuel ≤ n) (v : Vertex n) (a : ℚ) (h : CalculateMifPure p order fuel b v = some a) :
    vertexFactor (pureFactor b p order) v = a := by
  cases v with
  | terminal =>
    simp only [CalculateMifPure, Option.some.injEq] at h
    exact h
  | ite w =>
    show (CalculateMifPure p order n b (.ite w)).getD 0 = a
    rw [CalculateMifPure_mono p order b _ a fuel n hle h]
    rfl

/-- On an acyclic diagram with complete `gates` table and no module reference at the
target order, the factors computed without the cache satisfy the equations of the
recursion at every node. -/
theorem pureFactor_setting {n : Nat} (p : Int → ℚ) (order : Int) {b : Bdd n}
    (hacyc : Acyclic b) (hg : GatesPresent b) (hno : NoModuleAt b order) :
    MemoSetting b p order (pureFactor b p order) := by
  cases n with
  | zero =>
    exact ⟨hacyc, fun u => u.elim0, fun u => u.elim0, fun u => u.elim0, fun u => u.elim0⟩
  | succ m =>
    have hsub : ∀ (j : Fin (m + 1)) (c : Vertex (m + 1)), (∀ w, c = .ite w → b.step j w) →
        CalculateMifPure p order m b c = some (vertexFactor (pureFactor b p order) c) := by
      intro j c hc
      have hex : ∃ a, CalculateMifPure p order m b c = some a := by
        cases c with
        | terminal => exact ⟨0, by simp [CalculateMifPure]⟩
        | ite w =>
          have h1 := reach_ncard_step hacyc (hc w rfl)
          have h2 := reach_ncard_le b j
          exact CalculateMifPure_total p order hacyc hg hno m w (by omega)
      obtain ⟨a, ha⟩ := hex
      rw [ha, vertexFactor_pureFactor p order m (Nat.le_succ m) c a ha]
    have hunf : ∀ u, pureFactor b p order u
        = (CalculateMifPure p order (m + 1) b (.ite u)).getD 0 := fun _ => rfl
    refine ⟨hacyc, ?_, ?_, ?_, ?_⟩
    · intro u ho hmod
      rw [hunf, CalculateMifPure, if_pos ho, if_pos hmod]
      rfl
    · intro u res ho hmod hres
      have hmf : ¬ (b.nodes u).module = false := by rw [hmod]; simp
      rw [hunf, CalculateMifPure, if_pos ho, if_neg hmf]
      simp only [hres, hsub u res.vertex (fun w hw => Or.inr ⟨hmod, res, hres, hw⟩)]
      rfl
    · intro u ho hmod
      have h1 : ¬ (b.nodes u).order > order := by rw [ho]; exact lt_irrefl _
      rw [hunf, CalculateMifPure, if_neg h1, if_pos ho]
      simp [hmod]
    · intro u q ho hq
      have h1 : ¬ (b.nodes u).order > order := not_lt.2 (le_of_lt ho)
      have h2 : ¬ (b.nodes u).order = order := ne_of_lt ho
      rw [hunf, CalculateMifPure, if_neg h1, if_neg h2]
      simp only [hq, hsub u (b.nodes u).high (fun w hw => Or.inl (Or.inl hw)),
        hsub u (b.nodes u).low (fun w hw => Or.inl (Or.inr hw))]
      rfl

theorem SameShape.gatesPresent {n : Nat} {b b2 : Bdd n} (h : SameShape b b2)
    (hg : GatesPresent b) : GatesPresent b2 := by
  intro j hj
  rw [h.shape_module_eq j] at hj
  rw [h.shape_index_eq j, h.2.1]
  exact hg j hj

theorem SameShape.noModuleAt {n : Nat} {b b2 : Bdd n} (h : SameShape b b2) {order : Int}
    (hno : NoModuleAt b order) : NoModuleAt b2 order := by
  intro j hj
  rw [h.shape_module_eq j] at hj
  rw [h.shape_order_eq j]
  exact hno j hj

/-- The public `CalculateMif` returns whenever the variable has an order, every module
reference has its `gates` entry and no module reference carries the order of the
variable. -/
theorem CalculateMif_total {n : Nat} (p : Int → ℚ) (b : Bdd n) (index order : Int)
    (hio : b.index_to_order index = some order) (hg : GatesPresent b)
    (hno : NoModuleAt b order) :
    ∃ mif b2, CalculateMif p b index = some (mif, b2) := by
  unfold CalculateMif
  cases hv : b.root.vertex with
  | terminal => exact ⟨_, _, rfl⟩
  | ite r =>
    simp only [hio]
    have hcard : (Finset.univ.filter fun j => (b.nodes j).mark ≠ (!(b.nodes r).mark)).card
        < n + 1 := by
      have := Finset.card_le_univ (Finset.univ.filter fun j => (b.nodes j).mark ≠ (!(b.nodes r).mark))
      simp only [Fintype.card_fin] at this
      omega
    obtain ⟨mif, b1, h⟩ := CalculateMifRec_total p order (!(b.nodes r).mark) (n + 1) b (.ite r)
      hg hno hcard
    simp only [h]
    exact ⟨_, _, rfl⟩

/-- Memoization is transparent: on a diagram with uniform marks that has the shape of
`b0`, the public `CalculateMif` returns the factor that the uncached recursion computes
behind the root vertex of `b0`, whatever the factor slots hold. -/
theorem CalculateMif_eq_pure {n : Nat} {p : Int → ℚ} {b0 b b2 : Bdd n} {index order : Int}
    {mif : ℚ} (hs : SameShape b0 b) (hu : UniformMarks b) (hacyc : Acyclic b0)
    (hg : GatesPresent b0) (hno : NoModuleAt b0 order)
    (hio : b0.index_to_order index = some order)
    (h : CalculateMif p b index = some (mif, b2)) :
    mif = vertexFactor (pureFactor b0 p order) b0.root.vertex := by
  rcases CalculateMif_some h with ⟨ht, rfl, _⟩ | ⟨r, order2, b1, hr, hio2, hrun, _⟩
  · rw [← hs.1, ht]; rfl
  · rw [hs.2.2.1, hio] at hio2
    cases hio2
    rw [← hs.1, hr]
    refine (MifRun.memo (pureFactor_setting p order hacyc hg hno) hrun hs ?_).1
    intro u w _ _ hmark
    rw [hu w r] at hmark
    cases hb : (b.nodes r).mark <;> rw [hb] at hmark <;> cases hmark

/-! ### Idempotence of `CalculateMif` and of the measures of `Analyze` -/

theorem CalculateMif_uniformMarks {n : Nat} {p : Int → ℚ} {b b2 : Bdd n} {index : Int}
    {mif : ℚ} (hu : UniformMarks b) (h : CalculateMif p b index = some (mif, b2)) :
    UniformMarks b2 := by
  rcases CalculateMif_some h with ⟨_, _, rfl⟩ | ⟨r, order, b1, _, _, _, rfl⟩
  · exact hu
  · intro j k; rfl

/-- On every diagram with uniform marks that has the shape of the well-formed diagram
`b0`, `CalculateMif(index)` returns, and its value is the uncached factor of `b0`. -/
theorem CalculateMif_pureMif {n : Nat} (p : Int → ℚ) {b0 b : Bdd n} {index : Int}
    (hs : SameShape b0 b) (hu : UniformMarks b) (hacyc : Acyclic b0) (hg : GatesPresent b0)
    (ht : TargetReady b0 index) :
    ∃ b2, CalculateMif p b index = some (pureMif b0 p index, b2) := by
  obtain ⟨order, hio, hno⟩ := ht
  have hio2 : b.index_to_order index = some order := by rw [hs.2.2.1]; exact hio
  obtain ⟨mif, b2, h⟩ := CalculateMif_total p b index order hio2 (hs.gatesPresent hg)
    (hs.noModuleAt hno)
  have hm := CalculateMif_eq_pure hs hu hacyc hg hno hio h
  refine ⟨b2, ?_⟩
  rw [h, hm]
  simp only [pureMif, hio]

theorem analyzeLoop_pure {n : Nat} (b0 : Bdd n) (hacyc : Acyclic b0) (hg : GatesPresent b0) :
    ∀ (evs : List (Int × BasicEvent)) (a : ImportanceAnalysis n),
      SameShape b0 a.bdd_graph_ → UniformMarks a.bdd_graph_ →
      (∀ ev ∈ evs, TargetReady b0 ev.1) →
      ∃ a2, analyzeLoop evs a = some a2 ∧ SameShape b0 a2.bdd_graph_ ∧
        UniformMarks a2.bdd_graph_ ∧
        a2.important_events_
          = a.important_events_ ++ pureRecords b0 a.var_probs a.p_total evs
  | [], a, hs, hu, _ => ⟨a, rfl, hs, hu, by simp [pureRecords]⟩
  | e :: rest, a, hs, hu, ht => by
    obtain ⟨b1, hc⟩ := CalculateMif_pureMif a.var_probs hs hu hacyc hg
      (ht e (List.mem_cons_self _ _))
    have h1 : ∃ a1, analyzeEvent a e = some a1 ∧ a1.bdd_graph_ = b1 ∧
        a1.var_probs = a.var_probs ∧ a1.p_total = a.p_total ∧
        a1.important_events_ = a.important_events_
          ++ [(e.2, recordOf e.2.p (pureMif b0 a.var_probs e.1) a.p_total)] := by
      unfold analyzeEvent
      simp only [hc]
      exact ⟨_, rfl, rfl, rfl, rfl, rfl⟩
    obtain ⟨a1, h1, hb1, hv1, hp1, he1⟩ := h1
    obtain ⟨a2, h2, hs2, hu2, hev⟩ := analyzeLoop_pure b0 hacyc hg rest a1
      (by rw [hb1]; exact hs.shape_trans (CalculateMif_sameShape hc))
      (by rw [hb1]; exact CalculateMif_uniformMarks hu hc)
      (fun ev hev => ht ev (List.mem_cons_of_mem _ hev))
    refine ⟨a2, ?_, hs2, hu2, ?_⟩
    · rw [analyzeLoop, h1]
      exact h2
    · rw [hev, he1, hv1, hp1]
      simp [pureRecords]

theorem moduleFree_acyclic {n : Nat} {b : Bdd n} (hfree : ModuleFree b)
    (hE : EdgesIncrease b) : Acyclic b :=
  fun u => step_acyclic hE
    (fun u _ ⟨g, hg, _⟩ => absurd hg (moduleFree_not_moduleRoot hfree u g)) u

theorem moduleFree_gatesPresent {n : Nat} {b : Bdd n} (hfree : ModuleFree b) :
    GatesPresent b :=
  fun j hj => by rw [hfree j] at hj; cases hj

theorem moduleFree_noModuleAt {n : Nat} {b : Bdd n} (hfree : ModuleFree b) (order : Int) :
    NoModuleAt b order :=
  fun j hj => by rw [hfree j] at hj; cases hj

/-- Two runs of `Analyze` in a row on a well-formed diagram with uniform marks: both
return, each appends the records with the uncached factors of the diagram, and the second
leaves the map as the first left it. -/
theorem Analyze_twice {n : Nat} (an : ImportanceAnalysis n)
    (hu : UniformMarks an.bdd_graph_) (hacyc : Acyclic an.bdd_graph_)
    (hg : GatesPresent an.bdd_graph_)
    (ht : ∀ ev ∈ GatherImportantEvents an.graph an.cut_sets, TargetReady an.bdd_graph_ ev.1) :
    ∃ an2 an3, Analyze an = some an2 ∧ Analyze an2 = some an3 ∧
      an2.important_events_ = an.important_events_
        ++ pureRecords an.bdd_graph_ an.var_probs an.p_total
            (GatherImportantEvents an.graph an.cut_sets) ∧
      an3.important_events_ = an2.important_events_
        ++ pureRecords an.bdd_graph_ an.var_probs an.p_total
            (GatherImportantEvents an.graph an.cut_sets) ∧
      an3.importance_ = an2.importance_ := by
  obtain ⟨an2, h2, hs2, hu2, hev2⟩ := analyzeLoop_pure an.bdd_graph_ hacyc hg
    (GatherImportantEvents an.graph an.cut_sets) an (SameShape.shape_refl _) hu ht
  obtain ⟨hp, hv, hgr, hcs, recs2, hr2, -, hmap2, -⟩ := analyzeLoop_spec _ an an2 h2
  obtain ⟨an3, h3, -, -, hev3⟩ := analyzeLoop_pure an.bdd_graph_ hacyc hg
    (GatherImportantEvents an.graph an.cut_sets) an2 hs2 hu2 ht
  obtain ⟨-, -, -, -, recs3, hr3, -, hmap3, -⟩ := analyzeLoop_spec _ an2 an3 h3
  have e3 : an3.important_events_ = an2.important_events_
      ++ pureRecords an.bdd_graph_ an.var_probs an.p_total
          (GatherImportantEvents an.graph an.cut_sets) := by rw [hev3, hp, hv]
  have hrecs2 : recs2 = pureRecords an.bdd_graph_ an.var_probs an.p_total
      (GatherImportantEvents an.graph an.cut_sets) :=
    List.append_cancel_left (hr2.symm.trans hev2)
  have hrecs3 : recs3 = pureRecords an.bdd_graph_ an.var_probs an.p_total
      (GatherImportantEvents an.graph an.cut_sets) :=
    List.append_cancel_left (hr3.symm.trans e3)
  refine ⟨an2, an3, h2, ?_, hev2, e3, ?_⟩
  · rw [Analyze, hgr, hcs]
    exact h3
  · funext key
    rw [hmap3 key, hmap2 key, hrecs3, hrecs2]
    cases an.importance_ key with
    | some old => rfl
    | none =>
      cases firstRecord (pureRecords an.bdd_graph_ an.var_probs an.p_total
        (GatherImportantEvents an.graph an.cut_sets)) key <;> rfl

/-- C12: on a well-formed diagram (acyclic, every module reference with its `gates`
entry, the variable with an order that no module reference carries) with uniform marks,
`CalculateMif(index)` returns, the call that follows it on the state it leaves returns
the same value, and so does the call on every state with uniform marks that differs from
the diagram only in mark and factor slots; two runs of `Analyze` in a row both return and
the second appends the same records, in the same order, as the first. -/
theorem CalculateMif_idempotent {n : Nat} :
    (∀ (p : Int → ℚ) (b : Bdd n) (index : Int), UniformMarks b → Acyclic b →
      GatesPresent b → TargetReady b index →
      ∃ mif b2 b3, CalculateMif p b index = some (mif, b2) ∧
        CalculateMif p b2 index = some (mif, b3) ∧
        ∀ b4, SameShape b b4 → UniformMarks b4 →
          ∃ b5, CalculateMif p b4 index = some (mif, b5)) ∧
    (∀ an : ImportanceAnalysis n, UniformMarks an.bdd_graph_ → Acyclic an.bdd_graph_ →
      GatesPresent an.bdd_graph_ →
      (∀ ev ∈ GatherImportantEvents an.graph an.cut_sets, TargetReady an.bdd_graph_ ev.1) →
      ∃ an2 an3 recs, Analyze an = some an2 ∧ Analyze an2 = some an3 ∧
        recs.length = (GatherImportantEvents an.graph an.cut_sets).length ∧
        an2.important_events_ = an.important_events_ ++ recs ∧
        an3.important_events_ = an2.important_events_ ++ recs) := by
  constructor
  · intro p b index hu hacyc hg ht
    obtain ⟨b2, h2⟩ := CalculateMif_pureMif p (SameShape.shape_refl b) hu hacyc hg ht
    obtain ⟨b3, h3⟩ := CalculateMif_pureMif p (CalculateMif_sameShape h2)
      (CalculateMif_uniformMarks hu h2) hacyc hg ht
    exact ⟨_, b2, b3, h2, h3, fun b4 hs4 hu4 => CalculateMif_pureMif p hs4 hu4 hacyc hg ht⟩
  · intro an hu hacyc hg ht
    obtain ⟨an2, an3, h2, h3, e2, e3, -⟩ := Analyze_twice an hu hacyc hg ht
    exact ⟨an2, an3, _, h2, h3, by simp [pureRecords], e2, e3⟩

theorem andAnalysis_targetReady :
    ∀ ev ∈ GatherImportantEvents andAnalysis.graph andAnalysis.cut_sets,
      TargetReady andAnalysis.bdd_graph_ ev.1 := by
  intro ev hev
  rw [andAnalysis_gather] at hev
  simp only [List.mem_cons, List.mem_singleton, List.not_mem_nil, or_false] at hev
  rcases hev with rfl | rfl
  · exact ⟨1, by simp [andAnalysis, andBdd], moduleFree_noModuleAt (andBdd_moduleFree _ _) _⟩
  · exact ⟨2, by simp [andAnalysis, andBdd], moduleFree_noModuleAt (andBdd_moduleFree _ _) _⟩

/-- Witness of C12 on the diagram of `x1 ∧ x2` and its analyzer. -/
theorem CalculateMif_idempotent_witness :
    (∃ mif b2 b3, CalculateMif (fun i => if i = 1 then 1 / 10 else 1 / 5)
        (andBdd (1 / 10) (1 / 5)) 1 = some (mif, b2) ∧
      CalculateMif (fun i => if i = 1 then 1 / 10 else 1 / 5) b2 1 = some (mif, b3)) ∧
    (∃ an2 an3 recs, Analyze andAnalysis = some an2 ∧ Analyze an2 = some an3 ∧
      recs.length = 2 ∧
      an2.important_events_ = recs ∧ an3.important_events_ = recs ++ recs) := by
  constructor
  · obtain ⟨mif, b2, b3, h2, h3, -⟩ := CalculateMif_idempotent.1
      (fun i => if i = 1 then 1 / 10 else 1 / 5) (andBdd (1 / 10) (1 / 5)) 1
      (andBdd_uniformMarks _ _)
      (moduleFree_acyclic (andBdd_moduleFree _ _) (andBdd_edgesIncrease _ _))
      (moduleFree_gatesPresent (andBdd_moduleFree _ _))
      ⟨1, by simp [andBdd], moduleFree_noModuleAt (andBdd_moduleFree _ _) _⟩
    exact ⟨mif, b2, b3, h2, h3⟩
  · obtain ⟨an2, an3, recs, h2, h3, hl, e2, e3⟩ := CalculateMif_idempotent.2 andAnalysis
      (andBdd_uniformMarks _ _)
      (moduleFree_acyclic (andBdd_moduleFree _ _) (andBdd_edgesIncrease _ _))
      (moduleFree_gatesPresent (andBdd_moduleFree _ _)) andAnalysis_targetReady
    rw [andAnalysis_gather] at hl
    have e2b : an2.important_events_ = recs := by rw [e2]; simp [andAnalysis]
    exact ⟨an2, an3, recs, h2, h3, hl, e2b, by rw [e3, e2b]⟩

/-- C13, counterexample: on the analyzer of `x1 ∧ x2` with empty containers the first
`Analyze` leaves two records in the list of important events and the second leaves four:
the list after the second call is not the list after the first. -/
theorem Analyze_twice_list_grows :
    ∃ an2 an3, Analyze andAnalysis = some an2 ∧ Analyze an2 = some an3 ∧
      an2.important_events_.length = 2 ∧ an3.important_events_.length = 4 ∧
      an3.important_events_ ≠ an2.important_events_ := by
  obtain ⟨an2, an3, h2, h3, e2, e3, -⟩ := Analyze_twice andAnalysis
    (andBdd_uniformMarks _ _)
    (moduleFree_acyclic (andBdd_moduleFree _ _) (andBdd_edgesIncrease _ _))
    (moduleFree_gatesPresent (andBdd_moduleFree _ _)) andAnalysis_targetReady
  have l2 : an2.important_events_.length = 2 := by
    rw [e2, andAnalysis_gather]; simp [pureRecords, andAnalysis]
  have l3 : an3.important_events_.length = 4 := by
    rw [e3, List.length_append, l2, andAnalysis_gather]; simp [pureRecords]
  refine ⟨an2, an3, h2, h3, l2, l3, ?_⟩
  intro h
  rw [h, l2] at l3
  cases l3

/-- C13, amended: on a well-formed diagram with uniform marks, a second `Analyze` on the
same analyzer returns and leaves the keyed importance map identical to the map after the
first call, while the list of important events is the list after the first call followed
by the records of the first call once more, in the same order: its length grows by the
number of target events. -/
theorem Analyze_second_run {n : Nat} (an : ImportanceAnalysis n)
    (hu : UniformMarks an.bdd_graph_) (hacyc : Acyclic an.bdd_graph_)
    (hg : GatesPresent an.bdd_graph_)
    (ht : ∀ ev ∈ GatherImportantEvents an.graph an.cut_sets, TargetReady an.bdd_graph_ ev.1) :
    ∃ an2 an3 recs, Analyze an = some an2 ∧ Analyze an2 = some an3 ∧
      an3.importance_ = an2.importance_ ∧
      an2.important_events_ = an.important_events_ ++ recs ∧
      an3.important_events_ = an.important_events_ ++ recs ++ recs ∧
      recs.length = (GatherImportantEvents an.graph an.cut_sets).length ∧
      an3.important_events_.length
        = an2.important_events_.length
          + (GatherImportantEvents an.graph an.cut_sets).length := by
  obtain ⟨an2, an3, h2, h3, e2, e3, hmap⟩ := Analyze_twice an hu hacyc hg ht
  refine ⟨an2, an3, _, h2, h3, hmap, e2, by rw [e3, e2], by simp [pureRecords], ?_⟩
  rw [e3, List.length_append]
  simp [pureRecords]

/-- Witness of the amended C13 on the analyzer of `x1 ∧ x2`. -/
theorem Analyze_second_run_witness :
    ∃ an2 an3 recs, Analyze andAnalysis = some an2 ∧ Analyze an2 = some an3 ∧
      an3.importance_ = an2.importance_ ∧
      an2.important_events_ = recs ∧ an3.important_events_ = recs ++ recs ∧
      recs.length = 2 := by
  obtain ⟨an2, an3, recs, h2, h3, hmap, e2, e3, hl, -⟩ := Analyze_second_run andAnalysis
    (andBdd_uniformMarks _ _)
    (moduleFree_acyclic (andBdd_moduleFree _ _) (andBdd_edgesIncrease _ _))
    (moduleFree_gatesPresent (andBdd_moduleFree _ _)) andAnalysis_targetReady
  rw [andAnalysis_gather] at hl
  have e0 : andAnalysis.important_events_ = [] := rfl
  rw [e0, List.nil_append] at e2 e3
  exact ⟨an2, an3, recs, h2, h3, hmap, e2, e3, hl⟩

/-! ### The branches of the recursive `CalculateMif` -/

/-- C24: on a decision node whose mark equals the target mark the recursive
`CalculateMif` returns the stored factor of the node and leaves the diagram as it is,
whatever the order and the module flag of the node; on the terminal it returns `0` and
leaves the diagram as it is. -/
theorem CalculateMifRec_cached {n : Nat} (p : Int → ℚ) (order : Int) (mark : Bool)
    (fuel : Nat) (b : Bdd n) :
    (∀ id, (b.nodes id).mark = mark →
      CalculateMifRec p order mark (fuel + 1) b (.ite id) = some ((b.nodes id).factor, b)) ∧
    CalculateMifRec p order mark fuel b .terminal = some (0, b) := by
  constructor
  · intro id hm
    rw [CalculateMifRec, if_pos hm]
  · cases fuel <;> rfl

/-- Witness of C24: in the diagram of `x1 ∧ x2` with node `1` marked `true`, the call on
node `1` with target mark `true` returns its factor and the same diagram. -/
theorem CalculateMifRec_cached_witness :
    (staleAndBdd.nodes 1).mark = true ∧
    CalculateMifRec (fun _ => 1 / 2) 1 true 1 staleAndBdd (.ite 1)
      = some ((staleAndBdd.nodes 1).factor, staleAndBdd) :=
  ⟨by simp [staleAndBdd, Bdd.setMark],
    (CalculateMifRec_cached (fun _ => 1 / 2) 1 true 0 staleAndBdd).1 1
      (by simp [staleAndBdd, Bdd.setMark])⟩

/-- C21, counterexample: node `0` of the diagram `top = M`, a module reference of order
`1` with mark `false`, met with target order `1` and target mark `true`: the assertion
of the branch fails and the call has no result, whatever the fuel. -/
theorem CalculateMifRec_target_module :
    ((moduleBdd 1 2 (1 / 2)).nodes 0).mark ≠ true ∧
    ((moduleBdd 1 2 (1 / 2)).nodes 0).order = 1 ∧
    ∀ fuel, CalculateMifRec (fun _ => 1 / 2) 1 true fuel (moduleBdd 1 2 (1 / 2)) (.ite 0)
      = none := by
  refine ⟨by simp [moduleBdd], by simp [moduleBdd], ?_⟩
  intro fuel
  cases fuel with
  | zero => rfl
  | succ k => simp [CalculateMifRec, moduleBdd, Bdd.setMark]

/-- C21, amended: on a decision node that is not a module reference, whose mark differs
from the target mark and whose order is the target order, the recursive `CalculateMif`
returns `H - L` with any positive fuel, where `H` is the cached probability behind the
high edge and `L` the one behind the low edge, replaced by `1 - L` for a complemented low
edge; the diagram after the call differs from the one before only at the node, which
carries the target mark and `H - L` as factor; `RetrieveProbability` is `1` for the
terminal and the cached probability for a decision node. -/
theorem CalculateMifRec_target {n : Nat} (p : Int → ℚ) (order : Int) (mark : Bool)
    (fuel : Nat) (b : Bdd n) (id : Fin n) (hm : (b.nodes id).mark ≠ mark)
    (ho : (b.nodes id).order = order) (hmod : (b.nodes id).module = false) :
    ∃ b2, CalculateMifRec p order mark (fuel + 1) b (.ite id)
        = some (RetrieveProbability b (b.nodes id).high
            - (if (b.nodes id).complement_edge then 1 - RetrieveProbability b (b.nodes id).low
               else RetrieveProbability b (b.nodes id).low), b2) ∧
      (b2.nodes id).mark = mark ∧
      (b2.nodes id).factor = RetrieveProbability b (b.nodes id).high
            - (if (b.nodes id).complement_edge then 1 - RetrieveProbability b (b.nodes id).low
               else RetrieveProbability b (b.nodes id).low) ∧
      (b2.nodes id).shape = (b.nodes id).shape ∧
      (∀ j, j ≠ id → b2.nodes j = b.nodes j) ∧
      b2.root = b.root ∧ b2.gates = b.gates ∧ b2.index_to_order = b.index_to_order ∧
      RetrieveProbability b .terminal = 1 ∧
      ∀ j, RetrieveProbability b (.ite j) = (b.nodes j).prob := by
  have h1 : ¬ (b.nodes id).order > order := by rw [ho]; exact lt_irrefl _
  refine ⟨(b.setMark id mark).setFactor id (RetrieveProbability b (b.nodes id).high
            - (if (b.nodes id).complement_edge then 1 - RetrieveProbability b (b.nodes id).low
               else RetrieveProbability b (b.nodes id).low)), ?_, ?_, ?_, ?_, ?_, rfl, rfl, rfl,
    rfl, fun _ => rfl⟩
  · rw [CalculateMifRec, if_neg hm]
    simp only [setMark_nodes_self, setFactor_nodes_self, retrieve_setMark, if_neg h1, if_pos ho,
      hmod]
    rfl
  · simp [setFactor_nodes_self, setMark_nodes_self]
  · simp [setFactor_nodes_self]
  · simp [setFactor_nodes_self, setMark_nodes_self, Ite.shape]
  · intro j hj
    rw [setFactor_nodes_ne _ _ _ _ hj, setMark_nodes_ne _ _ _ _ hj]

/-- Witness of the amended C21: node `1` of the diagram of `x1 ∧ x2` tests variable 2;
with target order `2` the call returns `1 - (1 - 1) = 1`. -/
theorem CalculateMifRec_target_witness :
    ∃ b2, CalculateMifRec (fun _ => 1 / 2) 2 true 1 (andBdd (1 / 10) (1 / 5)) (.ite 1)
        = some (1, b2) ∧ (b2.nodes 1).mark = true ∧ (b2.nodes 1).factor = 1 ∧
      b2.nodes 0 = (andBdd (1 / 10) (1 / 5)).nodes 0 := by
  obtain ⟨b2, h, hmark, hfac, -, hj, -⟩ := CalculateMifRec_target (fun _ => 1 / 2) 2 true 0
    (andBdd (1 / 10) (1 / 5)) 1 (by simp [andBdd]) (by simp [andBdd]) (by simp [andBdd])
  have hv : RetrieveProbability (andBdd (1 / 10) (1 / 5)) ((andBdd (1 / 10) (1 / 5)).nodes 1).high
      - (if ((andBdd (1 / 10) (1 / 5)).nodes 1).complement_edge
          then 1 - RetrieveProbability (andBdd (1 / 10) (1 / 5))
            ((andBdd (1 / 10) (1 / 5)).nodes 1).low
          else RetrieveProbability (andBdd (1 / 10) (1 / 5))
            ((andBdd (1 / 10) (1 / 5)).nodes 1).low) = 1 := by
    simp [andBdd, RetrieveProbability]
  rw [hv] at h hfac
  exact ⟨b2, h, hmark, hfac, hj 0 (by decide)⟩
theorem stale_card_le_arena {n : Nat} (b : Bdd n) (mark : Bool) :
    (Finset.univ.filter fun j => (b.nodes j).mark ≠ mark).card ≤ n := by
  have h := Finset.card_le_univ (Finset.univ.filter fun j => (b.nodes j).mark ≠ mark)
  simpa using h

/-- C23: on a decision node whose mark differs from the target mark and whose order is
greater than the target order, the recursive `CalculateMif` (with any positive fuel)
marks the node and, for a plain node, stores and returns `0` and touches no other node;
for a module reference whose root is found in `gates` under the index of the node, it
stores and returns `(H - L) * s * m`, where `m` is the result of the call on the root of
the module with the same target order and mark, `s = -1` for a complemented module
function and `1` otherwise, and `H`, `L` are the cached probabilities behind the high
edge and the (complement-adjusted) low edge.  With every module entry in `gates` and no
module reference at the target order, the call on the module root returns. -/
theorem CalculateMifRec_past {n : Nat} (p : Int → ℚ) (order : Int) (mark : Bool) (b : Bdd n)
    (id : Fin n) (hm : (b.nodes id).mark ≠ mark) (ho : order < (b.nodes id).order) :
    ((b.nodes id).module = false → ∀ fuel, ∃ b2,
      CalculateMifRec p order mark (fuel + 1) b (.ite id) = some (0, b2) ∧
      (b2.nodes id).mark = mark ∧ (b2.nodes id).factor = 0 ∧
      ∀ j, j ≠ id → b2.nodes j = b.nodes j) ∧
    (∀ fuel res m b2, (b.nodes id).module = true → b.gates (b.nodes id).index = some res →
      CalculateMifRec p order mark fuel (b.setMark id mark) res.vertex = some (m, b2) →
      ∃ b3, CalculateMifRec p order mark (fuel + 1) b (.ite id)
          = some ((RetrieveProbability b (b.nodes id).high
              - (if (b.nodes id).complement_edge
                  then 1 - RetrieveProbability b (b.nodes id).low
                  else RetrieveProbability b (b.nodes id).low))
            * (if res.complement then -1 else 1) * m, b3) ∧
        (b3.nodes id).mark = mark ∧
        (b3.nodes id).factor = (RetrieveProbability b (b.nodes id).high
              - (if (b.nodes id).complement_edge
                  then 1 - RetrieveProbability b (b.nodes id).low
                  else RetrieveProbability b (b.nodes id).low))
            * (if res.complement then -1 else 1) * m) ∧
    ((b.nodes id).module = true → GatesPresent b → NoModuleAt b order →
      ∃ res m b2 r b3, b.gates (b.nodes id).index = some res ∧
        CalculateMifRec p order mark n (b.setMark id mark) res.vertex = some (m, b2) ∧
        CalculateMifRec p order mark (n + 1) b (.ite id) = some (r, b3)) := by
  have hgt : (b.nodes id).order > order := ho
  have key : ∀ fuel res m b2, (b.nodes id).module = true →
      b.gates (b.nodes id).index = some res →
      CalculateMifRec p order mark fuel (b.setMark id mark) res.vertex = some (m, b2) →
      ∃ b3, CalculateMifRec p order mark (fuel + 1) b (.ite id)
          = some ((RetrieveProbability b (b.nodes id).high
              - (if (b.nodes id).complement_edge
                  then 1 - RetrieveProbability b (b.nodes id).low
                  else RetrieveProbability b (b.nodes id).low))
            * (if res.complement then -1 else 1) * m, b3) ∧
        (b3.nodes id).mark = mark ∧
        (b3.nodes id).factor = (RetrieveProbability b (b.nodes id).high
              - (if (b.nodes id).complement_edge
                  then 1 - RetrieveProbability b (b.nodes id).low
                  else RetrieveProbability b (b.nodes id).low))
            * (if res.complement then -1 else 1) * m := by
    intro fuel res m b2 hmod hres hrec
    have hrun : MifRun p order mark b (.ite id) _ _ :=
      MifRun.pastModule b id res m b2 hm ho hmod hres
        (CalculateMifRec_run p order mark fuel _ _ _ _ hrec)
    have hval : (RetrieveProbability b (b.nodes id).high
            - (if (b.nodes id).complement_edge then 1 - RetrieveProbability b (b.nodes id).low
               else RetrieveProbability b (b.nodes id).low))
          * (if res.complement then -m else m)
        = (RetrieveProbability b (b.nodes id).high
              - (if (b.nodes id).complement_edge
                  then 1 - RetrieveProbability b (b.nodes id).low
                  else RetrieveProbability b (b.nodes id).low))
            * (if res.complement then -1 else 1) * m := by
      cases res.complement
      · simp
      · simp only [if_true]; ring
    refine ⟨_, ?_, hrun.result.1, hrun.result.2.trans hval⟩
    rw [CalculateMifRec, if_neg hm]
    simp only [setMark_nodes_self, setFactor_nodes_self, retrieve_setMark, setMark_gates,
      if_pos hgt, hmod, hres, hrec, ← hval]
    rfl
  refine ⟨?_, key, ?_⟩
  · intro hmod fuel
    refine ⟨(b.setMark id mark).setFactor id 0, ?_, ?_, ?_, ?_⟩
    · rw [CalculateMifRec, if_neg hm]
      simp only [setMark_nodes_self, setFactor_nodes_self, if_pos hgt, hmod]
      rfl
    · simp [setFactor_nodes_self, setMark_nodes_self]
    · simp [setFactor_nodes_self]
    · intro j hj
      rw [setFactor_nodes_ne _ _ _ _ hj, setMark_nodes_ne _ _ _ _ hj]
  · intro hmod hg hno
    obtain ⟨res, hres⟩ := Option.isSome_iff_exists.1 (hg id hmod)
    have hf := Frame.setMark mark b id
    have hc : (Finset.univ.filter fun j => ((b.setMark id mark).nodes j).mark ≠ mark).card
        < n := lt_of_lt_of_le (stale_card_setMark mark b id hm) (stale_card_le_arena b mark)
    obtain ⟨m, b2, hrec⟩ := CalculateMifRec_total p order mark n (b.setMark id mark) res.vertex
      (fun j hj => by
        rw [hf.frame_module_eq j] at hj
        rw [hf.frame_index_eq j]
        exact hg j hj)
      (fun j hj => by
        rw [hf.frame_module_eq j] at hj
        rw [hf.frame_order_eq j]
        exact hno j hj) hc
    obtain ⟨b3, h3, -⟩ := key n res m b2 hmod hres hrec
    exact ⟨res, m, b2, _, b3, hres, hrec, h3⟩

/-- Witness of C23: in the diagram `x1 ∧ M` with `M = x2`, the module reference (node
`1`, order `3`) met with target order `2` returns `(1 - 0) * 1 * 1 = 1`, where the last
factor is the result of the call on the root of the module. -/
theorem CalculateMifRec_past_witness :
    ∃ b3, CalculateMifRec (fun i => if i = 1 then 1 / 10 else 1 / 5) 2 true 2
        (outerModuleBdd (1 / 10) (1 / 5)) (.ite 1) = some (1, b3) ∧
      (b3.nodes 1).mark = true ∧ (b3.nodes 1).factor = 1 := by
  have hrec : CalculateMifRec (fun i => if i = 1 then 1 / 10 else 1 / 5) 2 true 1
      ((outerModuleBdd (1 / 10) (1 / 5)).setMark 1 true) (.ite 2)
      = some (1, (((outerModuleBdd (1 / 10) (1 / 5)).setMark 1 true).setMark 2 true).setFactor
          2 1) := by
    simp [CalculateMifRec, outerModuleBdd, Bdd.setMark, Bdd.setFactor, RetrieveProbability]
  obtain ⟨b3, h, hmark, hfac⟩ := (CalculateMifRec_past (fun i => if i = 1 then 1 / 10 else 1 / 5)
    2 true (outerModuleBdd (1 / 10) (1 / 5)) 1 (by simp [outerModuleBdd])
    (by simp [outerModuleBdd])).2.1 1 { vertex := .ite 2, complement := false } 1 _
    (by simp [outerModuleBdd]) (by simp [outerModuleBdd]) hrec
  have hv : (RetrieveProbability (outerModuleBdd (1 / 10) (1 / 5))
        ((outerModuleBdd (1 / 10) (1 / 5)).nodes 1).high
      - (if ((outerModuleBdd (1 / 10) (1 / 5)).nodes 1).complement_edge
          then 1 - RetrieveProbability (outerModuleBdd (1 / 10) (1 / 5))
            ((outerModuleBdd (1 / 10) (1 / 5)).nodes 1).low
          else RetrieveProbability (outerModuleBdd (1 / 10) (1 / 5))
            ((outerModuleBdd (1 / 10) (1 / 5)).nodes 1).low))
      * (if ({ vertex := .ite 2, complement := false } : Bdd.Function 3).complement
          then -1 else 1) * 1 = (1 : ℚ) := by
    simp [outerModuleBdd, RetrieveProbability]
  rw [hv] at h hfac
  exact ⟨b3, h, hmark, hfac⟩
/-- C22: on a decision node whose mark differs from the target mark and whose order is
smaller than the target order, the recursive `CalculateMif` (with any positive fuel)
stores and returns `q * h + (1 - q) * s * l`, where `h` and `l` are the results of the
calls on the high edge and then on the low edge, `s = -1` for a complemented low edge and
`1` otherwise, and `q` is `var_probs[index]` for a plain node and, for a module reference,
the cached probability behind the root of the module (`1` for the terminal), replaced by
`1 - q` for a complemented module function.  With every module entry in `gates` and no
module reference at the target order, both calls return. -/
theorem CalculateMifRec_descend {n : Nat} (p : Int → ℚ) (order : Int) (mark : Bool)
    (b : Bdd n) (id : Fin n) (hm : (b.nodes id).mark ≠ mark)
    (ho : (b.nodes id).order < order) :
    (∀ fuel q h l b2 b3,
      (((b.nodes id).module = false ∧ q = p (b.nodes id).index) ∨
        ∃ res, (b.nodes id).module = true ∧ b.gates (b.nodes id).index = some res ∧
          q = if res.complement then 1 - RetrieveProbability b res.vertex
              else RetrieveProbability b res.vertex) →
      CalculateMifRec p order mark fuel (b.setMark id mark) (b.nodes id).high = some (h, b2) →
      CalculateMifRec p order mark fuel b2 (b.nodes id).low = some (l, b3) →
      ∃ b4, CalculateMifRec p order mark (fuel + 1) b (.ite id)
          = some (q * h + (1 - q) * (if (b.nodes id).complement_edge then -1 else 1) * l, b4) ∧
        (b4.nodes id).mark = mark ∧
        (b4.nodes id).factor
          = q * h + (1 - q) * (if (b.nodes id).complement_edge then -1 else 1) * l) ∧
    (GatesPresent b → NoModuleAt b order →
      ∃ q h l b2 b3 r b4,
        (((b.nodes id).module = false ∧ q = p (b.nodes id).index) ∨
          ∃ res, (b.nodes id).module = true ∧ b.gates (b.nodes id).index = some res ∧
            q = if res.complement then 1 - RetrieveProbability b res.vertex
                else RetrieveProbability b res.vertex) ∧
        CalculateMifRec p order mark n (b.setMark id mark) (b.nodes id).high = some (h, b2) ∧
        CalculateMifRec p order mark n b2 (b.nodes id).low = some (l, b3) ∧
        CalculateMifRec p order mark (n + 1) b (.ite id) = some (r, b4)) := by
  have h1 : ¬ (b.nodes id).order > order := not_lt.2 (le_of_lt ho)
  have h2 : ¬ (b.nodes id).order = order := ne_of_lt ho
  have key : ∀ fuel q h l b2 b3,
      (((b.nodes id).module = false ∧ q = p (b.nodes id).index) ∨
        ∃ res, (b.nodes id).module = true ∧ b.gates (b.nodes id).index = some res ∧
          q = if res.complement then 1 - RetrieveProbability b res.vertex
              else RetrieveProbability b res.vertex) →
      CalculateMifRec p order mark fuel (b.setMark id mark) (b.nodes id).high = some (h, b2) →
      CalculateMifRec p order mark fuel b2 (b.nodes id).low = some (l, b3) →
      ∃ b4, CalculateMifRec p order mark (fuel + 1) b (.ite id)
          = some (q * h + (1 - q) * (if (b.nodes id).complement_edge then -1 else 1) * l, b4) ∧
        (b4.nodes id).mark = mark ∧
        (b4.nodes id).factor
          = q * h + (1 - q) * (if (b.nodes id).complement_edge then -1 else 1) * l := by
    intro fuel q h l b2 b3 hq hhigh hlow
    have hrunH := CalculateMifRec_run p order mark fuel _ _ _ _ hhigh
    have hf1 := (Frame.setMark mark b id).frame_trans hrunH.frame
    have hlow2 : CalculateMifRec p order mark fuel b2 (b2.nodes id).low = some (l, b3) := by
      rw [hf1.frame_low_eq id]; exact hlow
    have hrunL := CalculateMifRec_run p order mark fuel _ _ _ _ hlow2
    have hf2 := hf1.frame_trans hrunL.frame
    have hq2 : (if (b.nodes id).module then
              match b.gates (b.nodes id).index with
              | none => none
              | some res =>
                some (if res.complement then 1 - RetrieveProbability b res.vertex
                  else RetrieveProbability b res.vertex)
            else some (p (b.nodes id).index)) = some q := by
      rcases hq with ⟨hmod, rfl⟩ | ⟨res, hmod, hres, rfl⟩
      · simp [hmod]
      · simp [hmod, hres]
    have hrun : MifRun p order mark b (.ite id) _ _ :=
      MifRun.descend b id q h l b2 b3 hm ho hq2 hrunH hrunL
    have hval : q * h + (1 - q) * (if (b3.nodes id).complement_edge then -l else l)
        = q * h + (1 - q) * (if (b.nodes id).complement_edge then -1 else 1) * l := by
      rw [hf2.frame_complement_edge_eq id]
      cases (b.nodes id).complement_edge
      · simp
      · simp only [if_true]; ring
    refine ⟨_, ?_, hrun.result.1, hrun.result.2.trans hval⟩
    rw [CalculateMifRec, if_neg hm]
    simp only [setMark_nodes_self, setFactor_nodes_self, retrieve_setMark, setMark_gates,
      if_neg h1, if_neg h2, hq2, hhigh, hlow2, ← hval]
  refine ⟨key, ?_⟩
  intro hg hno
  have hq : ∃ q, (((b.nodes id).module = false ∧ q = p (b.nodes id).index) ∨
        ∃ res, (b.nodes id).module = true ∧ b.gates (b.nodes id).index = some res ∧
          q = if res.complement then 1 - RetrieveProbability b res.vertex
              else RetrieveProbability b res.vertex) := by
    cases hmod : (b.nodes id).module with
    | false => exact ⟨_, Or.inl ⟨rfl, rfl⟩⟩
    | true =>
      obtain ⟨res, hres⟩ := Option.isSome_iff_exists.1 (hg id hmod)
      exact ⟨_, Or.inr ⟨res, rfl, hres, rfl⟩⟩
  obtain ⟨q, hq⟩ := hq
  have hf := Frame.setMark mark b id
  have hc : (Finset.univ.filter fun j => ((b.setMark id mark).nodes j).mark ≠ mark).card
      < n := lt_of_lt_of_le (stale_card_setMark mark b id hm) (stale_card_le_arena b mark)
  have hgF : ∀ b2 : Bdd n, Frame mark b b2 →
      ∀ j, (b2.nodes j).module = true → (b2.gates (b2.nodes j).index).isSome = true := by
    intro b2 hf2 j hj
    rw [hf2.frame_module_eq j] at hj
    rw [hf2.frame_index_eq j, hf2.2.1]
    exact hg j hj
  have hnF : ∀ b2 : Bdd n, Frame mark b b2 →
      ∀ j, (b2.nodes j).module = true → (b2.nodes j).order ≠ order := by
    intro b2 hf2 j hj
    rw [hf2.frame_module_eq j] at hj
    rw [hf2.frame_order_eq j]
    exact hno j hj
  obtain ⟨h, b2, hhigh⟩ := CalculateMifRec_total p order mark n (b.setMark id mark)
    (b.nodes id).high (hgF _ hf) (hnF _ hf) hc
  have hf1 := hf.frame_trans (CalculateMifRec_run p order mark n _ _ _ _ hhigh).frame
  obtain ⟨l, b3, hlow⟩ := CalculateMifRec_total p order mark n b2 (b.nodes id).low
    (hgF _ hf1) (hnF _ hf1)
    (lt_of_le_of_lt (CalculateMifRec_run p order mark n _ _ _ _ hhigh).frame.stale_card_le hc)
  obtain ⟨b4, h4, -⟩ := key n q h l b2 b3 hq hhigh hlow
  exact ⟨q, h, l, b2, b3, _, b4, hq, hhigh, hlow, h4⟩

/-- Witness of C22: the root of the diagram of `x1 ∧ x2` (order `1`) met with target
order `2`: `q = 1/10`, the call on the high edge returns `1` and the call on the
terminal behind the low edge returns `0`, so the result is `1/10`. -/
theorem CalculateMifRec_descend_witness :
    ∃ b4, CalculateMifRec (fun i => if i = 1 then 1 / 10 else 1 / 5) 2 true 2
        (andBdd (1 / 10) (1 / 5)) (.ite 0) = some (1 / 10, b4) ∧
      (b4.nodes 0).mark = true ∧ (b4.nodes 0).factor = 1 / 10 := by
  have hhigh : CalculateMifRec (fun i => if i = 1 then 1 / 10 else 1 / 5) 2 true 1
      ((andBdd (1 / 10) (1 / 5)).setMark 0 true) ((andBdd (1 / 10) (1 / 5)).nodes 0).high
      = some (1, (((andBdd (1 / 10) (1 / 5)).setMark 0 true).setMark 1 true).setFactor 1 1) := by
    simp [CalculateMifRec, andBdd, Bdd.setMark, Bdd.setFactor, RetrieveProbability]
  have hlow : CalculateMifRec (fun i => if i = 1 then 1 / 10 else 1 / 5) 2 true 1
      ((((andBdd (1 / 10) (1 / 5)).setMark 0 true).setMark 1 true).setFactor 1 1)
      ((andBdd (1 / 10) (1 / 5)).nodes 0).low
      = some (0, (((andBdd (1 / 10) (1 / 5)).setMark 0 true).setMark 1 true).setFactor 1 1) := by
    simp [CalculateMifRec, andBdd]
  obtain ⟨b4, h, hmark, hfac⟩ := (CalculateMifRec_descend
    (fun i => if i = 1 then 1 / 10 else 1 / 5) 2 true (andBdd (1 / 10) (1 / 5)) 0
    (by simp [andBdd]) (by simp [andBdd])).1 1 (1 / 10) 1 0 _ _
    (Or.inl ⟨by simp [andBdd], by simp [andBdd]⟩) hhigh hlow
  have hv : (1 / 10 : ℚ) * 1 + (1 - 1 / 10)
      * (if ((andBdd (1 / 10) (1 / 5)).nodes 0).complement_edge then -1 else 1) * 0
      = 1 / 10 := by simp
  rw [hv] at h hfac
  exact ⟨b4, h, hmark, hfac⟩

/-! ### Uniform marks as an invariant of `CalculateMif` -/

/-- C25: if every node carries the same mark before `CalculateMif(index)`, then every
node carries that mark again when the call returns, so uniformity of the marks is kept
by every call; on a diagram with a decision node `r` as root the pass runs with the
inverted mark of `r` as target mark, which no node carries before the call, and the
inverted mark of the root mismatches every node again after the call. -/
theorem CalculateMif_keeps_uniform_marks {n : Nat} (p : Int → ℚ) (b b2 : Bdd n) (index : Int)
    (mif : ℚ) (hu : UniformMarks b) (h : CalculateMif p b index = some (mif, b2)) :
    UniformMarks b2 ∧ (∀ j, (b2.nodes j).mark = (b.nodes j).mark) ∧
    ∀ r, b.root.vertex = .ite r →
      (∃ order b1, b.index_to_order index = some order ∧
        CalculateMifRec p order (!(b.nodes r).mark) (n + 1) b (.ite r) = some (mif, b1) ∧
        b2 = b1.ClearMarks (b.nodes r).mark) ∧
      (∀ j, (b.nodes j).mark ≠ !(b.nodes r).mark) ∧
      (∀ j, (b2.nodes j).mark = (b.nodes r).mark) ∧
      b2.root.vertex = .ite r ∧
      ∀ j, (b2.nodes j).mark ≠ !(b2.nodes r).mark := by
  have hne : ∀ m : Bool, m ≠ !m := by decide
  refine ⟨CalculateMif_uniformMarks hu h, ?_, ?_⟩
  · intro j
    rcases CalculateMif_some h with ⟨_, _, rfl⟩ | ⟨r, order, b1, _, _, _, rfl⟩
    · rfl
    · exact hu r j
  · intro r hr
    have h0 := h
    unfold CalculateMif at h0
    simp only [hr] at h0
    cases hio : b.index_to_order index with
    | none => simp [hio] at h0
    | some order =>
      simp only [hio] at h0
      cases hrec : CalculateMifRec p order (!(b.nodes r).mark) (n + 1) b (.ite r) with
      | none => simp [hrec] at h0
      | some x =>
        obtain ⟨m, b1⟩ := x
        simp only [hrec, Option.some.injEq, Prod.mk.injEq] at h0
        obtain ⟨rfl, rfl⟩ := h0
        refine ⟨⟨order, b1, rfl, hrec, rfl⟩, ?_, fun j => rfl, ?_, ?_⟩
        · intro j
          rw [hu j r]
          exact hne _
        · have hs := CalculateMif_sameShape h
          rw [hs.1]
          exact hr
        · intro j
          exact hne _

/-- Witness of C25 on the diagram of `x1 ∧ x2`, whose nodes all carry the mark `false`. -/
theorem CalculateMif_keeps_uniform_marks_witness :
    ∃ mif b2, CalculateMif (fun i => if i = 1 then 1 / 10 else 1 / 5)
        (andBdd (1 / 10) (1 / 5)) 1 = some (mif, b2) ∧
      UniformMarks b2 ∧ ∀ j, (b2.nodes j).mark = false := by
  obtain ⟨hu2, hm, -⟩ := CalculateMif_keeps_uniform_marks _ _ _ 1 _ (andBdd_uniformMarks _ _)
    andBdd_run_one
  refine ⟨_, _, andBdd_run_one, hu2, ?_⟩
  intro j
  rw [hm j]
  fin_cases j <;> simp [andBdd]

/-! ### The relation between RRW and CIF -/

/-- If no node below the vertex carries the target order, and the nodes below it that
already carry the target mark hold the factor `0`, the recursive `CalculateMif` returns
`0`, and every node that carries the target mark afterwards carried it before or holds
the factor `0`. -/
theorem CalculateMifRec_zero {n : Nat} (p : Int → ℚ) (order : Int) (mark : Bool) {b0 : Bdd n}
    (hacyc : Acyclic b0) (hg : GatesPresent b0) :
    ∀ (fuel : Nat) (b : Bdd n) (v : Vertex n), SameShape b0 b →
      (∀ u w, v = .ite u → Relation.ReflTransGen b0.step u w → (b0.nodes w).order ≠ order) →
      (∀ u w, v = .ite u → Relation.ReflTransGen b0.step u w → (b.nodes w).mark = mark →
        (b.nodes w).factor = 0) →
      (Finset.univ.filter fun j => (b.nodes j).mark ≠ mark).card < fuel →
      ∃ b2, CalculateMifRec p order mark fuel b v = some (0, b2) ∧
        ∀ w, (b2.nodes w).mark = mark → (b.nodes w).mark = mark ∨ (b2.nodes w).factor = 0 := by
  intro fuel
  induction fuel with
  | zero => intro b v _ _ _ h; omega
  | succ fuel ih =>
    intro b v hs hreach hpre hc
    cases v with
    | terminal => exact ⟨b, by simp [CalculateMifRec], fun w hw => Or.inl hw⟩
    | ite id =>
      by_cases hm : (b.nodes id).mark = mark
      · refine ⟨b, ?_, fun w hw => Or.inl hw⟩
        rw [CalculateMifRec, if_pos hm, hpre id id rfl Relation.ReflTransGen.refl hm]
      · have hord : (b.nodes id).order ≠ order := by
          rw [hs.shape_order_eq id]
          exact hreach id id rfl Relation.ReflTransGen.refl
        have hf1 := Frame.setMark mark b id
        have hs1 : SameShape b0 (b.setMark id mark) := hs.shape_trans hf1.sameShape
        have hc1 : (Finset.univ.filter fun j => ((b.setMark id mark).nodes j).mark ≠ mark).card
            < fuel := by
          have := stale_card_setMark mark b id hm
          omega
        have hsub : ∀ (c : Vertex n) (b1 : Bdd n), (∀ u, c = .ite u → b0.step id u) →
            Frame mark (b.setMark id mark) b1 →
            (∀ w, (b1.nodes w).mark = mark →
              ((b.setMark id mark).nodes w).mark = mark ∨ (b1.nodes w).factor = 0) →
            ∃ b2, CalculateMifRec p order mark fuel b1 c = some (0, b2) ∧
              Frame mark (b.setMark id mark) b2 ∧
              ∀ w, (b2.nodes w).mark = mark →
                ((b.setMark id mark).nodes w).mark = mark ∨ (b2.nodes w).factor = 0 := by
          intro c b1 hchild hfr hpost
          obtain ⟨b2, hrec, hp2⟩ := ih b1 c (hs1.shape_trans hfr.sameShape)
            (fun u w hu hr => hreach id w rfl (Relation.ReflTransGen.head (hchild u hu) hr))
            (fun u w hu hr hmark => by
              rcases hpost w hmark with h | h
              · have hwid : w ≠ id := by
                  intro hwid
                  rw [hwid] at hr
                  exact hacyc id (Relation.TransGen.head' (hchild u hu) hr)
                rw [(hfr.2.2.2 w).2.1 h]
                rw [setMark_nodes_ne _ _ _ _ hwid] at h ⊢
                exact hpre id w rfl (Relation.ReflTransGen.head (hchild u hu) hr) h
              · exact h)
            (lt_of_le_of_lt hfr.stale_card_le hc1)
          have hfr2 := (CalculateMifRec_run p order mark fuel _ _ _ _ hrec).frame
          refine ⟨b2, hrec, hfr.frame_trans hfr2, ?_⟩
          intro w hw
          rcases hp2 w hw with h | h
          · rcases hpost w h with h3 | h3
            · exact Or.inl h3
            · right
              rw [(hfr2.2.2.2 w).2.1 h]
              exact h3
          · exact Or.inr h
        have hfin : ∀ (b1 : Bdd n),
            (∀ w, (b1.nodes w).mark = mark →
              ((b.setMark id mark).nodes w).mark = mark ∨ (b1.nodes w).factor = 0) →
            ∀ w, ((b1.setFactor id 0).nodes w).mark = mark →
              (b.nodes w).mark = mark ∨ ((b1.setFactor id 0).nodes w).factor = 0 := by
          intro b1 hpost w hw
          by_cases hwid : w = id
          · subst hwid
            right
            rw [setFactor_nodes_self]
          · rw [setFactor_nodes_ne _ _ _ _ hwid] at hw ⊢
            rcases hpost w hw with h | h
            · rw [setMark_nodes_ne _ _ _ _ hwid] at h
              exact Or.inl h
            · exact Or.inr h
        rw [CalculateMifRec, if_neg hm]
        simp only [setMark_nodes_self, setFactor_nodes_self, retrieve_setMark, setMark_gates]
        by_cases h1 : (b.nodes id).order > order
        · rw [if_pos h1]
          cases hmod : (b.nodes id).module with
          | false =>
            simp only [if_true]
            exact ⟨_, rfl, hfin _ (fun w hw => Or.inl hw)⟩
          | true =>
            have hmod0 : (b0.nodes id).module = true := by
              rw [← hs.shape_module_eq id]; exact hmod
            obtain ⟨res, hres⟩ := Option.isSome_iff_exists.1 (hg id hmod0)
            have hres1 : b.gates (b.nodes id).index = some res := by
              rw [hs.shape_index_eq id, hs.2.1]; exact hres
            obtain ⟨b2, hrec, -, hp2⟩ := hsub res.vertex (b.setMark id mark)
              (fun u hu => Or.inr ⟨hmod0, res, hres, hu⟩) (Frame.frame_refl _ _)
              (fun w hw => Or.inl hw)
            refine ⟨b2.setFactor id 0, ?_, hfin _ hp2⟩
            simp [hres1, hrec]
        · rw [if_neg h1, if_neg hord]
          have hq : ∃ q, (if (b.nodes id).module = true then
                match b.gates (b.nodes id).index with
                | none => none
                | some res =>
                  some (if res.complement = true then 1 - RetrieveProbability b res.vertex
                    else RetrieveProbability b res.vertex)
              else some (p (b.nodes id).index)) = some q := by
            cases hmod : (b.nodes id).module with
            | false => exact ⟨p (b.nodes id).index, by simp⟩
            | true =>
              have hmod0 : (b0.nodes id).module = true := by
                rw [← hs.shape_module_eq id]; exact hmod
              obtain ⟨res, hres⟩ := Option.isSome_iff_exists.1 (hg id hmod0)
              have hres1 : b.gates (b.nodes id).index = some res := by
                rw [hs.shape_index_eq id, hs.2.1]; exact hres
              exact ⟨if res.complement = true then 1 - RetrieveProbability b res.vertex
                else RetrieveProbability b res.vertex, by simp [hres1]⟩
          obtain ⟨q, hq⟩ := hq
          obtain ⟨b2, hrec2, hfr2, hp2⟩ := hsub (b.nodes id).high (b.setMark id mark)
            (fun u hu => Or.inl (Or.inl (by rw [← hs.shape_high_eq id]; exact hu)))
            (Frame.frame_refl _ _) (fun w hw => Or.inl hw)
          have hs2 : SameShape b0 b2 := hs1.shape_trans hfr2.sameShape
          obtain ⟨b3, hrec3, -, hp3⟩ := hsub (b2.nodes id).low b2
            (fun u hu => Or.inl (Or.inr (by rw [← hs2.shape_low_eq id]; exact hu)))
            hfr2 hp2
          refine ⟨b3.setFactor id 0, ?_, hfin _ hp3⟩
          simp [hq, hrec2, hrec3]
/-- C28: on a well-formed diagram (acyclic, every module reference with its `gates`
entry) with uniform marks, with or without modules, if no decision node reached from the
root along edges and module references carries the order of the variable, then
`CalculateMif(index)` returns `0`. -/
theorem CalculateMif_untested_variable {n : Nat} (p : Int → ℚ) (b : Bdd n)
    (index order : Int) (hu : UniformMarks b) (hacyc : Acyclic b) (hg : GatesPresent b)
    (hio : b.index_to_order index = some order)
    (hno : ∀ r w, b.root.vertex = .ite r → Relation.ReflTransGen b.step r w →
      (b.nodes w).order ≠ order) :
    ∃ b2, CalculateMif p b index = some (0, b2) := by
  unfold CalculateMif
  cases hv : b.root.vertex with
  | terminal => exact ⟨_, rfl⟩
  | ite r =>
    simp only [hio]
    have hne : ∀ m : Bool, m ≠ !m := by decide
    obtain ⟨b1, h, -⟩ := CalculateMifRec_zero p order (!(b.nodes r).mark) hacyc hg (n + 1) b
      (.ite r) (SameShape.shape_refl b)
      (fun u w hu2 hr => by
        cases hu2
        exact hno r w hv hr)
      (fun u w _ _ hmark => by
        rw [hu w r] at hmark
        exact absurd hmark (hne _))
      (Nat.lt_succ_of_le (stale_card_le_arena b _))
    simp only [h]
    exact ⟨_, rfl⟩

theorem skipBdd_moduleFree (p1 p3 : ℚ) : ModuleFree (skipBdd p1 p3) := by
  intro j
  fin_cases j <;> simp [skipBdd]

theorem skipBdd_edgesIncrease (p1 p3 : ℚ) : EdgesIncrease (skipBdd p1 p3) := by
  intro u w h
  fin_cases u <;> fin_cases w <;> simp [Bdd.child, skipBdd] at h ⊢

theorem skipBdd_uniformMarks (p1 p3 : ℚ) : UniformMarks (skipBdd p1 p3) := by
  intro j k
  fin_cases j <;> fin_cases k <;> simp [skipBdd]

/-- Witness of C28: in the diagram of `x1 ∧ x3` no node tests variable 2, and
`CalculateMif(2)` returns `0`. -/
theorem CalculateMif_untested_variable_witness :
    (skipBdd (1 / 10) (1 / 5)).index_to_order 2 = some 2 ∧
    ∃ b2, CalculateMif (fun _ => 1 / 2) (skipBdd (1 / 10) (1 / 5)) 2 = some (0, b2) :=
  ⟨rfl, CalculateMif_untested_variable _ (skipBdd (1 / 10) (1 / 5)) 2 2
    (skipBdd_uniformMarks _ _)
    (moduleFree_acyclic (skipBdd_moduleFree _ _) (skipBdd_edgesIncrease _ _))
    (moduleFree_gatesPresent (skipBdd_moduleFree _ _)) rfl
    (fun r w _ _ => by fin_cases w <;> simp [skipBdd])⟩

/-! ### Memoization does not change the result -/

/-- C27: on a well-formed diagram (acyclic, every module reference with its `gates`
entry, the variable with an order that no module reference carries) with uniform marks,
whatever the sharing of nodes among edges, `CalculateMif(index)` returns, and its value is
the value of the recursion evaluated without the cache on the root vertex. -/
theorem CalculateMif_equals_uncached {n : Nat} (p : Int → ℚ) (b : Bdd n) (index order : Int)
    (hu : UniformMarks b) (hacyc : Acyclic b) (hg : GatesPresent b)
    (hio : b.index_to_order index = some order) (hno : NoModuleAt b order) :
    ∃ mif b2, CalculateMif p b index = some (mif, b2) ∧
      CalculateMifPure p order n b b.root.vertex = some mif := by
  obtain ⟨mif, b2, h⟩ := CalculateMif_total p b index order hio hg hno
  have hm := CalculateMif_eq_pure (SameShape.shape_refl b) hu hacyc hg hno hio h
  refine ⟨mif, b2, h, ?_⟩
  rw [hm]
  cases hv : b.root.vertex with
  | terminal => cases n <;> rfl
  | ite r =>
    obtain ⟨a, ha⟩ := CalculateMifPure_total p order hacyc hg hno n r (reach_ncard_le b r)
    rw [ha]
    show some a = some ((CalculateMifPure p order n b (.ite r)).getD 0)
    rw [ha]
    rfl

theorem xnorBdd_moduleFree (p1 p2 : ℚ) : ModuleFree (xnorBdd p1 p2) := by
  intro j
  fin_cases j <;> simp [xnorBdd]

theorem xnorBdd_edgesIncrease (p1 p2 : ℚ) : EdgesIncrease (xnorBdd p1 p2) := by
  intro u w h
  fin_cases u <;> fin_cases w <;> simp [Bdd.child, xnorBdd] at h ⊢

theorem xnorBdd_uniformMarks (p1 p2 : ℚ) : UniformMarks (xnorBdd p1 p2) := by
  intro j k
  fin_cases j <;> fin_cases k <;> simp [xnorBdd]

/-- Witness of C27: in the diagram of `x1 ↔ x2` node `1` is shared by both edges of the
root, once behind a complemented edge; for variable 2 the memoized and the uncached
recursion both return `p1 - (1 - p1) = -4/5`. -/
theorem CalculateMif_equals_uncached_witness :
    ∃ b2, CalculateMif (fun i => if i = 1 then 1 / 10 else 1 / 5)
        (xnorBdd (1 / 10) (1 / 5)) 2 = some (-4 / 5, b2) ∧
      CalculateMifPure (fun i => if i = 1 then 1 / 10 else 1 / 5) 2 2
        (xnorBdd (1 / 10) (1 / 5)) (xnorBdd (1 / 10) (1 / 5)).root.vertex = some (-4 / 5) := by
  obtain ⟨mif, b2, h, hp⟩ := CalculateMif_equals_uncached
    (fun i => if i = 1 then 1 / 10 else 1 / 5) (xnorBdd (1 / 10) (1 / 5)) 2 2
    (xnorBdd_uniformMarks _ _)
    (moduleFree_acyclic (xnorBdd_moduleFree _ _) (xnorBdd_edgesIncrease _ _))
    (moduleFree_gatesPresent (xnorBdd_moduleFree _ _)) rfl
    (moduleFree_noModuleAt (xnorBdd_moduleFree _ _) _)
  have hval : CalculateMifPure (fun i => if i = 1 then 1 / 10 else 1 / 5) 2 2
      (xnorBdd (1 / 10) (1 / 5)) (xnorBdd (1 / 10) (1 / 5)).root.vertex = some (-4 / 5) := by
    simp [CalculateMifPure, xnorBdd, RetrieveProbability]
    norm_num
  rw [hval] at hp
  cases hp
  exact ⟨b2, h, hval⟩

/-! ### Termination and the writes of one pass -/

theorem CalculateMifTrace_terminal {n : Nat} (p : Int → ℚ) (order : Int) (mark : Bool)
    (fuel : Nat) (b : Bdd n) :
    CalculateMifTrace p order mark fuel b .terminal = .ok (0, b, []) := by
  cases fuel <;> rfl

/-- The recursion with the log is the recursion: without the log and the reason of a
missing result, its answer is the answer of `CalculateMifRec`. -/
theorem CalculateMifTrace_erase {n : Nat} (p : Int → ℚ) (order : Int) (mark : Bool) :
    ∀ (fuel : Nat) (b : Bdd n) (v : Vertex n),
      (CalculateMifTrace p order mark fuel b v).toOption.map (fun r => (r.1, r.2.1))
        = CalculateMifRec p order mark fuel b v := by
  intro fuel
  induction fuel with
  | zero => intro b v; cases v <;> rfl
  | succ fuel ih =>
    intro b v
    cases v with
    | terminal => rfl
    | ite id =>
      rw [CalculateMifTrace, CalculateMifRec]
      simp only [← ih, setMark_nodes_self, setFactor_nodes_self, retrieve_setMark, setMark_gates]
      by_cases hm : (b.nodes id).mark = mark
      · simp [hm, Except.toOption]
      · simp only [if_neg hm]
        by_cases h1 : (b.nodes id).order > order
        · simp only [if_pos h1]
          by_cases hmod : (b.nodes id).module = false
          · simp [hmod, Except.toOption]
          · simp only [if_neg hmod]
            cases hres : b.gates (b.nodes id).index with
            | none => simp [Except.toOption]
            | some res =>
              simp only []
              cases hT : CalculateMifTrace p order mark fuel (b.setMark id mark) res.vertex with
              | error e => simp [Except.toOption]
              | ok x =>
                obtain ⟨m, b2, log⟩ := x
                simp [Except.toOption]
        · simp only [if_neg h1]
          by_cases h2 : (b.nodes id).order = order
          · simp only [if_pos h2]
            cases hmod : (b.nodes id).module <;> simp [Except.toOption]
          · simp only [if_neg h2]
            cases hmod : (b.nodes id).module
            · simp only [Bool.false_eq_true, if_false]
              cases hT : CalculateMifTrace p order mark fuel (b.setMark id mark)
                  (b.nodes id).high with
              | error e => simp [Except.toOption]
              | ok x =>
                obtain ⟨h, b2, log1⟩ := x
                simp only [Except.toOption, Option.map_some']
                cases hT2 : CalculateMifTrace p order mark fuel b2 (b2.nodes id).low with
                | error e => simp [Except.toOption]
                | ok y =>
                  obtain ⟨l, b3, log2⟩ := y
                  simp [Except.toOption]
            · simp only [if_true]
              cases hres : b.gates (b.nodes id).index with
              | none => simp [Except.toOption]
              | some res =>
                simp only []
                cases hT : CalculateMifTrace p order mark fuel (b.setMark id mark)
                    (b.nodes id).high with
                | error e => simp [Except.toOption]
                | ok x =>
                  obtain ⟨h, b2, log1⟩ := x
                  simp only [Except.toOption, Option.map_some']
                  cases hT2 : CalculateMifTrace p order mark fuel b2 (b2.nodes id).low with
                  | error e => simp [Except.toOption]
                  | ok y =>
                    obtain ⟨l, b3, log2⟩ := y
                    simp [Except.toOption]
theorem CalculateMifTrace_ok_rec {n : Nat} {p : Int → ℚ} {order : Int} {mark : Bool}
    {fuel : Nat} {b b2 : Bdd n} {v : Vertex n} {r : ℚ} {log : List (Fin n)}
    (h : CalculateMifTrace p order mark fuel b v = .ok (r, b2, log)) :
    CalculateMifRec p order mark fuel b v = some (r, b2) := by
  rw [← CalculateMifTrace_erase, h]
  rfl

theorem CalculateMifTrace_of_rec {n : Nat} {p : Int → ℚ} {order : Int} {mark : Bool}
    {fuel : Nat} {b b2 : Bdd n} {v : Vertex n} {r : ℚ}
    (h : CalculateMifRec p order mark fuel b v = some (r, b2)) :
    ∃ log, CalculateMifTrace p order mark fuel b v = .ok (r, b2, log) := by
  rw [← CalculateMifTrace_erase] at h
  cases hT : CalculateMifTrace p order mark fuel b v with
  | error e => rw [hT] at h; simp [Except.toOption] at h
  | ok x =>
    obtain ⟨r2, b3, log⟩ := x
    rw [hT] at h
    simp only [Except.toOption, Option.map_some', Option.some.injEq, Prod.mk.injEq] at h
    obtain ⟨rfl, rfl⟩ := h
    exact ⟨log, rfl⟩

theorem CalculateMifTrace_frame {n : Nat} {p : Int → ℚ} {order : Int} {mark : Bool}
    {fuel : Nat} {b b2 : Bdd n} {v : Vertex n} {r : ℚ} {log : List (Fin n)}
    (h : CalculateMifTrace p order mark fuel b v = .ok (r, b2, log)) : Frame mark b b2 :=
  (CalculateMifRec_run p order mark fuel _ _ _ _ (CalculateMifTrace_ok_rec h)).frame

/-- Shape of a computing call: the node is marked, at most two calls follow one after
the other, and the node is written last. -/
theorem CalculateMifTrace_inv {n : Nat} (p : Int → ℚ) (order : Int) (mark : Bool)
    (fuel : Nat) (b : Bdd n) (id : Fin n) (r : ℚ) (bF : Bdd n) (log : List (Fin n))
    (hm : (b.nodes id).mark ≠ mark)
    (h : CalculateMifTrace p order mark (fuel + 1) b (.ite id) = .ok (r, bF, log)) :
    ∃ c1 c2 h1 h2 b2 b3 log1 log2 x,
      CalculateMifTrace p order mark fuel (b.setMark id mark) c1 = .ok (h1, b2, log1) ∧
      CalculateMifTrace p order mark fuel b2 c2 = .ok (h2, b3, log2) ∧
      log = log1 ++ log2 ++ [id] ∧ bF = b3.setFactor id x := by
  have ht : ∀ b1 : Bdd n, CalculateMifTrace p order mark fuel b1 .terminal = .ok (0, b1, []) :=
    CalculateMifTrace_terminal p order mark fuel
  rw [CalculateMifTrace, if_neg hm] at h
  simp only [setMark_nodes_self, setFactor_nodes_self, retrieve_setMark, setMark_gates] at h
  by_cases h1 : (b.nodes id).order > order
  · simp only [if_pos h1] at h
    by_cases hmod : (b.nodes id).module = false
    · simp only [if_pos hmod, Except.ok.injEq, Prod.mk.injEq] at h
      obtain ⟨-, rfl, rfl⟩ := h
      exact ⟨.terminal, .terminal, 0, 0, _, _, [], [], 0, ht _, ht _, rfl, rfl⟩
    · simp only [if_neg hmod] at h
      cases hres : b.gates (b.nodes id).index with
      | none => simp [hres] at h
      | some res =>
        simp only [hres] at h
        cases hT : CalculateMifTrace p order mark fuel (b.setMark id mark) res.vertex with
        | error e => simp [hT] at h
        | ok y =>
          obtain ⟨m, b2, log1⟩ := y
          simp only [hT, Except.ok.injEq, Prod.mk.injEq] at h
          obtain ⟨-, rfl, rfl⟩ := h
          exact ⟨res.vertex, .terminal, m, 0, b2, b2, log1, [], _, hT, ht _, by simp, rfl⟩
  · simp only [if_neg h1] at h
    by_cases h2 : (b.nodes id).order = order
    · simp only [if_pos h2] at h
      cases hmod : (b.nodes id).module with
      | true => simp [hmod] at h
      | false =>
        simp only [hmod, Bool.false_eq_true, if_false, Except.ok.injEq, Prod.mk.injEq] at h
        obtain ⟨-, rfl, rfl⟩ := h
        exact ⟨.terminal, .terminal, 0, 0, _, _, [], [], _, ht _, ht _, rfl, rfl⟩
    · simp only [if_neg h2] at h
      revert h
      generalize (if (b.nodes id).module = true then
          match b.gates (b.nodes id).index with
          | none => Except.error Failure.gate
          | some res =>
            Except.ok (if res.complement = true then 1 - RetrieveProbability b res.vertex
              else RetrieveProbability b res.vertex)
          else Except.ok (p (b.nodes id).index)) = vp
      intro h
      cases vp with
      | error e => simp at h
      | ok q =>
        simp only at h
        cases hT : CalculateMifTrace p order mark fuel (b.setMark id mark)
            (b.nodes id).high with
        | error e => simp [hT] at h
        | ok y =>
          obtain ⟨hh, b2, log1⟩ := y
          simp only [hT] at h
          cases hT2 : CalculateMifTrace p order mark fuel b2 (b2.nodes id).low with
          | error e => simp [hT2] at h
          | ok z =>
            obtain ⟨l, b3, log2⟩ := z
            simp only [hT2, Except.ok.injEq, Prod.mk.injEq] at h
            obtain ⟨-, rfl, rfl⟩ := h
            exact ⟨_, _, hh, l, b2, b3, log1, log2, _, hT, hT2, rfl, rfl⟩

theorem setFactor_nodes_mark {n : Nat} (b : Bdd n) (id w : Fin n) (x : ℚ) :
    ((b.setFactor id x).nodes w).mark = (b.nodes w).mark := by
  by_cases h : w = id
  · subst h; rw [setFactor_nodes_self]
  · rw [setFactor_nodes_ne _ _ _ _ h]

/-- The log of a call has no repetition, and its nodes are exactly those that did not
carry the target mark before the call and carry it afterwards. -/
theorem CalculateMifTrace_log {n : Nat} (p : Int → ℚ) (order : Int) (mark : Bool) :
    ∀ (fuel : Nat) (b : Bdd n) (v : Vertex n) (r : ℚ) (b2 : Bdd n) (log : List (Fin n)),
      CalculateMifTrace p order mark fuel b v = .ok (r, b2, log) →
      log.Nodup ∧ ∀ w, w ∈ log ↔ ((b.nodes w).mark ≠ mark ∧ (b2.nodes w).mark = mark) := by
  intro fuel
  induction fuel with
  | zero =>
    intro b v r b2 log h
    cases v with
    | terminal =>
      simp only [CalculateMifTrace, Except.ok.injEq, Prod.mk.injEq] at h
      obtain ⟨-, rfl, rfl⟩ := h
      exact ⟨List.nodup_nil, fun w => by simp⟩
    | ite id => simp [CalculateMifTrace] at h
  | succ fuel ih =>
    intro b v r bF log h
    cases v with
    | terminal =>
      simp only [CalculateMifTrace, Except.ok.injEq, Prod.mk.injEq] at h
      obtain ⟨-, rfl, rfl⟩ := h
      exact ⟨List.nodup_nil, fun w => by simp⟩
    | ite id =>
      by_cases hm : (b.nodes id).mark = mark
      · rw [CalculateMifTrace, if_pos hm] at h
        simp only [Except.ok.injEq, Prod.mk.injEq] at h
        obtain ⟨-, rfl, rfl⟩ := h
        exact ⟨List.nodup_nil, fun w => by simp⟩
      · obtain ⟨c1, c2, h1, h2, b2, b3, log1, log2, x, hT1, hT2, rfl, rfl⟩ :=
          CalculateMifTrace_inv p order mark fuel b id r bF log hm h
        obtain ⟨nd1, m1⟩ := ih _ _ _ _ _ hT1
        obtain ⟨nd2, m2⟩ := ih _ _ _ _ _ hT2
        have hf1 := CalculateMifTrace_frame hT1
        have hf2 := CalculateMifTrace_frame hT2
        have hid1 : ((b.setMark id mark).nodes id).mark = mark := by simp
        have hid2 : (b2.nodes id).mark = mark := by
          rw [(hf1.2.2.2 id).2.1 hid1]; exact hid1
        have hid3 : (b3.nodes id).mark = mark := by
          rw [(hf2.2.2.2 id).2.1 hid2]; exact hid2
        have keep2 : ∀ w, (b2.nodes w).mark = mark → (b3.nodes w).mark = mark := by
          intro w hw
          rw [(hf2.2.2.2 w).2.1 hw]; exact hw
        have keep1 : ∀ w, ((b.setMark id mark).nodes w).mark = mark →
            (b2.nodes w).mark = mark := by
          intro w hw
          rw [(hf1.2.2.2 w).2.1 hw]; exact hw
        constructor
        · rw [List.nodup_append]
          refine ⟨?_, List.nodup_singleton id, ?_⟩
          · rw [List.nodup_append]
            refine ⟨nd1, nd2, ?_⟩
            intro w hw1 hw2
            exact ((m2 w).1 hw2).1 ((m1 w).1 hw1).2
          · intro w hw hw2
            rw [List.mem_singleton] at hw2
            subst hw2
            rcases List.mem_append.1 hw with hw1 | hw1
            · exact ((m1 w).1 hw1).1 hid1
            · exact ((m2 w).1 hw1).1 hid2
        · intro w
          rw [setFactor_nodes_mark]
          constructor
          · intro hw
            rcases List.mem_append.1 hw with hw1 | hw1
            · rcases List.mem_append.1 hw1 with hw2 | hw2
              · have := (m1 w).1 hw2
                have hwid : w ≠ id := fun hwid => this.1 (by rw [hwid]; exact hid1)
                rw [setMark_nodes_ne _ _ _ _ hwid] at this
                exact ⟨this.1, keep2 w this.2⟩
              · have := (m2 w).1 hw2
                have hwid : w ≠ id := fun hwid => this.1 (by rw [hwid]; exact hid2)
                refine ⟨fun hb => this.1 (keep1 w ?_), this.2⟩
                rw [setMark_nodes_ne _ _ _ _ hwid]
                exact hb
            · rw [List.mem_singleton] at hw1
              subst hw1
              exact ⟨hm, hid3⟩
          · intro ⟨hw1, hw3⟩
            by_cases hwid : w = id
            · subst hwid; simp
            · by_cases hw2 : (b2.nodes w).mark = mark
              · have : w ∈ log1 := (m1 w).2 ⟨by rw [setMark_nodes_ne _ _ _ _ hwid]; exact hw1, hw2⟩
                simp [this]
              · have : w ∈ log2 := (m2 w).2 ⟨hw2, hw3⟩
                simp [this]
/-- With every module entry in `gates` and more fuel than nodes without the target
mark, a call neither runs out of fuel nor misses an entry of `gates`: it returns, or it
stops at the assertion of the branch of the target order. -/
theorem CalculateMifTrace_progress {n : Nat} (p : Int → ℚ) (order : Int) (mark : Bool) :
    ∀ (fuel : Nat) (b : Bdd n) (v : Vertex n), GatesPresent b →
      (Finset.univ.filter fun j => (b.nodes j).mark ≠ mark).card < fuel →
      ∀ e, CalculateMifTrace p order mark fuel b v = .error e → e = .assertion := by
  intro fuel
  induction fuel with
  | zero => intro b v _ h; omega
  | succ fuel ih =>
    intro b v hg hc e h
    cases v with
    | terminal => simp [CalculateMifTrace] at h
    | ite id =>
      by_cases hm : (b.nodes id).mark = mark
      · rw [CalculateMifTrace, if_pos hm] at h
        simp at h
      · have hf1 := Frame.setMark mark b id
        have hg1 : GatesPresent (b.setMark id mark) := hf1.sameShape.gatesPresent hg
        have hc1 : (Finset.univ.filter fun j => ((b.setMark id mark).nodes j).mark ≠ mark).card
            < fuel := by
          have := stale_card_setMark mark b id hm
          omega
        rw [CalculateMifTrace, if_neg hm] at h
        simp only [setMark_nodes_self, setFactor_nodes_self, retrieve_setMark, setMark_gates]
          at h
        have hsub : ∀ c e2, CalculateMifTrace p order mark fuel (b.setMark id mark) c
            = .error e2 → e2 = .assertion := fun c e2 => ih _ c hg1 hc1 e2
        have hsub2 : ∀ c1 c2 h1 b2 log1 e2,
            CalculateMifTrace p order mark fuel (b.setMark id mark) c1 = .ok (h1, b2, log1) →
            CalculateMifTrace p order mark fuel b2 c2 = .error e2 → e2 = .assertion := by
          intro c1 c2 h1 b2 log1 e2 hT1 hT2
          have hfr := CalculateMifTrace_frame hT1
          exact ih b2 c2 (hfr.sameShape.gatesPresent hg1)
            (lt_of_le_of_lt hfr.stale_card_le hc1) e2 hT2
        have hdesc : ∀ q : ℚ,
            (match CalculateMifTrace p order mark fuel (b.setMark id mark) (b.nodes id).high with
              | .error e => (Except.error e : Except Failure (ℚ × Bdd n × List (Fin n)))
              | .ok (high, b2, log1) =>
                match CalculateMifTrace p order mark fuel b2 (b2.nodes id).low with
                | .error e => .error e
                | .ok (low0, b3, log2) =>
                  .ok (q * high + (1 - q) * (if (b3.nodes id).complement_edge = true
                      then -low0 else low0),
                    b3.setFactor id (q * high + (1 - q) * (if (b3.nodes id).complement_edge
                      = true then -low0 else low0)), log1 ++ log2 ++ [id])) = .error e →
            e = .assertion := by
          intro q h
          cases hT : CalculateMifTrace p order mark fuel (b.setMark id mark)
              (b.nodes id).high with
          | error e2 =>
            simp only [hT, Except.error.injEq] at h
            subst h
            exact hsub _ _ hT
          | ok y =>
            obtain ⟨hh, b2, log1⟩ := y
            simp only [hT] at h
            cases hT2 : CalculateMifTrace p order mark fuel b2 (b2.nodes id).low with
            | error e2 =>
              simp only [hT2, Except.error.injEq] at h
              subst h
              exact hsub2 _ _ _ _ _ _ hT hT2
            | ok z => simp [hT2] at h
        by_cases h1 : (b.nodes id).order > order
        · simp only [if_pos h1] at h
          cases hmod : (b.nodes id).module with
          | false => simp [hmod] at h
          | true =>
            obtain ⟨res, hres⟩ := Option.isSome_iff_exists.1 (hg id hmod)
            simp only [hmod, Bool.true_eq_false, if_false, hres] at h
            cases hT : CalculateMifTrace p order mark fuel (b.setMark id mark) res.vertex with
            | error e2 =>
              simp only [hT, Except.error.injEq] at h
              subst h
              exact hsub _ _ hT
            | ok y => simp [hT] at h
        · simp only [if_neg h1] at h
          by_cases h2 : (b.nodes id).order = order
          · simp only [if_pos h2] at h
            cases hmod : (b.nodes id).module with
            | false => simp [hmod] at h
            | true =>
              simp only [hmod, if_true, Except.error.injEq] at h
              exact h.symm
          · simp only [if_neg h2] at h
            cases hmod : (b.nodes id).module with
            | false =>
              simp only [hmod, Bool.false_eq_true, if_false] at h
              exact hdesc _ h
            | true =>
              obtain ⟨res, hres⟩ := Option.isSome_iff_exists.1 (hg id hmod)
              simp only [hmod, if_true, hres] at h
              exact hdesc _ h

/-- C26: on every diagram with every module entry in `gates`, whatever the marks, the
target order and the target mark, the recursive `CalculateMif` terminates: with the fuel
`n + 1` of the public entry point it returns or, when a module reference carries the
target order, stops at the assertion of the code; it returns when no module reference
carries the target order.  In every call that returns, the nodes whose factor is written
are listed without repetition: they are exactly the nodes that did not carry the target
mark before the call and carry it afterwards, each written once. -/
theorem CalculateMifRec_terminates_writes_once {n : Nat} (p : Int → ℚ) (order : Int)
    (mark : Bool) (b : Bdd n) (v : Vertex n) (hg : GatesPresent b) :
    ((∃ r b2 log, CalculateMifTrace p order mark (n + 1) b v = .ok (r, b2, log)) ∨
      (CalculateMifTrace p order mark (n + 1) b v = .error .assertion ∧
        ¬ NoModuleAt b order)) ∧
    (NoModuleAt b order → ∃ r b2, CalculateMifRec p order mark (n + 1) b v = some (r, b2)) ∧
    ∀ fuel r b2, CalculateMifRec p order mark fuel b v = some (r, b2) →
      ∃ log, CalculateMifTrace p order mark fuel b v = .ok (r, b2, log) ∧ log.Nodup ∧
        ∀ w, w ∈ log ↔ ((b.nodes w).mark ≠ mark ∧ (b2.nodes w).mark = mark) := by
  have hc : (Finset.univ.filter fun j => (b.nodes j).mark ≠ mark).card < n + 1 :=
    Nat.lt_succ_of_le (stale_card_le_arena b mark)
  have htot : NoModuleAt b order →
      ∃ r b2, CalculateMifRec p order mark (n + 1) b v = some (r, b2) :=
    fun hno => CalculateMifRec_total p order mark (n + 1) b v hg hno hc
  refine ⟨?_, htot, ?_⟩
  · cases hT : CalculateMifTrace p order mark (n + 1) b v with
    | ok x =>
      obtain ⟨r, b2, log⟩ := x
      exact Or.inl ⟨r, b2, log, rfl⟩
    | error e =>
      have he := CalculateMifTrace_progress p order mark (n + 1) b v hg hc e hT
      subst he
      refine Or.inr ⟨rfl, ?_⟩
      intro hno
      obtain ⟨r, b2, h⟩ := htot hno
      obtain ⟨log, hlog⟩ := CalculateMifTrace_of_rec h
      rw [hT] at hlog
      cases hlog
  · intro fuel r b2 h
    obtain ⟨log, hlog⟩ := CalculateMifTrace_of_rec h
    obtain ⟨nd, hmem⟩ := CalculateMifTrace_log p order mark fuel b v r b2 log hlog
    exact ⟨log, hlog, nd, hmem⟩

/-- Witness of C26: in the diagram `x1 ∧ M` with `M = x2`, the pass for variable 2 from
the root writes the root of the module, the module reference and the root, each once. -/
theorem CalculateMifRec_terminates_writes_once_witness :
    ∃ r b2, CalculateMifRec (fun i => if i = 1 then 1 / 10 else 1 / 5) 2 true 4
        (outerModuleBdd (1 / 10) (1 / 5)) (.ite 0) = some (r, b2) ∧
      CalculateMifTrace (fun i => if i = 1 then 1 / 10 else 1 / 5) 2 true 4
        (outerModuleBdd (1 / 10) (1 / 5)) (.ite 0) = .ok (r, b2, [2, 1, 0]) := by
  have hAll := CalculateMifRec_terminates_writes_once
    (fun i => if i = 1 then 1 / 10 else 1 / 5) 2 true (outerModuleBdd (1 / 10) (1 / 5)) (.ite 0)
    (outerModuleBdd_gatesPresent _ _)
  obtain ⟨r, b2, h⟩ := hAll.2.1 (by
    intro j hj
    fin_cases j <;> simp [outerModuleBdd] at hj ⊢)
  obtain ⟨log, hlog, -, hmem⟩ := hAll.2.2 4 r b2 h
  refine ⟨r, b2, h, ?_⟩
  have hval : ∃ r3 b3, CalculateMifTrace (fun i => if i = 1 then 1 / 10 else 1 / 5) 2 true 4
      (outerModuleBdd (1 / 10) (1 / 5)) (.ite 0) = .ok (r3, b3, [2, 1, 0]) := by
    simp [CalculateMifTrace, outerModuleBdd, Bdd.setMark, Bdd.setFactor, RetrieveProbability]
  obtain ⟨r3, b3, h3⟩ := hval
  rw [h3] at hlog ⊢
  simp only [Except.ok.injEq, Prod.mk.injEq] at hlog
  obtain ⟨rfl, rfl, -⟩ := hlog
  rfl

/-! ### The formula built from the event dialog -/

theorem extract_foldl_length {σ α : Type} (w : MainWindow σ α) :
    ∀ (args : List String) (acc : σ × List α),
      (args.foldl
        (fun (acc : σ × List α) (arg : String) =>
          let e := getEvent w acc.1 arg
          (e.1, acc.2 ++ [e.2])) acc).2.length = acc.2.length + args.length
  | [], acc => by simp
  | a :: rest, acc => by
    rw [List.foldl_cons, extract_foldl_length w rest]
    simp
    omega

/-- C30: the formula that `extract` builds carries the connective of the dialog and one
argument per argument of the dialog, but never a min number: for the at-least connective
the value of `dialog.minNumber()` is read and dropped, so the dialog with the connective
at-least, the min number `2` and three arguments yields a formula without min number. -/
theorem extract_drops_min_number {σ α : Type} (w : MainWindow σ α) (s : σ) :
    (∀ dialog : EventDialog,
      (extract w s dialog).2.minNumber = none ∧
      (extract w s dialog).2.connective = dialog.connective ∧
      (extract w s dialog).2.arg_set.length = dialog.arguments.length) ∧
    (extract w s
      { arguments := ["a", "b", "c"], connective := Connective.kAtleast, minNumber := 2 }
      ).2.minNumber ≠ some 2 := by
  have hmin : ∀ dialog : EventDialog, (extract w s dialog).2.minNumber = none := by
    intro dialog
    simp [extract]
  refine ⟨fun dialog => ⟨hmin dialog, rfl, ?_⟩, ?_⟩
  · have := extract_foldl_length w dialog.arguments (s, [])
    simpa [extract] using this
  · rw [hmin]
    simp

end Scram
